import Mathlib

/-!
The stripe placement engine of scat

A shallow embedding of `stripe/stripe.go` (the striping algorithm `S.Stripe`),
of `stores/stripe.go` (the stripe processor `stripeP.Procs`) and of
`procs/checksum.go` (the checksum processor), with the properties of the
placement engine stated and proved over it.

Modelling conventions.

* Items and locations are opaque, comparable map keys in the source
  (`interface{}`); here they are natural-number identifiers (never Go's `nil`).
* A Go map is an association list without repeated keys, a Go set
  (`map[loc]struct{}`) a list without repetition.  The order of the list is the
  order in which one run of the program happens to iterate the map, so a
  statement quantified over all lists covers every iteration order.
* `seq.Next()` is a stream indexed by the number of values pulled so far; the
  position is threaded through the calls.  `none` stands for a `nil` value.
* Loops that need not terminate take a fuel argument and return `none` when it
  runs out.
-/

namespace Scat

/-! ## stripe/stripe.go -/

/-- A location identifier (`loc`). -/
abbrev Loc := Nat

/-- An item identifier (`item`). -/
abbrev Item := Nat

/-- The set type `Locs` (`map[loc]struct{}`), in iteration order. -/
abbrev Locs := List Loc

/-- The map type `S` (`map[item]Locs`), in iteration order. -/
abbrev S := List (Item × Locs)

/-- The error value `ShortError`. -/
structure ShortError where
  Distinct : Int
  Min : Int
  Avail : Int
deriving DecidableEq, Repr

/-- A sequence `Seq`: the value returned by the `n`-th call of `Next()`. -/
abbrev Seq := Nat → Option Loc

/-- Assignment `s[it] = locs` on a map. -/
def S.set (s : S) (it : Item) (locs : Locs) : S :=
  (it, locs) :: s.filter (fun p => p.1 ≠ it)

/-- `S.exclusive`: no other item of `s` shares a location with `s[it]`.  The
shorter of the two sets is scanned for members of the longer one. -/
def S.exclusive (s : S) (it : Item) : Bool :=
  match s.lookup it with
  | none => true
  | some locs =>
    s.all fun p =>
      if p.1 = it then true
      else
        let ab : Locs × Locs :=
          if p.2.length < locs.length then (p.2, locs) else (locs, p.2)
        ab.1.all fun loc => !(ab.2.contains loc)

/-- The values captured by the closures of one `Stripe` call. -/
structure Env where
  dests : Locs
  seq : Seq
  distinct : Int
  min : Int

/-- The variables mutated while one item is being placed: the work list `old`,
the set `seen`, the set `newLocs`, the position of `seq` and the counters
`prios`. -/
structure Cur where
  old : List Loc
  seen : Locs
  newLocs : Locs
  pos : Nat
  prios : Loc → Nat

/-- What the closure `next` returns: `(nil, err)`, `(nil, nil)` or `(new, nil)`. -/
inductive NextRes where
  | err (e : ShortError)
  | skip
  | loc (new : Loc)
deriving DecidableEq, Repr

/-- The closure `next` of `S.Stripe` for an item whose admissible existing
locations are `got`. -/
def next (env : Env) (got : Locs) (c : Cur) : NextRes × Cur :=
  match c.old with
  | new :: rest => (.loc new, { c with old := rest })
  | [] =>
    let c1 : Cur := { c with pos := c.pos + 1 }
    match env.seq c.pos with
    | none => (.skip, c1)
    | some new =>
      if new ∉ env.dests then (.skip, c1)
      else if new ∉ got ∧ 0 < c.prios new then
        (.skip, { c1 with prios := fun l => if l = new then c.prios new - 1 else c.prios l })
      else if new ∈ c.seen then
        (.err { Distinct := env.distinct, Min := env.min, Avail := c.newLocs.length }, c1)
      else (.loc new, { c1 with seen := new :: c.seen })

/-- The placement loop of one item, `for len(newLocs) < min { for { ... } }`.
Every `continue` of the inner loop leaves `newLocs` as it was, so that
`len(newLocs) < min` still holds and both loops are one loop whose body calls
`next` once.  `res` is the result map when the item is entered; `res[it]` is
`newLocs`.  The fuel bounds the number of calls of `next`. -/
def fill (env : Env) (it : Item) (got : Locs) (res : S) :
    Nat → Cur → Option (Option ShortError × Cur)
  | 0, c => if (c.newLocs.length : Int) < env.min then none else some (none, c)
  | fuel + 1, c =>
    if (c.newLocs.length : Int) < env.min then
      match next env got c with
      | (.err e, c1) => some (some e, c1)
      | (.skip, c1) => fill env it got res fuel c1
      | (.loc new, c1) =>
        if new ∈ c1.newLocs then fill env it got res fuel c1
        else if ((new :: c1.newLocs).length : Int) ≤ env.distinct
            ∧ S.exclusive (res.set it (new :: c1.newLocs)) it = false then
          fill env it got res fuel c1
        else fill env it got res fuel { c1 with newLocs := new :: c1.newLocs }
    else some (none, c)

/-- The result of a `Stripe` call. -/
inductive Outcome where
  | ok (res : S)
  | short (e : ShortError)
deriving DecidableEq, Repr

/-- The admissible existing locations `got` of an item. -/
def gotOf (dests : Locs) (locs : Locs) : Locs :=
  locs.filter (fun loc => loc ∈ dests)

/-- The map `exist` built by the first loop of `S.Stripe`. -/
def existOf (dests : Locs) (s : S) : S :=
  s.map fun p => (p.1, gotOf dests p.2)

/-- The counters `prios` built by the first loop of `S.Stripe`: `prios[loc]++`
for every item and every admissible location of it.  (The counter is a `uint`;
it is bounded by the number of items and cannot wrap.) -/
def priosOf (dests : Locs) (s : S) : Loc → Nat :=
  s.foldl
    (fun pr p =>
      (gotOf dests p.2).foldl (fun pr loc l => if l = loc then pr loc + 1 else pr l) pr)
    (fun _ => 0)

/-- The loop `for _, it := range items` of `S.Stripe`, over the entries of
`exist` that remain to be visited (`items` holds the keys of `exist`, so the
lookup `exist[it]` succeeds and `panic("invalid item")` is not reached). -/
def stripeItems (env : Env) (fuel : Nat) :
    List (Item × Locs) → S → Nat → (Loc → Nat) → Option (Outcome × Nat)
  | [], res, pos, _ => some (.ok res, pos)
  | (it, got) :: rest, res, pos, prios =>
    match fill env it got (res.set it []) fuel
        { old := got, seen := [], newLocs := [], pos := pos, prios := prios } with
    | none => none
    | some (some e, c) => some (.short e, c.pos)
    | some (none, c) => stripeItems env fuel rest (res.set it c.newLocs) c.pos c.prios

/-- The last loop of `S.Stripe`: `delete(new, loc)` for every `loc` of
`exist[it]`. -/
def subtractExist (exist : S) (res : S) : S :=
  res.map fun p => (p.1, p.2.filter (fun loc => loc ∉ (exist.lookup p.1).getD []))

/-- `S.Stripe` with the default `sortItems` (which leaves `items` as they were
enumerated).  `pos` is the state of `seq` at the call; the result carries the
state of `seq` at the return.  `none`: the call has not returned within
`fuel` calls of `next` for one item. -/
def Stripe (fuel : Nat) (s : S) (dests : Locs) (seq : Seq) (pos : Nat) (distinct min : Int) :
    Option (Outcome × Nat) :=
  let env : Env := { dests := dests, seq := seq, distinct := distinct, min := min }
  let exist := existOf dests s
  match stripeItems env fuel exist [] pos (priosOf dests s) with
  | some (.ok res, pos1) => some (.ok (subtractExist exist res), pos1)
  | r => r

/-- Modelled from the spec: the round-robin sequence `stripe.RR` (its source
is not part of the files at hand).  For a list `[a, b, c]` it yields
`a, b, c, a, b, c, …`; `start` is the number of values pulled before. -/
def rr (items : List Loc) (start : Nat) : Seq :=
  fun n => items[(start + n) % items.length]?

/-- `Config.Stripe`: the striper with fixed `Distinct` and `Min`. -/
structure Config where
  Distinct : Int
  Min : Int

/-- The values that `m` successive calls of `Next()` return, from position
`p` on (a `nil` value is left out). -/
def pulled (seq : Seq) : Nat → Nat → List Loc
  | _, 0 => []
  | p, m + 1 => (seq p).toList ++ pulled seq (p + 1) m

/-- One placement of a run: the item to place, which has no replica yet, the
admissible destinations and the configuration of the striper. -/
structure Call where
  item : Item
  dests : Locs
  distinct : Int
  min : Int

/-- Successive `Stripe` calls on one shared sequence, as `stripeP.Procs` makes
them under `seqMu`: every call starts with the sequence in the state in which
the call before left it.  `none` unless every call returns a result. -/
def stripeRun (fuel : Nat) (seq : Seq) : List Call → Nat → Option (List S × Nat)
  | [], pos => some ([], pos)
  | c :: rest, pos =>
    match Stripe fuel [(c.item, [])] c.dests seq pos c.distinct c.min with
    | some (.ok res, pos1) =>
      match stripeRun fuel seq rest pos1 with
      | some (rs, pos2) => some (res :: rs, pos2)
      | none => none
    | _ => none

/-- The destinations selected by the calls of a run, with repetition. -/
def selected (rs : List S) : List Loc :=
  rs.flatMap fun res => res.flatMap Prod.snd

/-! ## stores/stripe.go -/

/-- A chunk hash (`checksum.Hash`). -/
abbrev Hash := Nat

/-- A copier identifier (`Copier.Id()`); it is a location of the striper. -/
abbrev Id := Loc

/-- Assignment `m[k] = v` on a map with natural-number keys. -/
def mapSet {β : Type} (m : List (Nat × β)) (k : Nat) (v : β) : List (Nat × β) :=
  (k, v) :: m.filter (fun p => p.1 ≠ k)

/-- The parts of a `*scat.Chunk` that `Procs` reads: `Hash()` and the size of
`Data()`, `none` when the data is not a `scat.Sizer`.  Within one working set a
chunk is identified by its hash, which is also its item in the striper's
maps. -/
structure Chunk where
  hash : Hash
  size : Option Nat
deriving DecidableEq, Repr

/-- The argument of `Procs`: a chunk and the value of its meta `"group"`, when
that is a `[]*scat.Chunk`. -/
structure Input where
  chunk : Chunk
  group : Option (List Chunk)
deriving DecidableEq, Repr

/-- The errors `Procs` can return. -/
inductive Err where
  | short (e : ShortError)
  | sizedDataRequired
  | other (code : Nat)
deriving DecidableEq, Repr

/-- Modelled from the spec: one resource of the quota manager `quota.Man`
(its source is not part of the files at hand): a copier with its capacity
(`none`: unlimited) and its used bytes. -/
structure Res where
  id : Id
  capacity : Option Nat
  used : Nat
deriving DecidableEq, Repr

/-- Modelled from the spec: the quota manager, the list of its live
resources. -/
abbrev Qman := List Res

/-- Modelled from the spec: `resources(reserve)`, the registered copiers whose
`used + reserve ≤ capacity`. -/
def Qman.Resources (q : Qman) (reserve : Nat) : List Res :=
  q.filter fun r =>
    match r.capacity with
    | none => true
    | some cap => r.used + reserve ≤ cap

/-- Modelled from the spec: `add_use(copier, n)` increments `used`. -/
def Qman.AddUse (q : Qman) (id : Id) (n : Nat) : Qman :=
  q.map fun r => if r.id = id then { r with used := r.used + n } else r

/-- Modelled from the spec: `delete(copier)` removes the copier from the live
set. -/
def Qman.Delete (q : Qman) (id : Id) : Qman :=
  q.filter fun r => r.id ≠ id

/-- Modelled from the spec: a `ReplicaEntry` of the registry `copies.Reg` (its
source is not part of the files at hand): the owners of a hash and whether
the entry's mutex `Mu` is held. -/
structure Entry where
  owners : List Id
  locked : Bool
deriving DecidableEq, Repr

/-- Modelled from the spec: the replica registry, hash → entry. -/
abbrev Reg := List (Hash × Entry)

/-- Modelled from the spec: `reg.List(hash)` returns the entry of a hash, a
fresh one without owners if there is none yet. -/
def Reg.List (reg : Reg) (h : Hash) : Entry :=
  (reg.lookup h).getD { owners := [], locked := false }

/-- Modelled from the spec: `copies.Add(copier)` inserts an owner. -/
def Entry.Add (e : Entry) (id : Id) : Entry :=
  if id ∈ e.owners then e else { e with owners := id :: e.owners }

/-- The striper `sp.cfg` seen from `Procs`: from the current stripe, the
destinations and the state of the shared sequence to a result or an error and
the new state of the sequence; `none` when the call does not return. -/
abbrev Striper := S → Locs → Nat → Option (Except Err S × Nat)

/-- `Config.Stripe` as the striper of a stripe processor whose sequence is
`seq`. -/
def Config.Stripe (cfg : Config) (fuel : Nat) (seq : Seq) : Striper :=
  fun s locs pos =>
    match Scat.Stripe fuel s locs seq pos cfg.Distinct cfg.Min with
    | none => none
    | some (.ok res, pos1) => some (.ok res, pos1)
    | some (.short e, pos1) => some (.error (.short e), pos1)

/-- The mutable state behind a `stripeP`: the quota manager, the registry and
the state of the sequence `seq`. -/
structure StripeP where
  qman : Qman
  reg : Reg
  seqPos : Nat
deriving DecidableEq, Repr

/-- A processor returned by `Procs`: the `sliceProc` of the working set, or the
copy of one chunk by one copier, wrapped in `chunkArgProc`, `DiscardChunks` and
`OnEnd`. -/
inductive Proc where
  | slice (chunks : List Chunk)
  | copy (chunk : Hash) (copier : Id)
deriving DecidableEq, Repr

/-- What a placement leaves behind when `Procs` has returned: the value
`dataUse` captured by the hooks, the copies whose `OnEnd` hook has not run, the
counter of the `sync.WaitGroup` of every item of `newStripe`, and the items
whose goroutine `wg.Wait(); copies.Mu.Unlock()` has not finished. -/
structure Placement where
  dataUse : Nat
  running : List (Hash × Id)
  wg : List (Hash × Nat)
  unlockers : List Hash
deriving DecidableEq, Repr

/-- The ways a `Procs` call can end: it does not return (a `Lock()` waits, or
the striper does not return), it returns an error, it panics, or it returns
the processors. -/
inductive ProcsOut where
  | blocked
  | fail (e : Err)
  | panic (msg : String)
  | ok (procs : List Proc) (pl : Placement)
deriving DecidableEq, Repr

/-- The map `chunks` of `Procs`: the chunks of the group by hash, or the chunk
itself. -/
def workingSet (inp : Input) : List (Hash × Chunk) :=
  match inp.group with
  | some group => group.foldl (fun m c => mapSet m c.hash c) []
  | none => [(inp.chunk.hash, inp.chunk)]

/-- The loop of `Procs` that locks the entry of every chunk and records its
owners in `curStripe`.  `none`: a `copies.Mu.Lock()` waits for a mutex that is
held. -/
def lockAll : List (Hash × Chunk) → Reg → S → Option (Reg × S)
  | [], reg, cur => some (reg, cur)
  | (hash, _) :: rest, reg, cur =>
    let copies := reg.List hash
    if copies.locked then none
    else lockAll rest (mapSet reg hash { copies with locked := true }) (cur.set hash copies.owners)

/-- The registry as the locking loop of `Procs` has it when it stops: at the
first chunk whose mutex is held, with the mutexes of the chunks before it
taken, or at the end of the working set. -/
def lockedSoFar : List (Hash × Chunk) → Reg → Reg
  | [], reg => reg
  | (hash, _) :: rest, reg =>
    let copies := reg.List hash
    if copies.locked then reg
    else lockedSoFar rest (mapSet reg hash { copies with locked := true })

/-- `calcDataUse`: the size of the data as a `uint64`. -/
def calcDataUse (c : Chunk) : Except Err Nat :=
  match c.size with
  | none => .error .sizedDataRequired
  | some sz => .ok (sz % 2 ^ 64)

/-- The loop of `Procs` that adds up `dataUse` (a `uint64`). -/
def sumDataUse : List (Hash × Chunk) → Nat → Except Err Nat
  | [], dataUse => .ok dataUse
  | (_, c) :: rest, dataUse =>
    match calcDataUse c with
    | .error e => .error e
    | .ok use => sumDataUse rest ((dataUse + use) % 2 ^ 64)

/-- The loop of `Procs` over `newStripe` that assembles the copy processors.
`all` holds the keys of the map `copiersById()`. -/
def dispatch (chunks : List (Hash × Chunk)) (all : List Id) :
    List (Item × Locs) → List Proc → List (Hash × Nat) → Except String (List Proc × List (Hash × Nat))
  | [], cpProcs, wg => .ok (cpProcs, wg)
  | (item, locs) :: rest, cpProcs, wg =>
    if (chunks.lookup item).isNone then .error "unknown chunk"
    else if locs.all (fun id => id ∈ all) then
      dispatch chunks all rest (cpProcs ++ locs.map (fun id => Proc.copy item id))
        (wg ++ [(item, locs.length)])
    else .error "unknown copier ID"

/-- `stripeP.Procs`, with the state of the stripe processor when the call
ends.  On `fail` and `ok` that is the state the call leaves behind.  On
`blocked` it is the state in which the call waits: the mutexes taken before
the one it waits for are held, all of them when it is the striper that does not
return.  On `panic` it is the state at the panic with every mutex of the
working set held; the goroutines started for the items visited before the
panic, which go on to unlock the mutex of an item that has no copy, are not
part of the outcome. -/
def Procs (cfg : Striper) (sp : StripeP) (inp : Input) : ProcsOut × StripeP :=
  let chunks := workingSet inp
  match lockAll chunks sp.reg [] with
  | none => (.blocked, { sp with reg := lockedSoFar chunks sp.reg })
  | some (reg, curStripe) =>
    let sp1 : StripeP := { sp with reg := reg }
    match sumDataUse chunks 0 with
    | .error e => (.fail e, sp1)
    | .ok dataUse =>
      let all := ((sp.qman.Resources dataUse).map (fun r => r.id)).dedup
      let dests := all
      match cfg curStripe dests sp.seqPos with
      | none => (.blocked, sp1)
      | some (.error e, pos) => (.fail e, { sp1 with seqPos := pos })
      | some (.ok newStripe, pos) =>
        let sp2 : StripeP := { sp1 with seqPos := pos }
        match dispatch chunks all newStripe [Proc.slice (chunks.map Prod.snd)] [] with
        | .error msg => (.panic msg, sp2)
        | .ok (cpProcs, wg) =>
          (.ok cpProcs
            { dataUse := dataUse, running := newStripe.flatMap (fun p => p.2.map (fun id => (p.1, id))),
              wg := wg, unlockers := wg.map Prod.fst }, sp2)

/-- What happens after `Procs` has returned: the `OnEnd` hook of a dispatched
copy runs, with or without an error of the copy, or the goroutine of an item
gets past `wg.Wait()` and unlocks. -/
inductive Event where
  | onEnd (chunk : Hash) (copier : Id) (failed : Bool)
  | unlock (chunk : Hash)
deriving DecidableEq, Repr

/-- One event on the state of the stripe processor and of a placement; `none`
when the event cannot happen in that state. -/
def step (ev : Event) (st : StripeP × Placement) : Option (StripeP × Placement) :=
  let sp := st.1
  let pl := st.2
  match ev with
  | .onEnd chunk copier failed =>
    if (chunk, copier) ∈ pl.running then
      let sp1 : StripeP :=
        if failed then { sp with qman := sp.qman.Delete copier }
        else
          { sp with
            reg := mapSet sp.reg chunk ((sp.reg.List chunk).Add copier)
            qman := sp.qman.AddUse copier pl.dataUse }
      some (sp1,
        { pl with
          running := pl.running.erase (chunk, copier)
          wg := pl.wg.map fun p => if p.1 = chunk then (p.1, p.2 - 1) else p })
    else none
  | .unlock chunk =>
    if chunk ∈ pl.unlockers ∧ (pl.wg.lookup chunk).getD 0 = 0 then
      some ({ sp with reg := mapSet sp.reg chunk { sp.reg.List chunk with locked := false } },
        { pl with unlockers := pl.unlockers.erase chunk })
    else none

/-- A sequence of events, in order. -/
def run : List Event → StripeP × Placement → Option (StripeP × Placement)
  | [], st => some st
  | ev :: evs, st =>
    match step ev st with
    | none => none
    | some st1 => run evs st1

/-- The owners of a hash. -/
def StripeP.owners (sp : StripeP) (h : Hash) : List Id := (sp.reg.List h).owners

/-- Whether the mutex of the entry of a hash is held. -/
def StripeP.held (sp : StripeP) (h : Hash) : Bool := (sp.reg.List h).locked

/-- The used bytes of a copier (0 when it is not a live resource). -/
def StripeP.used (sp : StripeP) (id : Id) : Nat :=
  match sp.qman.find? (fun r => r.id = id) with
  | some r => r.used
  | none => 0

/-- The stub `testStriper` of `stores/stripe_test.go`: it returns the same
result or error at every call and leaves the sequence alone. -/
def testStriper (r : Except Err S) : Striper :=
  fun _ _ pos => some (r, pos)

/-- The set `dests` that `Procs` builds for the value `dataUse`: the ids of
`qman.Resources(dataUse)`. -/
def destsFor (sp : StripeP) (dataUse : Nat) : Locs :=
  ((sp.qman.Resources dataUse).map (fun r => r.id)).dedup

/-- The sum of the data sizes of the chunks of a working set. -/
def totalSize (chunks : List (Hash × Chunk)) : Nat :=
  (chunks.map fun p => p.2.size.getD 0).sum

/-- A striper that answers only when the destinations it is handed are `ds`
(and does not return otherwise). -/
def Striper.onDests (cfg : Striper) (ds : Locs) : Striper :=
  fun cur dests pos => if dests = ds then cfg cur dests pos else none

/-- A result on the stream of a processor (`procs.Res`): a chunk, or an
error. -/
inductive ProcRes where
  | chunk (c : Chunk)
  | err (e : Err)
deriving DecidableEq, Repr

/-- `sliceProc.Process`: every chunk of the slice, whatever the argument. -/
def sliceProcProcess (s : List Chunk) (_ : Chunk) : List ProcRes :=
  s.map ProcRes.chunk

/-- `chunkArgProc.Process`: the stream of the embedded processor for the bound
chunk `p.chunk`, not for the argument. -/
def chunkArgProcProcess (proc : Chunk → List ProcRes) (chunk : Chunk) (_ : Chunk) :
    List ProcRes :=
  proc chunk

/-- Modelled from the spec: `procs.DiscardChunks` (its source is not part of
the files at hand) drains the processor and emits no chunks but propagates
errors. -/
def discardChunksProcess (proc : Chunk → List ProcRes) (c : Chunk) : List ProcRes :=
  (proc c).filter fun r =>
    match r with
    | .chunk _ => false
    | .err _ => true

/-- Modelled from the spec: `procs.OnEnd` (its source is not part of the files
at hand) passes the stream of the processor on and calls the hook once when it
has ended; the effect of the hook is the event `Event.onEnd`. -/
def onEndProcess (proc : Chunk → List ProcRes) (c : Chunk) : List ProcRes :=
  proc c

/-- The stream of a processor returned by `Procs`, for the working set
`chunks` and the processors `copier` of the copiers. -/
def Proc.Process (chunks : List (Hash × Chunk)) (copier : Id → Chunk → List ProcRes) :
    Proc → Chunk → List ProcRes
  | .slice s, arg => sliceProcProcess s arg
  | .copy hash id, arg =>
    match chunks.lookup hash with
    | some chunk =>
      onEndProcess (discardChunksProcess (chunkArgProcProcess (copier id) chunk)) arg
    | none => []

/-- A state of the stripe processor that comes after another one: any number
of events of placements and of further `Procs` calls lie between them. -/
inductive Later : StripeP → StripeP → Prop where
  | refl (sp : StripeP) : Later sp sp
  | event (sp sp1 sp2 : StripeP) (ev : Event) (pl pl2 : Placement) :
      Later sp sp1 → step ev (sp1, pl) = some (sp2, pl2) → Later sp sp2
  | procs (sp sp1 : StripeP) (cfg : Striper) (inp : Input) :
      Later sp sp1 → Later sp (Procs cfg sp1 inp).2

/-! ## procs/checksum.go -/

/-- A value of the `meta` mapping of a chunk: a boolean, or any other value. -/
inductive MetaVal where
  | bool (b : Bool)
  | other (code : Nat)
deriving DecidableEq, Repr

/-- Modelled from the spec: the chunk `ss.Chunk` that `procs/checksum.go`
works on (its source is not part of the files at hand): the fields `Hash` and
`Data`, the bytes of the chunk, and the mapping `meta` from string keys to
values. -/
structure ss.Chunk where
  Hash : Hash
  Data : List Nat
  meta : List (String × MetaVal)
deriving DecidableEq, Repr

/-- Modelled from the spec: `c.SetMeta(key, val)`, the assignment
`meta[key] = val`. -/
def ss.Chunk.SetMeta (c : ss.Chunk) (key : String) (val : MetaVal) : ss.Chunk :=
  { c with meta := (key, val) :: c.meta.filter (fun p => p.1 ≠ key) }

/-- `Checksum.process`: the chunk as the call leaves it and the returned
error (`none`: `nil`).  `Sum` is the function `checksum.Sum` (its source is not
part of the files at hand), any function from the data to a hash. -/
def Checksum.process (Sum : List Nat → Hash) (c : ss.Chunk) : ss.Chunk × Option Err :=
  ({ c with Hash := Sum c.Data }, none)

/-- `Checksum.unprocess`: the chunk as the call leaves it and the returned
error (`none`: `nil`). -/
def Checksum.unprocess (Sum : List Nat → Hash) (c : ss.Chunk) : ss.Chunk × Option Err :=
  let ok : Bool := Sum c.Data == c.Hash
  (c.SetMeta "integrityCheck" (.bool ok), none)

/-! ## Inputs of the scenarios -/

/-- The group of `TestStripeDataUse`: a carrier chunk whose meta `"group"` holds
chunk `1` of 2 bytes and chunk `2` of 1 byte. -/
def groupInput : Input :=
  { chunk := { hash := 0, size := some 0 },
    group := some [{ hash := 1, size := some 2 }, { hash := 2, size := some 1 }] }

/-- The first chunk of `TestStripeDataUse`: 2 bytes, without group. -/
def twoByteInput : Input := { chunk := { hash := 0, size := some 2 }, group := none }

/-- A group of three chunks whose sizes, each within the range of an `int64`,
add up to `2 ^ 64`. -/
def hugeGroupInput : Input :=
  { chunk := { hash := 0, size := some 0 },
    group := some [{ hash := 1, size := some 9223372036854775807 },
      { hash := 2, size := some 9223372036854775807 }, { hash := 3, size := some 2 }] }

/-- A chunk of hash `1` and 1 byte, without group. -/
def sizedInput : Input := { chunk := { hash := 1, size := some 1 }, group := none }

/-- A chunk of hash `1` whose data has no size, without group. -/
def unsizedInput : Input := { chunk := { hash := 1, size := none }, group := none }

/-- A stripe processor with the single copier `10`, unlimited, and no replica. -/
def oneCopier : StripeP :=
  { qman := [{ id := 10, capacity := none, used := 0 }], reg := [], seqPos := 0 }

/-- The stripe processor of `TestStripeDataUse`: copier `10` of capacity 2 and
copier `11` of capacity 4, nothing used, no replica. -/
def quotaCopiers : StripeP :=
  { qman := [{ id := 10, capacity := some 2, used := 0 }, { id := 11, capacity := some 4, used := 0 }],
    reg := [], seqPos := 0 }

/-- The stripe processor of `TestStripe`: the unlimited copiers `10`, `11` and
`12`, chunk `1` held by `10`. -/
def threeCopiers : StripeP :=
  { qman := [{ id := 10, capacity := none, used := 0 }, { id := 11, capacity := none, used := 0 },
      { id := 12, capacity := none, used := 0 }],
    reg := [(1, { owners := [10], locked := false })], seqPos := 0 }

/-- A stripe processor with the unlimited copiers `10` and `11` and no
replica. -/
def twoCopiers : StripeP :=
  { qman := [{ id := 10, capacity := none, used := 0 }, { id := 11, capacity := none, used := 0 }],
    reg := [], seqPos := 0 }

/-- The unlimited copiers `10` and `11`, chunk `2` already held by `10`. -/
def twoCopiersHeld : StripeP :=
  { qman := [{ id := 10, capacity := none, used := 0 }, { id := 11, capacity := none, used := 0 }],
    reg := [(2, { owners := [10], locked := false })], seqPos := 0 }

/-! ## Invariants used in the proofs -/

/-- The part of the loop state that every iteration keeps: the work list and
the chosen locations are admissible destinations, and no location is chosen
twice. -/
structure CurOk (env : Env) (c : Cur) : Prop where
  old_sub : ∀ l ∈ c.old, l ∈ env.dests
  new_sub : ∀ l ∈ c.newLocs, l ∈ env.dests
  nodup : c.newLocs.Nodup

/-- An entry of the result map as the placement loop leaves it: a set of
admissible destinations of at least `min` members. -/
def Placed (env : Env) (o : Option Locs) : Prop :=
  ∃ nl, o = some nl ∧ (∀ l ∈ nl, l ∈ env.dests) ∧ nl.Nodup ∧ env.min ≤ (nl.length : Int)

/-- A striper whose results are maps: no item occurs twice in them. -/
def Striper.WellFormed (cfg : Striper) : Prop :=
  ∀ s dests pos res pos1, cfg s dests pos = some (.ok res, pos1) → (res.map Prod.fst).Nodup

/-- The state of a placement between the events: the goroutines that have not
unlocked belong to different items whose mutex is held, and the counter of an
item is not less than the number of its copies whose hook has not run. -/
structure PlOk (sp : StripeP) (pl : Placement) : Prop where
  nodup : pl.unlockers.Nodup
  held : ∀ h ∈ pl.unlockers, sp.held h = true
  waits : ∀ p ∈ pl.running, p.1 ∈ pl.unlockers
  counted : ∀ h, pl.running.countP (fun p => p.1 = h) ≤ (pl.wg.lookup h).getD 0

/-- The tentative insertion of the placement loop is never undone for item
`it` under the result map `res`. -/
def NoReject (env : Env) (res : S) (it : Item) : Prop :=
  ∀ nl : Locs, nl ≠ [] →
    ¬ ((nl.length : Int) ≤ env.distinct ∧ S.exclusive (res.set it nl) it = false)

/-- What the placement loop keeps when no insertion is undone: the chosen
locations are distinct and at most `max 0 min`, every admissible existing
location is chosen or still on the work list, and as long as the work list is
not empty only existing locations have been chosen. -/
structure CountOk (env : Env) (got : Locs) (c : Cur) : Prop where
  nodup : c.newLocs.Nodup
  le_min : (c.newLocs.length : Int) ≤ max 0 env.min
  got_sub : ∀ l ∈ got, l ∈ c.newLocs ∨ l ∈ c.old
  phase : c.old = [] ∨ ∀ l ∈ c.newLocs, l ∈ got
  old_sub : ∀ l ∈ c.old, l ∈ got

/-- The set chosen for an item when no insertion is undone: `max 0 min`
distinct locations, which include the admissible existing locations `got` or
are all among them. -/
def Counted (env : Env) (got : Locs) (nl : Locs) : Prop :=
  nl.Nodup ∧ (nl.length : Int) = max 0 env.min
    ∧ ((∀ l ∈ got, l ∈ nl) ∨ (∀ l ∈ nl, l ∈ got))

/-- What the placement loop of a single item keeps while it runs through the
first cycle of a sequence that started at position `pos0`: every location seen
so far has been chosen, the seen locations are the distinct values pulled
since `pos0`, and no location outside `got` has a positive counter. -/
structure CycleOk (env : Env) (got : Locs) (pos0 : Nat) (c : Cur) : Prop where
  ok : CurOk env c
  seen_sub : ∀ l ∈ c.seen, l ∈ c.newLocs
  seen_nodup : c.seen.Nodup
  pos_eq : c.pos = pos0 + c.seen.length
  seen_from : ∀ l ∈ c.seen, ∃ j, j < c.seen.length ∧ env.seq (pos0 + j) = some l
  seen_first : 0 < c.seen.length → ∃ l ∈ c.seen, env.seq pos0 = some l
  prios_zero : ∀ x, x ∉ got → c.prios x = 0

/-- Two placement loops of one item give the same outcome: neither has
returned, or both fail with the same error, or both end with the same new
locations; in both cases with the sequence in the same state. -/
def SameOutcome (got1 got2 : Locs) :
    Option (Option ShortError × Cur) → Option (Option ShortError × Cur) → Prop
  | none, none => True
  | some (some e1, c1), some (some e2, c2) => e1 = e2 ∧ c1.pos = c2.pos
  | some (none, c1), some (none, c2) =>
    c1.pos = c2.pos
      ∧ c1.newLocs.filter (fun l => l ∉ got1) = c2.newLocs.filter (fun l => l ∉ got2)
  | _, _ => False

/-- Two placement loops of one item whose existing locations `got1` and `got2`
are the same set in two orders, after the same number of steps: each has taken
the first `k` locations of its work list and then the same locations `added`
from the sequence. -/
structure Twin (got1 got2 : Locs) (k : Nat) (added : Locs) (c1 c2 : Cur) : Prop where
  old1 : c1.old = got1.drop k
  old2 : c2.old = got2.drop k
  new1 : c1.newLocs = added ++ (got1.take k).reverse
  new2 : c2.newLocs = added ++ (got2.take k).reverse
  phase : added = [] ∨ got1.length ≤ k
  seen_eq : c1.seen = c2.seen
  pos_eq : c1.pos = c2.pos
  prios_eq : c1.prios = c2.prios

/-- The exclusivity test in the words of the specification: no other item of
`res` shares a location with `res[it] ∪ got`, where `got` holds the admissible
existing locations of `it`.  (The test of the code is `S.exclusive`.) -/
def exclusiveWithGot (res : S) (got : Locs) (it : Item) : Bool :=
  res.all fun p =>
    if p.1 = it then true
    else ((res.lookup it).getD [] ++ got).all fun loc => !(p.2.contains loc)

/-- No two items of a result map share a location. -/
def Apart (res : S) : Prop :=
  ∀ p ∈ res, ∀ q ∈ res, p.1 ≠ q.1 → ∀ l ∈ p.2, l ∉ q.2

/-- How often the destination `d` can still be pulled from the sequence
without ending the placement loop of an item: once for every deferral left in
its counter, and once to be marked as seen. -/
def weight (got : Locs) (d : Loc) (c : Cur) : Nat :=
  (if d ∈ got then 0 else c.prios d) + (if d ∈ c.seen then 0 else 1)

/-- A striper whose results map items to sets: no location occurs twice in
the set of an item. -/
def Striper.Sets (cfg : Striper) : Prop :=
  ∀ s dests pos res pos1, cfg s dests pos = some (.ok res, pos1) → ∀ p ∈ res, p.2.Nodup

/-- The state of the placement of a single chunk of hash `h0` between the
events: the copies that are still to end go to different copiers, all of them
live resources of the quota manager. -/
structure SingleOk (h0 : Hash) (sp : StripeP) (pl : Placement) : Prop where
  nodup : pl.running.Nodup
  same : ∀ p ∈ pl.running, p.1 = h0
  live : ∀ p ∈ pl.running, ∃ r ∈ sp.qman, r.id = p.2

/-- The state of a placement on the working set `ws` between the events, seen
from the end: the counter of an item is not more than the number of its copies
whose hook has not run, and the mutex of every chunk of the working set is
free unless the goroutine of the chunk has still to unlock it. -/
structure PlTight (ws : List (Hash × Chunk)) (sp : StripeP) (pl : Placement) : Prop where
  tight : ∀ h, (pl.wg.lookup h).getD 0 ≤ pl.running.countP (fun p => p.1 = h)
  free : ∀ p ∈ ws, p.1 ∈ pl.unlockers ∨ sp.held p.1 = false

/-! ## Maps as association lists -/

theorem lookup_filter_ne {β : Type} (s : List (Nat × β)) (it j : Nat) (h : j ≠ it) :
    (s.filter (fun p => p.1 ≠ it)).lookup j = s.lookup j := by
  induction s with
  | nil => rfl
  | cons p s ih =>
    obtain ⟨k, v⟩ := p
    by_cases hk : k = it
    · subst hk
      have hjk : (j == k) = false := by simpa using h
      simpa [List.filter_cons, List.lookup_cons, hjk] using ih
    · by_cases hjk : j = k
      · subst hjk
        simp [List.filter_cons, List.lookup_cons, hk]
      · have hjk2 : (j == k) = false := by simpa using hjk
        simpa [List.filter_cons, List.lookup_cons, hk, hjk2] using ih

theorem lookup_mapSet_self {β : Type} (s : List (Nat × β)) (it : Nat) (x : β) :
    (mapSet s it x).lookup it = some x := by
  simp [mapSet, List.lookup_cons]

theorem lookup_mapSet_ne {β : Type} (s : List (Nat × β)) (it j : Nat) (x : β) (h : j ≠ it) :
    (mapSet s it x).lookup j = s.lookup j := by
  have hji : (j == it) = false := by simpa using h
  simp only [mapSet, List.lookup_cons, hji]
  exact lookup_filter_ne s it j h

theorem lookup_set_self (s : S) (it : Item) (x : Locs) : (s.set it x).lookup it = some x :=
  lookup_mapSet_self s it x

theorem lookup_set_ne (s : S) (it j : Item) (x : Locs) (h : j ≠ it) :
    (s.set it x).lookup j = s.lookup j :=
  lookup_mapSet_ne s it j x h

theorem lookup_of_mem_nodup (s : S) (h : (s.map Prod.fst).Nodup) (i : Item) (locs : Locs)
    (hm : (i, locs) ∈ s) : s.lookup i = some locs := by
  induction s with
  | nil => simp at hm
  | cons p s ih =>
    obtain ⟨k, v⟩ := p
    simp only [List.map_cons, List.nodup_cons] at h
    rcases List.mem_cons.mp hm with heq | hin
    · cases heq
      simp [List.lookup_cons]
    · have hne : i ≠ k := by
        rintro rfl
        exact h.1 (List.mem_map_of_mem Prod.fst hin)
      have hik : (i == k) = false := by simpa using hne
      simp only [List.lookup_cons, hik]
      exact ih h.2 hin

theorem lookup_existOf (dests : Locs) (s : S) (i : Item) :
    (existOf dests s).lookup i = (s.lookup i).map (gotOf dests) := by
  induction s with
  | nil => rfl
  | cons p s ih =>
    obtain ⟨k, v⟩ := p
    by_cases hik : i = k
    · subst hik
      simp [existOf, List.lookup_cons]
    · have hik2 : (i == k) = false := by simpa using hik
      simp only [existOf, List.map_cons, List.lookup_cons, hik2]
      exact ih

theorem lookup_subtractExist (exist res : S) (i : Item) :
    (subtractExist exist res).lookup i
      = (res.lookup i).map (fun nl => nl.filter (fun loc => loc ∉ (exist.lookup i).getD [])) := by
  induction res with
  | nil => rfl
  | cons p s ih =>
    obtain ⟨k, v⟩ := p
    by_cases hik : i = k
    · subst hik
      simp [subtractExist, List.lookup_cons]
    · have hik2 : (i == k) = false := by simpa using hik
      simp only [subtractExist, List.map_cons, List.lookup_cons, hik2]
      exact ih

/-! ## What the placement loop maintains -/

theorem next_newLocs (env : Env) (got : Locs) (c : Cur) :
    (next env got c).2.newLocs = c.newLocs := by
  unfold next
  split
  · rfl
  · dsimp only
    split
    · rfl
    · split_ifs <;> rfl

theorem next_old_sub (env : Env) (got : Locs) (c : Cur) (h : ∀ l ∈ c.old, l ∈ env.dests) :
    ∀ l ∈ (next env got c).2.old, l ∈ env.dests := by
  unfold next
  split
  · rename_i new rest heq
    intro l hl
    exact h l (by rw [heq]; exact List.mem_cons_of_mem _ hl)
  · rename_i heq
    dsimp only
    split
    · simp [heq]
    · split_ifs <;> simp [heq]

theorem next_loc_mem (env : Env) (got : Locs) (c : Cur) (h : ∀ l ∈ c.old, l ∈ env.dests)
    (new : Loc) (hn : (next env got c).1 = .loc new) : new ∈ env.dests := by
  unfold next at hn
  split at hn
  · rename_i n rest heq
    cases hn
    exact h _ (by rw [heq]; exact List.mem_cons_self _ _)
  · dsimp only at hn
    split at hn
    · cases hn
    · split_ifs at hn with h1 h2 h3
      cases hn
      exact h1

theorem next_ok (env : Env) (got : Locs) (c : Cur) (h : CurOk env c) :
    CurOk env (next env got c).2 :=
  ⟨next_old_sub env got c h.old_sub, by rw [next_newLocs]; exact h.new_sub,
    by rw [next_newLocs]; exact h.nodup⟩

theorem fill_ok (env : Env) (it : Item) (got : Locs) (res : S) :
    ∀ (fuel : Nat) (c c2 : Cur), CurOk env c → fill env it got res fuel c = some (none, c2) →
      CurOk env c2 ∧ env.min ≤ (c2.newLocs.length : Int) := by
  intro fuel
  induction fuel with
  | zero =>
    intro c c2 hc h
    unfold fill at h
    split_ifs at h with hlt
    cases h
    exact ⟨hc, not_lt.mp hlt⟩
  | succ n ih =>
    intro c c2 hc h
    unfold fill at h
    split_ifs at h with hlt
    · have hok := next_ok env got c hc
      have hmem := next_loc_mem env got c hc.old_sub
      split at h
      · cases h
      · rename_i c1 heq
        rw [heq] at hok
        exact ih c1 c2 hok h
      · rename_i new c1 heq
        rw [heq] at hok
        have hnew : new ∈ env.dests := hmem new (by rw [heq])
        split_ifs at h with hin hex
        · exact ih c1 c2 hok h
        · exact ih c1 c2 hok h
        · refine ih { c1 with newLocs := new :: c1.newLocs } c2 ⟨hok.old_sub, ?_, ?_⟩ h
          · intro l hl
            rcases List.mem_cons.mp hl with rfl | hl
            · exact hnew
            · exact hok.new_sub l hl
          · exact List.nodup_cons.mpr ⟨hin, hok.nodup⟩
    · cases h
      exact ⟨hc, not_lt.mp hlt⟩

theorem stripeItems_ok (env : Env) (fuel : Nat) :
    ∀ (exist res : S) (pos : Nat) (prios : Loc → Nat) (res2 : S) (pos2 : Nat),
      (exist.map Prod.fst).Nodup → (∀ p ∈ exist, ∀ l ∈ p.2, l ∈ env.dests) →
      stripeItems env fuel exist res pos prios = some (.ok res2, pos2) →
      ∀ j, (j ∈ exist.map Prod.fst → Placed env (res2.lookup j))
        ∧ (j ∉ exist.map Prod.fst → res2.lookup j = res.lookup j) := by
  intro exist
  induction exist with
  | nil =>
    intro res pos prios res2 pos2 _ _ h j
    unfold stripeItems at h
    cases h
    simp
  | cons p rest ih =>
    obtain ⟨it, got⟩ := p
    intro res pos prios res2 pos2 hnd hsub h j
    simp only [List.map_cons, List.nodup_cons] at hnd
    unfold stripeItems at h
    split at h
    · cases h
    · cases h
    · rename_i c hfill
      have hc := fill_ok env it got (res.set it []) fuel _ c
        ⟨by simpa using hsub (it, got) (List.mem_cons_self _ _), by simp, by simp⟩ hfill
      have hrec := ih (res.set it c.newLocs) c.pos c.prios res2 pos2 hnd.2
        (fun p hp => hsub p (List.mem_cons_of_mem _ hp)) h
      constructor
      · intro hj
        rcases List.mem_cons.mp hj with rfl | hj
        · rw [(hrec _).2 hnd.1, lookup_set_self]
          exact ⟨c.newLocs, rfl, hc.1.new_sub, hc.1.nodup, hc.2⟩
        · exact (hrec j).1 hj
      · intro hj
        have hne : j ≠ it := fun e => hj (by rw [e]; exact List.mem_cons_self _ _)
        have hnr : j ∉ rest.map Prod.fst := fun e => hj (List.mem_cons_of_mem _ e)
        rw [(hrec j).2 hnr, lookup_set_ne _ _ _ _ hne]

theorem existOf_keys (dests : Locs) (s : S) : (existOf dests s).map Prod.fst = s.map Prod.fst := by
  simp [existOf, List.map_map, Function.comp_def]

theorem existOf_sub (dests : Locs) (s : S) : ∀ p ∈ existOf dests s, ∀ l ∈ p.2, l ∈ dests := by
  intro p hp l hl
  simp only [existOf, List.mem_map] at hp
  obtain ⟨q, _, rfl⟩ := hp
  simpa using (List.mem_filter.mp hl).2

/-- A successful `Stripe` call maps every item of `s` to the set chosen by the
placement loop, less the item's admissible existing locations. -/
theorem Stripe_entry (fuel : Nat) (s : S) (dests : Locs) (seq : Seq) (pos : Nat)
    (distinct min : Int) (res : S) (pos2 : Nat) (hnd : (s.map Prod.fst).Nodup)
    (h : Stripe fuel s dests seq pos distinct min = some (.ok res, pos2))
    (i : Item) (locs : Locs) (hi : (i, locs) ∈ s) :
    ∃ nl : Locs, res.lookup i = some (nl.filter (fun loc => loc ∉ gotOf dests locs))
      ∧ (∀ l ∈ nl, l ∈ dests) ∧ nl.Nodup ∧ min ≤ (nl.length : Int) := by
  unfold Stripe at h
  dsimp only at h
  split at h
  · rename_i res1 pos1 hrun
    cases h
    have hinv := stripeItems_ok _ fuel (existOf dests s) [] pos (priosOf dests s) res1 pos2
      (by rw [existOf_keys]; exact hnd) (existOf_sub dests s) hrun i
    obtain ⟨nl, hnl, hsub, hnodup, hlen⟩ := hinv.1
      (by rw [existOf_keys]; exact List.mem_map_of_mem Prod.fst hi)
    refine ⟨nl, ?_, hsub, hnodup, hlen⟩
    rw [lookup_subtractExist, hnl, lookup_existOf, lookup_of_mem_nodup s hnd i locs hi]
    rfl
  · rename_i hne
    exact absurd h (by
      intro hh
      exact hne _ _ hh)

/-! ## Properties of `S.Stripe` -/

/-- C1 (placement adequacy).  Whenever `S.Stripe` returns a result, every item
`i` of `existing` is mapped to a set `r` with `|existing[i] ∪ r| ≥ min`, and
every element of `r` is a member of `dests`. -/
theorem Stripe_adequate (fuel : Nat) (s : S) (dests : Locs) (seq : Seq) (pos : Nat)
    (distinct min : Int) (res : S) (pos2 : Nat) (hnd : (s.map Prod.fst).Nodup)
    (h : Stripe fuel s dests seq pos distinct min = some (.ok res, pos2)) :
    ∀ i locs, (i, locs) ∈ s →
      ∃ r : Locs, res.lookup i = some r
        ∧ min ≤ ((locs.toFinset ∪ r.toFinset).card : Int)
        ∧ ∀ l ∈ r, l ∈ dests := by
  intro i locs hi
  obtain ⟨nl, hres, hsub, hnodup, hlen⟩ :=
    Stripe_entry fuel s dests seq pos distinct min res pos2 hnd h i locs hi
  refine ⟨_, hres, ?_, ?_⟩
  · have hcover : nl.toFinset ⊆
        locs.toFinset ∪ (nl.filter (fun loc => loc ∉ gotOf dests locs)).toFinset := by
      intro l hl
      rw [List.mem_toFinset] at hl
      by_cases hg : l ∈ gotOf dests locs
      · exact Finset.mem_union_left _ (List.mem_toFinset.mpr (List.mem_filter.mp hg).1)
      · exact Finset.mem_union_right _
          (List.mem_toFinset.mpr (List.mem_filter.mpr ⟨hl, by simpa using hg⟩))
    have hcard := Finset.card_le_card hcover
    rw [List.toFinset_card_of_nodup hnodup] at hcard
    have : (nl.length : Int) ≤ _ := Int.ofNat_le.mpr hcard
    exact le_trans hlen this
  · intro l hl
    exact hsub l (List.mem_filter.mp hl).1

/-- A run of C1: one item held by `10`, destinations `10, 11, 12`,
`distinct = 1`, `min = 3`. -/
theorem Stripe_adequate_witness :
    ∃ r : Locs, List.lookup 1 ([(1, [12, 11])] : S) = some r
      ∧ (3 : Int) ≤ (((([10] : Locs).toFinset) ∪ r.toFinset).card : Int)
      ∧ ∀ l ∈ r, l ∈ ([10, 11, 12] : Locs) :=
  Stripe_adequate 20 [(1, [10])] [10, 11, 12] (rr [10, 11, 12] 0) 0 1 3 [(1, [12, 11])] 3
    (by decide) (by decide!) 1 [10] (by decide)

/-- C2 (new-only output).  Whenever `S.Stripe` returns a result, the set it
gives an item `i` of `existing` has no member in common with `existing[i]`. -/
theorem Stripe_new_only (fuel : Nat) (s : S) (dests : Locs) (seq : Seq) (pos : Nat)
    (distinct min : Int) (res : S) (pos2 : Nat) (hnd : (s.map Prod.fst).Nodup)
    (h : Stripe fuel s dests seq pos distinct min = some (.ok res, pos2)) :
    ∀ i locs, (i, locs) ∈ s →
      ∃ r : Locs, res.lookup i = some r ∧ ∀ l ∈ r, l ∉ locs := by
  intro i locs hi
  obtain ⟨nl, hres, hsub, _, _⟩ :=
    Stripe_entry fuel s dests seq pos distinct min res pos2 hnd h i locs hi
  refine ⟨_, hres, ?_⟩
  intro l hl hloc
  obtain ⟨hnl, hng⟩ := List.mem_filter.mp hl
  have hg : l ∈ gotOf dests locs := by
    unfold gotOf
    exact List.mem_filter.mpr ⟨hloc, decide_eq_true (hsub l hnl)⟩
  exact (of_decide_eq_true hng) hg

/-- A run of C2: two items that both live on `10`, destinations `10, 11, 12`,
`distinct = 1`, `min = 2`. -/
theorem Stripe_new_only_witness :
    ∃ r : Locs, List.lookup 2 ([(2, [12]), (1, [11])] : S) = some r
      ∧ ∀ l ∈ r, l ∉ ([10] : Locs) :=
  Stripe_new_only 20 [(1, [10]), (2, [10])] [10, 11, 12] (rr [10, 11, 12] 0) 0 1 2
    [(2, [12]), (1, [11])] 4 (by decide) (by decide!) 2 [10] (by decide)

/-! ### Without destinations the placement loop does not end -/

theorem next_no_dests (env : Env) (got : Locs) (c : Cur) (hd : env.dests = [])
    (hold : c.old = []) :
    (next env got c).1 = .skip ∧ (next env got c).2.old = [] := by
  unfold next
  rw [hold]
  dsimp only
  split
  · exact ⟨rfl, rfl⟩
  · simp [hd]

theorem fill_no_dests (env : Env) (it : Item) (got : Locs) (res : S) (hd : env.dests = [])
    (hmin : 0 < env.min) :
    ∀ (fuel : Nat) (c : Cur), c.old = [] → c.newLocs = [] → fill env it got res fuel c = none := by
  intro fuel
  induction fuel with
  | zero =>
    intro c _ hnew
    simp [fill, hnew, hmin]
  | succ n ih =>
    intro c hold hnew
    have hstep := next_no_dests env got c hd hold
    have hkeep := next_newLocs env got c
    unfold fill
    rw [if_pos (by simpa [hnew] using hmin)]
    rcases hnx : next env got c with ⟨r, c1⟩
    rw [hnx] at hstep hkeep
    obtain ⟨hr, hold1⟩ := hstep
    dsimp only at hr hold1 hkeep
    subst hr
    exact ih c1 hold1 (by rw [hkeep, hnew])

/-- With no destination and `min > 0` a `Stripe` call on a map that has an
item does not return, whatever the sequence. -/
theorem Stripe_no_dests (fuel : Nat) (it : Item) (locs : Locs) (rest : S) (seq : Seq)
    (pos : Nat) (distinct min : Int) (hmin : 0 < min) :
    Stripe fuel ((it, locs) :: rest) [] seq pos distinct min = none := by
  have hfill := fill_no_dests
    { dests := [], seq := seq, distinct := distinct, min := min } it [] (S.set [] it [])
    rfl hmin fuel
    { old := [], seen := [], newLocs := [], pos := pos, prios := priosOf [] ((it, locs) :: rest) }
    rfl rfl
  have hgot : gotOf [] locs = [] := by simp [gotOf]
  simp only [Stripe, existOf, List.map_cons, hgot, stripeItems, hfill]

/-- C3 (short placement when the constraints cannot be met), at the input
where the code departs from it: one item without replicas, no admissible
destination, a round-robin sequence over the single id `10`, `distinct = 0`,
`min = 1`.  The call never returns: no amount of fuel yields a result or a
`ShortError`. -/
theorem Stripe_empty_dests_hangs :
    ∀ fuel : Nat, Stripe fuel [(1, [])] [] (rr [10] 0) 0 0 1 = none :=
  fun fuel => Stripe_no_dests fuel 1 [] [] (rr [10] 0) 0 0 1 (by decide)

/-! ## Properties of `stripeP.Procs` -/

/-- C4 (no state change on error), at inputs where the code departs from it.
One copier `10`, a chunk of hash `1` and size 1 that has no owner, the striper
`Config` with `Min = 2`: `Procs` returns the `ShortError`, and the
mutex of the chunk's entry, free before the call, is held after it, so that
the next `Procs` call for the chunk waits for ever.  The same happens when
the chunk's data has no size. -/
theorem Procs_error_keeps_lock :
    (Procs (Config.Stripe { Distinct := 0, Min := 2 } 20 (rr [10] 0)) oneCopier sizedInput).1
        = .fail (.short { Distinct := 0, Min := 2, Avail := 1 })
      ∧ oneCopier.held 1 = false
      ∧ (Procs (Config.Stripe { Distinct := 0, Min := 2 } 20 (rr [10] 0)) oneCopier sizedInput).2.held 1
        = true
      ∧ (Procs (Config.Stripe { Distinct := 0, Min := 2 } 20 (rr [10] 0))
          (Procs (Config.Stripe { Distinct := 0, Min := 2 } 20 (rr [10] 0)) oneCopier sizedInput).2
          sizedInput).1 = .blocked
      ∧ (Procs (Config.Stripe { Distinct := 0, Min := 2 } 20 (rr [10] 0)) oneCopier unsizedInput).1
        = .fail .sizedDataRequired
      ∧ (Procs (Config.Stripe { Distinct := 0, Min := 2 } 20 (rr [10] 0)) oneCopier unsizedInput).2.held 1
        = true := by
  decide!

/-- C5 (used bytes after a group placement), at the input where the code
departs from it.  Copiers `10` of capacity 2 and `11` of capacity 4, the group
of chunk `1` of size 2 and chunk `2` of size 1: `dataUse` is 3, the striper
gets the destinations `{11}` and returns `{1 → {11}, 2 → {11}}`; when both
copies have ended without error the used bytes of `11` are 6, not 3, and
exceed its capacity. -/
theorem Procs_group_used :
    (Procs (Config.Stripe { Distinct := 0, Min := 1 } 20 (rr [10, 11] 0)) quotaCopiers groupInput).1
        = .ok [.slice [{ hash := 2, size := some 1 }, { hash := 1, size := some 2 }],
            .copy 2 11, .copy 1 11]
          { dataUse := 3, running := [(2, 11), (1, 11)], wg := [(2, 1), (1, 1)], unlockers := [2, 1] }
      ∧ (Procs (Config.Stripe { Distinct := 0, Min := 1 } 20 (rr [10, 11] 0)) quotaCopiers
          groupInput).2.used 11 = 0
      ∧ (run [.onEnd 1 11 false, .onEnd 2 11 false]
          ((Procs (Config.Stripe { Distinct := 0, Min := 1 } 20 (rr [10, 11] 0)) quotaCopiers
              groupInput).2,
            { dataUse := 3, running := [(2, 11), (1, 11)], wg := [(2, 1), (1, 1)],
              unlockers := [2, 1] })).map
          (fun st => (st.1.used 11, st.2.running)) = some (6, []) := by
  decide!

/-! ### Locks of a placement -/

theorem held_mapSet_ne (reg : Reg) (c h : Hash) (e : Entry) (hne : h ≠ c) :
    (Reg.List (mapSet reg c e) h) = Reg.List reg h := by
  simp only [Reg.List, lookup_mapSet_ne reg c h e hne]

theorem held_mapSet_self (reg : Reg) (c : Hash) (e : Entry) :
    (Reg.List (mapSet reg c e) c) = e := by
  simp only [Reg.List, lookup_mapSet_self, Option.getD_some]

theorem lockAll_locked :
    ∀ (chunks : List (Hash × Chunk)) (reg : Reg) (cur : S) (reg2 : Reg) (cur2 : S),
      lockAll chunks reg cur = some (reg2, cur2) →
      ∀ h, (h ∈ chunks.map Prod.fst ∨ (reg.List h).locked = true) → (reg2.List h).locked = true := by
  intro chunks
  induction chunks with
  | nil =>
    intro reg cur reg2 cur2 h k hk
    unfold lockAll at h
    cases h
    simpa using hk
  | cons p rest ih =>
    obtain ⟨hash, c⟩ := p
    intro reg cur reg2 cur2 h k hk
    unfold lockAll at h
    dsimp only at h
    split_ifs at h with hl
    refine ih _ _ reg2 cur2 h k ?_
    by_cases hkh : k = hash
    · right
      rw [hkh, held_mapSet_self]
    · rcases hk with hk | hk
      · left
        simpa [hkh] using hk
      · right
        rw [held_mapSet_ne _ _ _ _ hkh]
        exact hk

theorem dispatch_ok (chunks : List (Hash × Chunk)) (all : List Id) :
    ∀ (l : List (Item × Locs)) (procs : List Proc) (wg : List (Hash × Nat))
      (procs2 : List Proc) (wg2 : List (Hash × Nat)),
      dispatch chunks all l procs wg = .ok (procs2, wg2) →
      wg2 = wg ++ l.map (fun p => (p.1, p.2.length))
        ∧ ∀ p ∈ l, p.1 ∈ chunks.map Prod.fst := by
  intro l
  induction l with
  | nil =>
    intro procs wg procs2 wg2 h
    unfold dispatch at h
    cases h
    simp
  | cons p rest ih =>
    obtain ⟨item, locs⟩ := p
    intro procs wg procs2 wg2 h
    unfold dispatch at h
    split_ifs at h with hc hall
    obtain ⟨hwg, hmem⟩ := ih _ _ procs2 wg2 h
    refine ⟨by simp [hwg], ?_⟩
    intro p hp
    rcases List.mem_cons.mp hp with rfl | hp
    · dsimp only
      have hsome : (chunks.lookup item).isSome = true := by
        cases hlk : chunks.lookup item with
        | none => simp [hlk] at hc
        | some v => rfl
      obtain ⟨q, hq, hqk⟩ := List.lookup_isSome_iff.mp hsome
      exact List.mem_map.mpr ⟨q, hq, (beq_iff_eq.mp hqk).symm⟩
    · exact hmem p hp

theorem lookup_map_dec (wg : List (Hash × Nat)) (c h : Hash) :
    ((wg.map fun p => if p.1 = c then (p.1, p.2 - 1) else p).lookup h).getD 0
      = if h = c then (wg.lookup h).getD 0 - 1 else (wg.lookup h).getD 0 := by
  induction wg with
  | nil => simp
  | cons p rest ih =>
    obtain ⟨k, n⟩ := p
    by_cases hh : h = k
    · subst hh
      by_cases hk : h = c <;> simp [hk, List.lookup_cons]
    · have hb : (h == k) = false := by simpa using hh
      by_cases hk : k = c
      · simp only [List.map_cons, if_pos hk, List.lookup_cons, hb]
        exact ih
      · simp only [List.map_cons, if_neg hk, List.lookup_cons, hb]
        exact ih

theorem countP_erase_of_mem {α : Type} [BEq α] [LawfulBEq α] (p : α → Bool) (l : List α) (a : α)
    (h : a ∈ l) : List.countP p l = List.countP p (l.erase a) + if p a then 1 else 0 := by
  obtain ⟨l1, l2, _, e1, e2⟩ := List.exists_erase_eq h
  rw [e2, e1, List.countP_append, List.countP_append, List.countP_cons]
  omega

theorem Entry_Add_locked (e : Entry) (id : Id) : (e.Add id).locked = e.locked := by
  unfold Entry.Add
  split_ifs <;> rfl

theorem step_ok (ev : Event) (sp sp2 : StripeP) (pl pl2 : Placement) (hok : PlOk sp pl)
    (h : step ev (sp, pl) = some (sp2, pl2)) : PlOk sp2 pl2 := by
  cases ev with
  | onEnd chunk copier failed =>
    by_cases hrun : (chunk, copier) ∈ pl.running
    · simp only [step, hrun, if_true, Option.some.injEq, Prod.mk.injEq] at h
      obtain ⟨hsp, hpl⟩ := h
      subst hpl
      have hheld : ∀ k, sp2.held k = sp.held k := by
        intro k
        subst hsp
        cases failed with
        | true => rfl
        | false =>
          simp only [StripeP.held, Bool.false_eq_true, if_false]
          by_cases hk : k = chunk
          · subst hk
            rw [held_mapSet_self, Entry_Add_locked]
          · rw [held_mapSet_ne _ _ _ _ hk]
      refine ⟨hok.nodup, fun k hk => by rw [hheld]; exact hok.held k hk,
        fun p hp => hok.waits p (List.mem_of_mem_erase hp), ?_⟩
      intro k
      have hle := hok.counted k
      rw [countP_erase_of_mem _ _ _ hrun] at hle
      dsimp only
      rw [lookup_map_dec]
      by_cases hk : k = chunk
      · subst hk
        simp only [decide_True, if_true] at hle
        simp only [if_true]
        omega
      · have hck : ¬ chunk = k := fun e => hk e.symm
        simp only [hck, decide_False, Bool.false_eq_true, if_false, Nat.add_zero] at hle
        simp only [hk, if_false]
        exact hle
    · simp [step, hrun] at h
  | unlock chunk =>
    simp only [step] at h
    split_ifs at h with hen
    simp only [Option.some.injEq, Prod.mk.injEq] at h
    obtain ⟨hsp, hpl⟩ := h
    subst hpl hsp
    obtain ⟨hmem, hzero⟩ := hen
    have hnone : ∀ p ∈ pl.running, p.1 ≠ chunk := by
      intro p hp he
      have hle := hok.counted chunk
      rw [hzero] at hle
      have hz : List.countP (fun p : Hash × Id => decide (p.1 = chunk)) pl.running = 0 := by omega
      exact (List.countP_eq_zero.mp hz) p hp (by simpa using he)
    refine ⟨hok.nodup.erase chunk, ?_, ?_, hok.counted⟩
    · intro k hk
      obtain ⟨hne, hin⟩ := (hok.nodup.mem_erase_iff).mp hk
      simp only [StripeP.held]
      rw [held_mapSet_ne _ _ _ _ hne]
      exact hok.held k hin
    · intro p hp
      exact (hok.nodup.mem_erase_iff).mpr ⟨hnone p hp, hok.waits p hp⟩

theorem run_ok :
    ∀ (evs : List Event) (sp sp2 : StripeP) (pl pl2 : Placement), PlOk sp pl →
      run evs (sp, pl) = some (sp2, pl2) → PlOk sp2 pl2 := by
  intro evs
  induction evs with
  | nil =>
    intro sp sp2 pl pl2 hok h
    simp only [run, Option.some.injEq, Prod.mk.injEq] at h
    obtain ⟨rfl, rfl⟩ := h
    exact hok
  | cons ev rest ih =>
    intro sp sp2 pl pl2 hok h
    simp only [run] at h
    split at h
    · cases h
    · rename_i st1 hst
      obtain ⟨sp1, pl1⟩ := st1
      exact ih sp1 sp2 pl1 pl2 (step_ok ev sp sp1 pl pl1 hok hst) h

theorem mem_running_key (l : S) (p : Hash × Id)
    (hp : p ∈ l.flatMap (fun q => q.2.map (fun id => (q.1, id)))) : p.1 ∈ l.map Prod.fst := by
  simp only [List.mem_flatMap, List.mem_map] at hp
  obtain ⟨q, hq, id, _, rfl⟩ := hp
  exact List.mem_map.mpr ⟨q, hq, rfl⟩

theorem count_running (l : S) (hnd : (l.map Prod.fst).Nodup) (h : Hash) :
    (l.flatMap (fun q => q.2.map (fun id => (q.1, id)))).countP (fun p => p.1 = h)
      ≤ ((l.map (fun p => (p.1, p.2.length))).lookup h).getD 0 := by
  induction l with
  | nil => simp
  | cons q rest ih =>
    obtain ⟨k, locs⟩ := q
    simp only [List.map_cons, List.nodup_cons] at hnd
    simp only [List.flatMap_cons, List.countP_append, List.map_cons, List.lookup_cons]
    by_cases hk : h = k
    · subst hk
      have hz : List.countP (fun p : Hash × Id => decide (p.1 = h))
          (rest.flatMap (fun q => q.2.map (fun id => (q.1, id)))) = 0 := by
        rw [List.countP_eq_zero]
        intro p hp he
        have hph : p.1 = h := of_decide_eq_true he
        exact hnd.1 (hph ▸ mem_running_key rest p hp)
      rw [hz]
      simp [List.countP_map, Function.comp_def]
    · have hb : (h == k) = false := by simpa using hk
      have hkh : ¬ k = h := fun e => hk e.symm
      have hz : List.countP (fun p : Hash × Id => decide (p.1 = h))
          (locs.map (fun id => (k, id))) = 0 := by
        rw [List.countP_eq_zero]
        intro p hp
        simp only [List.mem_map] at hp
        obtain ⟨id, _, rfl⟩ := hp
        simpa using hkh
      rw [hz, hb]
      simpa using ih hnd.2

theorem Procs_ok_placement (cfg : Striper) (hwf : cfg.WellFormed) (sp sp1 : StripeP) (inp : Input)
    (procs : List Proc) (pl : Placement) (h : Procs cfg sp inp = (.ok procs pl, sp1)) :
    PlOk sp1 pl := by
  unfold Procs at h
  dsimp only at h
  split at h
  · cases h
  · rename_i reg curStripe hlock
    split at h
    · cases h
    · rename_i dataUse hsum
      split at h
      · cases h
      · cases h
      · rename_i newStripe pos hcfg
        split at h
        · cases h
        · rename_i cpProcs wg hdisp
          simp only [Prod.mk.injEq, ProcsOut.ok.injEq] at h
          obtain ⟨⟨_, hpl⟩, hsp⟩ := h
          subst hpl hsp
          obtain ⟨hwg, hkeys⟩ := dispatch_ok _ _ _ _ _ _ _ hdisp
          have hnd := hwf _ _ _ _ _ hcfg
          have hmap : wg.map Prod.fst = newStripe.map Prod.fst := by
            rw [hwg]
            simp [List.map_map, Function.comp_def]
          refine ⟨by rw [hmap]; exact hnd, ?_, ?_, ?_⟩
          · intro k hk
            dsimp only at hk
            rw [hmap] at hk
            obtain ⟨p, hp, rfl⟩ := List.mem_map.mp hk
            exact lockAll_locked _ _ _ _ _ hlock p.1 (Or.inl (hkeys p hp))
          · intro p hp
            dsimp only at hp ⊢
            rw [hmap]
            exact mem_running_key newStripe p hp
          · intro k
            dsimp only
            rw [hwg, List.nil_append]
            exact count_running newStripe hnd k

/-- C6 (locks are released when the placement-wide countdown reaches zero), at
inputs where the code departs from it.  The countdown is one `sync.WaitGroup`
per item of the striper's result.  For the group of chunks `1` and `2` and the
plan `{1 → {10, 11}, 2 → {10}}`, once the copy of chunk `2` has ended the mutex
of chunk `2` is released while both copies of chunk `1` are still to end; and
when chunk `2` already has its replica, so that the plan is
`{1 → {11}, 2 → {}}`, its mutex is released with the copy of chunk `1` still
to end. -/
theorem Procs_unlock_before_all_copies :
    (Procs (testStriper (.ok [(1, [10, 11]), (2, [10])])) twoCopiers groupInput).1
        = .ok [.slice [{ hash := 2, size := some 1 }, { hash := 1, size := some 2 }],
            .copy 1 10, .copy 1 11, .copy 2 10]
          { dataUse := 3, running := [(1, 10), (1, 11), (2, 10)], wg := [(1, 2), (2, 1)],
            unlockers := [1, 2] }
      ∧ (run [.onEnd 2 10 false, .unlock 2]
          ((Procs (testStriper (.ok [(1, [10, 11]), (2, [10])])) twoCopiers groupInput).2,
            { dataUse := 3, running := [(1, 10), (1, 11), (2, 10)], wg := [(1, 2), (2, 1)],
              unlockers := [1, 2] })).map
          (fun st => (st.1.held 2, st.2.running)) = some (false, [(1, 10), (1, 11)])
      ∧ (Procs (Config.Stripe { Distinct := 0, Min := 1 } 20 (rr [10, 11] 0)) twoCopiersHeld
          groupInput).1
        = .ok [.slice [{ hash := 2, size := some 1 }, { hash := 1, size := some 2 }], .copy 1 11]
          { dataUse := 3, running := [(1, 11)], wg := [(2, 0), (1, 1)], unlockers := [2, 1] }
      ∧ (run [.unlock 2]
          ((Procs (Config.Stripe { Distinct := 0, Min := 1 } 20 (rr [10, 11] 0)) twoCopiersHeld
              groupInput).2,
            { dataUse := 3, running := [(1, 11)], wg := [(2, 0), (1, 1)], unlockers := [2, 1] })).map
          (fun st => (st.1.held 2, st.2.running)) = some (false, [(1, 11)]) := by
  decide!

/-- C6, as the code has it.  In a placement dispatched by `Procs`, whatever
events have happened since, the mutex of a chunk is held as long as a copy of
that chunk has not run its `OnEnd` hook: the goroutine of a chunk unlocks when
the counter of that chunk's own `WaitGroup` is zero. -/
theorem Procs_lock_held_per_chunk (cfg : Striper) (hwf : cfg.WellFormed) (sp sp1 : StripeP)
    (inp : Input) (procs : List Proc) (pl : Placement)
    (h : Procs cfg sp inp = (.ok procs pl, sp1)) (evs : List Event)
    (st2 : StripeP × Placement) (hrun : run evs (sp1, pl) = some st2) :
    ∀ c id, (c, id) ∈ st2.2.running → st2.1.held c = true := by
  intro c id hc
  obtain ⟨sp2, pl2⟩ := st2
  have hok := run_ok evs sp1 sp2 pl pl2 (Procs_ok_placement cfg hwf sp sp1 inp procs pl h) hrun
  exact hok.held c (hok.waits (c, id) hc)

theorem testStriper_wellFormed (res : S) (hnd : (res.map Prod.fst).Nodup) :
    (testStriper (.ok res)).WellFormed := by
  intro s dests pos res1 pos1 h
  simp only [testStriper, Option.some.injEq, Prod.mk.injEq, Except.ok.injEq] at h
  rw [← h.1]
  exact hnd

/-- A run of C6: the plan `{1 → {10, 11}, 2 → {10}}`; after the copy of chunk
`2` has ended and its mutex is released, the mutex of chunk `1` is held. -/
theorem Procs_lock_held_per_chunk_witness :
    StripeP.held
      { qman := [{ id := 10, capacity := none, used := 3 }, { id := 11, capacity := none, used := 0 }],
        reg := [(2, { owners := [10], locked := false }), (1, { owners := [], locked := true })],
        seqPos := 0 } 1 = true :=
  Procs_lock_held_per_chunk (testStriper (.ok [(1, [10, 11]), (2, [10])]))
    (testStriper_wellFormed _ (by decide)) twoCopiers
    { qman := [{ id := 10, capacity := none, used := 0 }, { id := 11, capacity := none, used := 0 }],
      reg := [(1, { owners := [], locked := true }), (2, { owners := [], locked := true })],
      seqPos := 0 }
    groupInput
    [.slice [{ hash := 2, size := some 1 }, { hash := 1, size := some 2 }],
      .copy 1 10, .copy 1 11, .copy 2 10]
    { dataUse := 3, running := [(1, 10), (1, 11), (2, 10)], wg := [(1, 2), (2, 1)],
      unlockers := [1, 2] }
    (by decide!) [.onEnd 2 10 false, .unlock 2]
    ({ qman := [{ id := 10, capacity := none, used := 3 }, { id := 11, capacity := none, used := 0 }],
       reg := [(2, { owners := [10], locked := false }), (1, { owners := [], locked := true })],
       seqPos := 0 },
     { dataUse := 3, running := [(1, 10), (1, 11)], wg := [(1, 2), (2, 0)], unlockers := [1] })
    (by decide!) 1 10 (by decide)

/-! ### The number of new destinations -/

theorem next_cons (env : Env) (got : Locs) (c : Cur) (x : Loc) (rest : List Loc)
    (h : c.old = x :: rest) : next env got c = (.loc x, { c with old := rest }) := by
  unfold next
  rw [h]

theorem next_nil_old (env : Env) (got : Locs) (c : Cur) (h : c.old = []) :
    (next env got c).2.old = [] := by
  unfold next
  rw [h]
  dsimp only
  split
  · rfl
  · split_ifs <;> rfl

theorem fill_count (env : Env) (it : Item) (got : Locs) (res : S) (hnr : NoReject env res it) :
    ∀ (fuel : Nat) (c c2 : Cur), CountOk env got c →
      fill env it got res fuel c = some (none, c2) →
      CountOk env got c2 ∧ env.min ≤ (c2.newLocs.length : Int) := by
  intro fuel
  induction fuel with
  | zero =>
    intro c c2 hc h
    unfold fill at h
    split_ifs at h with hlt
    cases h
    exact ⟨hc, not_lt.mp hlt⟩
  | succ n ih =>
    intro c c2 hc h
    unfold fill at h
    split_ifs at h with hlt
    · have hkeep := next_newLocs env got c
      cases hold : c.old with
      | nil =>
        have hnil := next_nil_old env got c hold
        have hbase : ∀ c1 : Cur, c1.old = [] → c1.newLocs = c.newLocs → CountOk env got c1 := by
          intro c1 h1 h2
          refine ⟨by rw [h2]; exact hc.nodup, by rw [h2]; exact hc.le_min, ?_, Or.inl h1, ?_⟩
          · intro l hl
            rcases hc.got_sub l hl with hin | hin
            · exact Or.inl (by rw [h2]; exact hin)
            · rw [hold] at hin
              cases hin
          · intro l hl
            rw [h1] at hl
            cases hl
        split at h
        · cases h
        · rename_i c1 heq
          rw [heq] at hnil hkeep
          exact ih c1 c2 (hbase c1 hnil hkeep) h
        · rename_i new c1 heq
          rw [heq] at hnil hkeep
          dsimp only at hnil hkeep
          split_ifs at h with hin hex
          · exact ih c1 c2 (hbase c1 hnil hkeep) h
          · exact absurd hex (hnr _ (List.cons_ne_nil _ _))
          · have hb := hbase c1 hnil hkeep
            refine ih { c1 with newLocs := new :: c1.newLocs } c2
              ⟨List.nodup_cons.mpr ⟨hin, hb.nodup⟩, ?_, ?_, Or.inl hnil, hb.old_sub⟩ h
            · rw [hkeep]
              simp only [List.length_cons, Nat.cast_add, Nat.cast_one]
              have := le_max_right 0 env.min
              omega
            · intro l hl
              rcases hb.got_sub l hl with hin2 | hin2
              · exact Or.inl (List.mem_cons_of_mem _ hin2)
              · exact Or.inr hin2
      | cons x rest =>
        have hnx := next_cons env got c x rest hold
        have hxg : x ∈ got := hc.old_sub x (by rw [hold]; exact List.mem_cons_self _ _)
        have hsub : ∀ l ∈ c.newLocs, l ∈ got := by
          rcases hc.phase with h0 | h0
          · rw [hold] at h0
            cases h0
          · exact h0
        rw [hnx] at h
        dsimp only at h
        split_ifs at h with hin hex
        · refine ih { c with old := rest } c2 ⟨hc.nodup, hc.le_min, ?_, Or.inr hsub, ?_⟩ h
          · intro l hl
            rcases hc.got_sub l hl with hin2 | hin2
            · exact Or.inl hin2
            · rw [hold] at hin2
              rcases List.mem_cons.mp hin2 with rfl | hin3
              · exact Or.inl hin
              · exact Or.inr hin3
          · intro l hl
            exact hc.old_sub l (by rw [hold]; exact List.mem_cons_of_mem _ hl)
        · exact absurd hex (hnr _ (List.cons_ne_nil _ _))
        · refine ih { c with old := rest, newLocs := x :: c.newLocs } c2
            ⟨List.nodup_cons.mpr ⟨hin, hc.nodup⟩, ?_, ?_, Or.inr ?_, ?_⟩ h
          · simp only [List.length_cons, Nat.cast_add, Nat.cast_one]
            have := le_max_right 0 env.min
            omega
          · intro l hl
            rcases hc.got_sub l hl with hin2 | hin2
            · exact Or.inl (List.mem_cons_of_mem _ hin2)
            · rw [hold] at hin2
              rcases List.mem_cons.mp hin2 with rfl | hin3
              · exact Or.inl (List.mem_cons_self _ _)
              · exact Or.inr hin3
          · intro l hl
            rcases List.mem_cons.mp hl with rfl | hl
            · exact hxg
            · exact hsub l hl
          · intro l hl
            exact hc.old_sub l (by rw [hold]; exact List.mem_cons_of_mem _ hl)
    · cases h
      exact ⟨hc, not_lt.mp hlt⟩

theorem mem_set_key (res : S) (it : Item) (x : Locs) (q : Item × Locs) (hq : q ∈ res.set it x) :
    q.1 = it ∨ q ∈ res := by
  unfold S.set at hq
  rcases List.mem_cons.mp hq with rfl | hq
  · exact Or.inl rfl
  · exact Or.inr (List.mem_filter.mp hq).1

theorem noReject_of_distinct (env : Env) (hd : env.distinct ≤ 0) (res : S) (it : Item) :
    NoReject env res it := by
  intro nl hnl hrej
  have hpos : 0 < nl.length := List.length_pos.mpr hnl
  have := hrej.1
  omega

theorem noReject_of_single (env : Env) (it : Item) (res : S) (hres : ∀ q ∈ res, q.1 = it) :
    NoReject env res it := by
  intro nl _ hrej
  have hfil : res.filter (fun p => p.1 ≠ it) = [] := by
    rw [List.filter_eq_nil_iff]
    intro q hq
    simp [hres q hq]
  have hex : S.exclusive (res.set it nl) it = true := by
    unfold S.exclusive S.set
    rw [hfil]
    simp [List.lookup_cons]
  rw [hex] at hrej
  exact Bool.noConfusion hrej.2

theorem stripeItems_count (env : Env) (fuel : Nat) (K : List Item)
    (hnr : ∀ (res : S) (it : Item), (∀ q ∈ res, q.1 ∈ K) → it ∈ K → NoReject env res it) :
    ∀ (exist res : S) (pos : Nat) (prios : Loc → Nat) (res2 : S) (pos2 : Nat),
      (exist.map Prod.fst).Nodup → (∀ p ∈ exist, ∀ l ∈ p.2, l ∈ env.dests) →
      (∀ p ∈ exist, p.1 ∈ K) → (∀ q ∈ res, q.1 ∈ K) →
      stripeItems env fuel exist res pos prios = some (.ok res2, pos2) →
      ∀ p ∈ exist, ∃ nl, res2.lookup p.1 = some nl ∧ Counted env p.2 nl := by
  intro exist
  induction exist with
  | nil =>
    intro res pos prios res2 pos2 _ _ _ _ _ p hp
    cases hp
  | cons p0 rest ih =>
    obtain ⟨it, got⟩ := p0
    intro res pos prios res2 pos2 hnd hsub hK hres h p hp
    have hitK : it ∈ K := hK (it, got) (List.mem_cons_self _ _)
    have hsetK : ∀ x : Locs, ∀ q ∈ res.set it x, q.1 ∈ K := by
      intro x q hq
      rcases mem_set_key res it x q hq with hq | hq
      · rw [hq]
        exact hitK
      · exact hres q hq
    simp only [List.map_cons, List.nodup_cons] at hnd
    unfold stripeItems at h
    split at h
    · cases h
    · cases h
    · rename_i c hfill
      have hc := fill_count env it got (res.set it []) (hnr _ it (hsetK []) hitK) fuel _ c
        ⟨by simp, by simp, fun l hl => Or.inr hl, Or.inr (by simp), fun l hl => hl⟩ hfill
      have hrest : ∀ q ∈ rest, ∀ l ∈ q.2, l ∈ env.dests :=
        fun q hq => hsub q (List.mem_cons_of_mem _ hq)
      rcases List.mem_cons.mp hp with rfl | hp
      · have hkeep := (stripeItems_ok env fuel rest (res.set it c.newLocs) c.pos c.prios res2 pos2
          hnd.2 hrest h it).2 hnd.1
        refine ⟨c.newLocs, by rw [hkeep, lookup_set_self], hc.1.nodup, ?_, ?_⟩
        · have h1 := hc.1.le_min
          have h2 := hc.2
          rcases le_total 0 env.min with h0 | h0
          · rw [max_eq_right h0] at h1 ⊢
            omega
          · rw [max_eq_left h0] at h1 ⊢
            omega
        · rcases hc.1.phase with hph | hph
          · left
            intro l hl
            rcases hc.1.got_sub l hl with hin | hin
            · exact hin
            · rw [hph] at hin
              cases hin
          · exact Or.inr hph
      · exact ih (res.set it c.newLocs) c.pos c.prios res2 pos2 hnd.2 hrest
          (fun q hq => hK q (List.mem_cons_of_mem _ hq)) (hsetK c.newLocs) h p hp

theorem gotOf_toFinset (dests locs : Locs) :
    (gotOf dests locs).toFinset = locs.toFinset ∩ dests.toFinset := by
  ext l
  simp [gotOf]

theorem filter_count (got nl : Locs) (m : Int) (hnd : nl.Nodup)
    (hlen : (nl.length : Int) = max 0 m)
    (hph : (∀ l ∈ got, l ∈ nl) ∨ (∀ l ∈ nl, l ∈ got)) :
    ((nl.filter (fun l => l ∉ got)).length : Int) = max 0 (m - (got.toFinset.card : Int)) := by
  rcases hph with hsub | hsub
  · have hset : (nl.filter (fun l => l ∉ got)).toFinset = nl.toFinset \ got.toFinset := by
      ext l
      simp
    have hcard : (nl.filter (fun l => l ∉ got)).length = nl.length - got.toFinset.card := by
      rw [← List.toFinset_card_of_nodup (hnd.filter _), hset,
        Finset.card_sdiff (by intro l hl; simpa using hsub l (by simpa using hl)),
        List.toFinset_card_of_nodup hnd]
    have hle : got.toFinset.card ≤ nl.length := by
      rw [← List.toFinset_card_of_nodup hnd]
      exact Finset.card_le_card (by intro l hl; simpa using hsub l (by simpa using hl))
    rw [hcard]
    rcases le_total 0 m with h0 | h0
    · rw [max_eq_right h0] at hlen
      rw [max_eq_right (by omega)]
      omega
    · rw [max_eq_left h0] at hlen
      rw [max_eq_left (by omega)]
      omega
  · have hnil : nl.filter (fun l => l ∉ got) = [] := by
      rw [List.filter_eq_nil_iff]
      intro l hl
      simpa using hsub l hl
    have hle : nl.length ≤ got.toFinset.card := by
      rw [← List.toFinset_card_of_nodup hnd]
      exact Finset.card_le_card (by intro l hl; simpa using hsub l (by simpa using hl))
    rw [hnil]
    have h1 := le_max_right 0 m
    rw [max_eq_left (by omega)]
    rfl

/-- C9 (the number of new destinations).  When `existing` has a single item,
or `distinct = 0`, every successful `Stripe` gives each item `i` a set of
exactly `max 0 (min − |existing[i] ∩ dests|)` destinations, all of them
members of `dests` that the item does not live on; an item that already has
`min` admissible replicas gets the empty set. -/
theorem Stripe_count (fuel : Nat) (s : S) (dests : Locs) (seq : Seq) (pos : Nat)
    (distinct min : Int) (res : S) (pos2 : Nat) (hnd : (s.map Prod.fst).Nodup)
    (hone : s.length = 1 ∨ distinct = 0)
    (h : Stripe fuel s dests seq pos distinct min = some (.ok res, pos2)) :
    ∀ i locs, (i, locs) ∈ s →
      ∃ r : Locs, res.lookup i = some r ∧ r.Nodup
        ∧ (∀ l ∈ r, l ∈ dests ∧ l ∉ locs)
        ∧ (r.length : Int) = max 0 (min - ((locs.toFinset ∩ dests.toFinset).card : Int))
        ∧ (min ≤ ((locs.toFinset ∩ dests.toFinset).card : Int) → r = []) := by
  intro i locs hi
  have hnr : ∀ (res : S) (it : Item), (∀ q ∈ res, q.1 ∈ s.map Prod.fst) → it ∈ s.map Prod.fst →
      NoReject { dests := dests, seq := seq, distinct := distinct, min := min } res it := by
    intro res0 it hres hit
    rcases hone with h1 | h0
    · match s, h1 with
      | [p], _ =>
        simp only [List.map_cons, List.map_nil, List.mem_singleton] at hres hit
        subst hit
        exact noReject_of_single _ _ res0 hres
    · exact noReject_of_distinct _ (le_of_eq h0) res0 it
  have hentry := Stripe_entry fuel s dests seq pos distinct min res pos2 hnd h i locs hi
  unfold Stripe at h
  dsimp only at h
  split at h
  · rename_i res1 pos1 hrun
    cases h
    obtain ⟨nl, hnl, hcnt⟩ := stripeItems_count _ fuel (s.map Prod.fst) hnr (existOf dests s) []
      pos (priosOf dests s) res1 pos2 (by rw [existOf_keys]; exact hnd) (existOf_sub dests s)
      (by intro p hp; rw [← existOf_keys dests s]; exact List.mem_map_of_mem Prod.fst hp)
      (by intro q hq; cases hq) hrun (i, gotOf dests locs)
      (List.mem_map.mpr ⟨(i, locs), hi, rfl⟩)
    obtain ⟨hnodup, hlen, hph⟩ := hcnt
    have hres : (subtractExist (existOf dests s) res1).lookup i
        = some (nl.filter (fun loc => loc ∉ gotOf dests locs)) := by
      rw [lookup_subtractExist, hnl, lookup_existOf, lookup_of_mem_nodup s hnd i locs hi]
      rfl
    obtain ⟨nl2, hres2, hsub, _, _⟩ := hentry
    have hnl2 : nl.filter (fun loc => loc ∉ gotOf dests locs)
        = nl2.filter (fun loc => loc ∉ gotOf dests locs) :=
      Option.some.inj (hres.symm.trans hres2)
    have hcount := filter_count (gotOf dests locs) nl min hnodup hlen hph
    rw [gotOf_toFinset] at hcount
    refine ⟨_, hres, hnodup.filter _, ?_, hcount, ?_⟩
    · intro l hl
      rw [hnl2] at hl
      obtain ⟨hin, hng⟩ := List.mem_filter.mp hl
      refine ⟨hsub l hin, fun hloc => ?_⟩
      have hg : l ∈ gotOf dests locs := by
        unfold gotOf
        exact List.mem_filter.mpr ⟨hloc, decide_eq_true (hsub l hin)⟩
      exact (of_decide_eq_true hng) hg
    · intro hmin
      rw [max_eq_left (by omega)] at hcount
      exact List.length_eq_zero.mp (by exact_mod_cast hcount)
  · rename_i hne
    exact absurd h (fun hh => hne _ _ hh)

/-- The scenario of C9: `existing = {1 → {10}}`, `dests = {10, 11, 12}`,
`distinct = 1`, `min = 3`; the result is `{1 → {11, 12}}`, two new
destinations. -/
theorem Stripe_count_witness :
    ∃ r : Locs, List.lookup 1 ([(1, [12, 11])] : S) = some r ∧ r.Nodup
      ∧ (∀ l ∈ r, l ∈ ([10, 11, 12] : Locs) ∧ l ∉ ([10] : Locs))
      ∧ (r.length : Int)
        = max 0 ((3 : Int) - (((([10] : Locs).toFinset) ∩ ([10, 11, 12] : Locs).toFinset).card : Int))
      ∧ ((3 : Int) ≤ (((([10] : Locs).toFinset) ∩ ([10, 11, 12] : Locs).toFinset).card : Int)
          → r = []) :=
  Stripe_count 20 [(1, [10])] [10, 11, 12] (rr [10, 11, 12] 0) 0 1 3 [(1, [12, 11])] 3
    (by decide) (Or.inl rfl) (by decide!) 1 [10] (by decide)

/-! ### Single steps of the placement loop -/

theorem fill_zero_done (env : Env) (it : Item) (got : Locs) (res : S) (fuel : Nat) (c : Cur)
    (h : ¬ (c.newLocs.length : Int) < env.min) : fill env it got res fuel c = some (none, c) := by
  cases fuel <;> simp [fill, h]

theorem fill_step_old (env : Env) (it : Item) (got : Locs) (res : S) (hnr : NoReject env res it)
    (fuel : Nat) (c : Cur) (x : Loc) (rest : List Loc) (hold : c.old = x :: rest)
    (hlt : (c.newLocs.length : Int) < env.min) :
    fill env it got res (fuel + 1) c
      = fill env it got res fuel
          (if x ∈ c.newLocs then { c with old := rest }
           else { c with old := rest, newLocs := x :: c.newLocs }) := by
  rw [fill, if_pos hlt, next_cons env got c x rest hold]
  dsimp only
  by_cases hin : x ∈ c.newLocs
  · rw [if_pos hin, if_pos hin]
  · rw [if_neg hin, if_neg hin, if_neg (hnr _ (List.cons_ne_nil _ _))]

theorem next_fresh (env : Env) (got : Locs) (c : Cur) (x : Loc) (hold : c.old = [])
    (hseq : env.seq c.pos = some x) (hd : x ∈ env.dests) (hp : x ∈ got ∨ c.prios x = 0)
    (hs : x ∉ c.seen) :
    next env got c = (.loc x, { c with pos := c.pos + 1, seen := x :: c.seen }) := by
  unfold next
  rw [hold]
  dsimp only
  rw [hseq]
  dsimp only
  have hprio : ¬ (x ∉ got ∧ 0 < c.prios x) := by
    rintro ⟨h1, h2⟩
    rcases hp with hp | hp
    · exact h1 hp
    · omega
  rw [if_neg (not_not.mpr hd), if_neg hprio, if_neg hs]

theorem next_seen (env : Env) (got : Locs) (c : Cur) (x : Loc) (hold : c.old = [])
    (hseq : env.seq c.pos = some x) (hd : x ∈ env.dests) (hp : x ∈ got ∨ c.prios x = 0)
    (hs : x ∈ c.seen) :
    next env got c
      = (.err { Distinct := env.distinct, Min := env.min, Avail := c.newLocs.length },
          { c with pos := c.pos + 1 }) := by
  unfold next
  rw [hold]
  dsimp only
  rw [hseq]
  dsimp only
  have hprio : ¬ (x ∉ got ∧ 0 < c.prios x) := by
    rintro ⟨h1, h2⟩
    rcases hp with hp | hp
    · exact h1 hp
    · omega
  rw [if_neg (not_not.mpr hd), if_neg hprio, if_pos hs]

theorem fill_step_fresh (env : Env) (it : Item) (got : Locs) (res : S)
    (hnr : NoReject env res it) (fuel : Nat) (c : Cur) (x : Loc) (hold : c.old = [])
    (hseq : env.seq c.pos = some x) (hd : x ∈ env.dests) (hp : x ∈ got ∨ c.prios x = 0)
    (hs : x ∉ c.seen) (hlt : (c.newLocs.length : Int) < env.min) :
    fill env it got res (fuel + 1) c
      = fill env it got res fuel
          (if x ∈ c.newLocs then { c with pos := c.pos + 1, seen := x :: c.seen }
           else { c with pos := c.pos + 1, seen := x :: c.seen, newLocs := x :: c.newLocs }) := by
  rw [fill, if_pos hlt, next_fresh env got c x hold hseq hd hp hs]
  dsimp only
  by_cases hin : x ∈ c.newLocs
  · rw [if_pos hin, if_pos hin]
  · rw [if_neg hin, if_neg hin, if_neg (hnr _ (List.cons_ne_nil _ _))]

theorem fill_step_seen (env : Env) (it : Item) (got : Locs) (res : S) (fuel : Nat) (c : Cur)
    (x : Loc) (hold : c.old = []) (hseq : env.seq c.pos = some x) (hd : x ∈ env.dests)
    (hp : x ∈ got ∨ c.prios x = 0) (hs : x ∈ c.seen)
    (hlt : (c.newLocs.length : Int) < env.min) :
    fill env it got res (fuel + 1) c
      = some (some { Distinct := env.distinct, Min := env.min, Avail := c.newLocs.length },
          { c with pos := c.pos + 1 }) := by
  rw [fill, if_pos hlt, next_seen env got c x hold hseq hd hp hs]

/-! ### The round-robin sequence -/

theorem rr_some (ids : List Loc) (start n : Nat) (hne : ids ≠ []) :
    ∃ x, rr ids start n = some x ∧ x ∈ ids := by
  have hpos : 0 < ids.length := List.length_pos.mpr hne
  have hlt : (start + n) % ids.length < ids.length := Nat.mod_lt _ hpos
  exact ⟨ids[(start + n) % ids.length], by simp [rr, List.getElem?_eq_getElem hlt],
    List.getElem_mem _⟩

theorem rr_period (ids : List Loc) (start n : Nat) :
    rr ids start (n + ids.length) = rr ids start n := by
  simp only [rr, ← Nat.add_assoc, Nat.add_mod_right]

theorem rr_inj (ids : List Loc) (start n m : Nat) (hnd : ids.Nodup) (x : Loc)
    (hn : rr ids start n = some x) (hm : rr ids start m = some x) (hnm : n ≤ m)
    (hmn : m < n + ids.length) : n = m := by
  have hpos : 0 < ids.length := by omega
  have h1 : (start + n) % ids.length < ids.length := Nat.mod_lt _ hpos
  have h2 : (start + m) % ids.length < ids.length := Nat.mod_lt _ hpos
  simp only [rr, List.getElem?_eq_getElem h1, List.getElem?_eq_getElem h2,
    Option.some.injEq] at hn hm
  have heq : (start + n) % ids.length = (start + m) % ids.length :=
    (List.Nodup.getElem_inj_iff hnd).mp (hn.trans hm.symm)
  have hmod : (m - n) % ids.length = 0 := by
    have hsub : (start + m - (start + n)) % ids.length = 0 :=
      Nat.sub_mod_eq_zero_of_mod_eq heq.symm
    have : start + m - (start + n) = m - n := by omega
    rwa [this] at hsub
  have hlt : m - n < ids.length := by omega
  rw [Nat.mod_eq_of_lt hlt] at hmod
  omega


/-! ### A single item and a round-robin sequence over the destinations -/

theorem nodup_subset_length (l1 l2 : List Loc) (hnd : l1.Nodup) (hsub : ∀ x ∈ l1, x ∈ l2) :
    l1.length ≤ l2.length :=
  (List.subperm_of_subset hnd hsub).length_le

theorem prios_fold (got : Locs) :
    ∀ (pr : Loc → Nat) (x : Loc),
      (got.foldl (fun pr loc l => if l = loc then pr loc + 1 else pr l) pr) x
        = pr x + got.count x := by
  induction got with
  | nil => intro pr x; simp
  | cons a rest ih =>
    intro pr x
    rw [List.foldl_cons, ih, List.count_cons]
    by_cases hx : x = a
    · subst hx
      simp
      omega
    · have hax : ¬ a = x := fun e => hx e.symm
      simp [hx, hax]

theorem priosOf_single (dests : Locs) (it : Item) (locs : Locs) (x : Loc)
    (hx : x ∉ gotOf dests locs) : priosOf dests [(it, locs)] x = 0 := by
  simp only [priosOf, List.foldl_cons, List.foldl_nil]
  rw [prios_fold]
  simp [List.count_eq_zero_of_not_mem hx]

theorem short_run (env : Env) (it : Item) (got : Locs) (res : S) (ids : List Loc)
    (start pos0 : Nat) (hseq : env.seq = rr ids start) (hnd : ids.Nodup) (hne : ids ≠ [])
    (hsame : ∀ l, l ∈ env.dests ↔ l ∈ ids) (hmin : (ids.length : Int) < env.min)
    (hnr : NoReject env res it) :
    ∀ (μ : Nat) (c : Cur), CycleOk env got pos0 c → c.seen.length ≤ ids.length →
      c.old.length + (ids.length - c.seen.length) = μ →
      ∀ fuel, μ + 1 ≤ fuel →
        ∃ c2, fill env it got res fuel c
            = some (some { Distinct := env.distinct, Min := env.min, Avail := ids.length }, c2)
          ∧ c2.pos = pos0 + ids.length + 1 := by
  intro μ
  induction μ with
  | zero =>
    intro c hc hk hμ fuel hfuel
    obtain ⟨f, rfl⟩ : ∃ f, fuel = f + 1 := ⟨fuel - 1, by omega⟩
    have hold : c.old = [] := List.length_eq_zero.mp (by omega)
    have hlen : c.seen.length = ids.length := by omega
    have hpos : 0 < ids.length := List.length_pos.mpr hne
    have hle : c.newLocs.length ≤ ids.length :=
      nodup_subset_length _ _ hc.ok.nodup (fun x hx => (hsame x).mp (hc.ok.new_sub x hx))
    have hge : c.seen.length ≤ c.newLocs.length :=
      nodup_subset_length _ _ hc.seen_nodup hc.seen_sub
    have hlt : (c.newLocs.length : Int) < env.min := by omega
    obtain ⟨x, hxs, hx0⟩ := hc.seen_first (by omega)
    have hx : env.seq c.pos = some x := by
      rw [hc.pos_eq, hlen, hseq, rr_period, ← hseq]
      exact hx0
    have hxd : x ∈ env.dests := hc.ok.new_sub x (hc.seen_sub x hxs)
    have hp : x ∈ got ∨ c.prios x = 0 := by
      by_cases hg : x ∈ got
      · exact Or.inl hg
      · exact Or.inr (hc.prios_zero x hg)
    have heq : c.newLocs.length = ids.length := by omega
    refine ⟨{ c with pos := c.pos + 1 }, ?_, ?_⟩
    · rw [fill_step_seen env it got res f c x hold hx hxd hp hxs hlt, heq]
    · dsimp only
      rw [hc.pos_eq, hlen]
  | succ μ ih =>
    intro c hc hk hμ fuel hfuel
    obtain ⟨f, rfl⟩ : ∃ f, fuel = f + 1 := ⟨fuel - 1, by omega⟩
    have hle : c.newLocs.length ≤ ids.length :=
      nodup_subset_length _ _ hc.ok.nodup (fun x hx => (hsame x).mp (hc.ok.new_sub x hx))
    have hlt : (c.newLocs.length : Int) < env.min := by omega
    cases hold : c.old with
    | cons x rest =>
      rw [fill_step_old env it got res hnr f c x rest hold hlt]
      have hxd : x ∈ env.dests := hc.ok.old_sub x (by rw [hold]; exact List.mem_cons_self _ _)
      have hrest : ∀ l ∈ rest, l ∈ env.dests :=
        fun l hl => hc.ok.old_sub l (by rw [hold]; exact List.mem_cons_of_mem _ hl)
      rw [hold] at hμ
      simp only [List.length_cons] at hμ
      by_cases hin : x ∈ c.newLocs
      · rw [if_pos hin]
        exact ih { c with old := rest }
          ⟨⟨hrest, hc.ok.new_sub, hc.ok.nodup⟩, hc.seen_sub, hc.seen_nodup, hc.pos_eq,
            hc.seen_from, hc.seen_first, hc.prios_zero⟩ hk (by dsimp only; omega) f (by omega)
      · rw [if_neg hin]
        refine ih { c with old := rest, newLocs := x :: c.newLocs }
          ⟨⟨hrest, ?_, List.nodup_cons.mpr ⟨hin, hc.ok.nodup⟩⟩,
            fun l hl => List.mem_cons_of_mem _ (hc.seen_sub l hl), hc.seen_nodup, hc.pos_eq,
            hc.seen_from, hc.seen_first, hc.prios_zero⟩ hk (by dsimp only; omega) f (by omega)
        intro l hl
        rcases List.mem_cons.mp hl with rfl | hl
        · exact hxd
        · exact hc.ok.new_sub l hl
    | nil =>
      rw [hold] at hμ
      simp only [List.length_nil, Nat.zero_add] at hμ
      have hklt : c.seen.length < ids.length := by omega
      obtain ⟨x, hx, hxi⟩ := rr_some ids start c.pos hne
      rw [← hseq] at hx
      have hxd : x ∈ env.dests := (hsame x).mpr hxi
      have hp : x ∈ got ∨ c.prios x = 0 := by
        by_cases hg : x ∈ got
        · exact Or.inl hg
        · exact Or.inr (hc.prios_zero x hg)
      have hfresh : x ∉ c.seen := by
        intro hxs
        obtain ⟨j, hj, hjx⟩ := hc.seen_from x hxs
        rw [hseq] at hjx hx
        have := rr_inj ids start (pos0 + j) c.pos hnd x hjx hx (by rw [hc.pos_eq]; omega)
          (by rw [hc.pos_eq]; omega)
        rw [hc.pos_eq] at this
        omega
      rw [fill_step_fresh env it got res hnr f c x hold hx hxd hp hfresh hlt]
      have hseen_from : ∀ l ∈ x :: c.seen,
          ∃ j, j < (x :: c.seen).length ∧ env.seq (pos0 + j) = some l := by
        intro l hl
        rcases List.mem_cons.mp hl with rfl | hl
        · exact ⟨c.seen.length, by simp, by rw [← hc.pos_eq]; exact hx⟩
        · obtain ⟨j, hj, hjl⟩ := hc.seen_from l hl
          exact ⟨j, by simp only [List.length_cons]; omega, hjl⟩
      have hseen_first : 0 < (x :: c.seen).length → ∃ l ∈ x :: c.seen, env.seq pos0 = some l := by
        intro _
        rcases Nat.eq_zero_or_pos c.seen.length with h0 | h0
        · refine ⟨x, List.mem_cons_self _ _, ?_⟩
          have : c.pos = pos0 := by rw [hc.pos_eq, h0]; rfl
          rw [← this]
          exact hx
        · obtain ⟨l, hl, hl0⟩ := hc.seen_first h0
          exact ⟨l, List.mem_cons_of_mem _ hl, hl0⟩
      have hpos1 : c.pos + 1 = pos0 + (x :: c.seen).length := by
        rw [hc.pos_eq]
        simp only [List.length_cons]
        omega
      by_cases hin : x ∈ c.newLocs
      · rw [if_pos hin]
        refine ih { c with pos := c.pos + 1, seen := x :: c.seen }
          ⟨⟨by rw [hold]; simp, hc.ok.new_sub, hc.ok.nodup⟩, ?_,
            List.nodup_cons.mpr ⟨hfresh, hc.seen_nodup⟩, hpos1, hseen_from, hseen_first,
            hc.prios_zero⟩ (by simp only [List.length_cons]; omega)
          (by simp only [List.length_cons, hold, List.length_nil]; omega) f (by omega)
        intro l hl
        rcases List.mem_cons.mp hl with rfl | hl
        · exact hin
        · exact hc.seen_sub l hl
      · rw [if_neg hin]
        refine ih { c with pos := c.pos + 1, seen := x :: c.seen, newLocs := x :: c.newLocs }
          ⟨⟨by rw [hold]; simp, ?_, List.nodup_cons.mpr ⟨hin, hc.ok.nodup⟩⟩, ?_,
            List.nodup_cons.mpr ⟨hfresh, hc.seen_nodup⟩, hpos1, hseen_from, hseen_first,
            hc.prios_zero⟩ (by simp only [List.length_cons]; omega)
          (by simp only [List.length_cons, hold, List.length_nil]; omega) f (by omega)
        · intro l hl
          rcases List.mem_cons.mp hl with rfl | hl
          · exact hxd
          · exact hc.ok.new_sub l hl
        · intro l hl
          rcases List.mem_cons.mp hl with rfl | hl
          · exact List.mem_cons_self _ _
          · exact List.mem_cons_of_mem _ (hc.seen_sub l hl)

/-- C10 (short placement).  For a single item, destinations that are the
`n ≥ 1` distinct ids of a round-robin sequence, and `min > n`, `Stripe` returns
`ShortError{Distinct: distinct, Min: min, Avail: n}`, for every `distinct`,
every set of existing locations of the item and every state of the sequence;
it has then pulled `n + 1` values. -/
theorem Stripe_short (fuel : Nat) (it : Item) (locs : Locs) (ids dests : List Loc)
    (start pos : Nat) (distinct min : Int) (hnd : ids.Nodup) (hne : ids ≠ [])
    (hsame : ∀ l, l ∈ dests ↔ l ∈ ids) (hmin : (ids.length : Int) < min)
    (hfuel : locs.length + ids.length + 1 ≤ fuel) :
    Stripe fuel [(it, locs)] dests (rr ids start) pos distinct min
      = some (.short { Distinct := distinct, Min := min, Avail := ids.length },
          pos + ids.length + 1) := by
  have hgot : (gotOf dests locs).length ≤ locs.length := List.length_filter_le _ _
  obtain ⟨c2, hfill, hpos⟩ := short_run
    { dests := dests, seq := rr ids start, distinct := distinct, min := min } it
    (gotOf dests locs) (S.set [] it []) ids start pos rfl hnd hne hsame hmin
    (noReject_of_single _ it _ (by
      intro q hq
      rcases mem_set_key [] it [] q hq with h | h
      · exact h
      · cases h))
    ((gotOf dests locs).length + ids.length)
    { old := gotOf dests locs, seen := [], newLocs := [], pos := pos,
      prios := priosOf dests [(it, locs)] }
    ⟨⟨fun l hl => by simpa using (List.mem_filter.mp hl).2, by simp, by simp⟩, by simp, by simp,
      rfl, by simp, by simp, fun x hx => priosOf_single dests it locs x hx⟩
    (by simp) (by simp) fuel (by omega)
  simp only [Stripe, existOf, List.map_cons, List.map_nil, stripeItems, hfill, hpos]

/-- The scenario of C10: one destination `10`, `min = 2`; the error has
`Min = 2` and `Avail = 1`. -/
theorem Stripe_short_witness :
    Stripe 2 [(1, [])] [10] (rr [10] 0) 0 0 2
      = some (.short { Distinct := 0, Min := 2, Avail := (([10] : List Loc).length : Int) },
          0 + ([10] : List Loc).length + 1) :=
  Stripe_short 2 1 [] [10] [10] 0 0 0 2 (by decide) (by decide) (by intro l; rfl) (by decide)
    (by decide)

/-! ### Placements that share a round-robin sequence -/

theorem fill_zero_stuck (env : Env) (it : Item) (got : Locs) (res : S) (c : Cur)
    (h : (c.newLocs.length : Int) < env.min) : fill env it got res 0 c = none := by
  simp [fill, h]

theorem take_run (env : Env) (it : Item) (res : S) (ids : List Loc) (start pos0 : Nat)
    (hseq : env.seq = rr ids start) (hnd : ids.Nodup) (hsub : ∀ x ∈ ids, x ∈ env.dests)
    (hmin : env.min ≤ (ids.length : Int)) (hnr : NoReject env res it) :
    ∀ (d : Nat) (c : Cur), c.old = [] → c.seen = c.newLocs → (∀ x, c.prios x = 0) →
      c.pos = pos0 + c.newLocs.length →
      (∀ l ∈ c.seen, ∃ j, j < c.newLocs.length ∧ env.seq (pos0 + j) = some l) →
      c.newLocs.length + d = env.min.toNat →
      ∀ (fuel : Nat) (r : Option ShortError × Cur), fill env it [] res fuel c = some r →
        ∃ c2, r = (none, c2) ∧ c2.newLocs = (pulled env.seq c.pos d).reverse ++ c.newLocs
          ∧ c2.pos = c.pos + d := by
  intro d
  induction d with
  | zero =>
    intro c _ _ _ _ _ hlen fuel r h
    have hdone : ¬ (c.newLocs.length : Int) < env.min := by
      have := Int.self_le_toNat env.min
      omega
    rw [fill_zero_done env it [] res fuel c hdone] at h
    exact ⟨c, (Option.some.inj h).symm, by simp [pulled], rfl⟩
  | succ d ih =>
    intro c hold hseen hprio hpos hfrom hlen fuel r h
    have hlt : (c.newLocs.length : Int) < env.min := by
      have : c.newLocs.length < env.min.toNat := by omega
      exact Int.lt_toNat.mp this
    have hklt : c.newLocs.length < ids.length := by omega
    have hne : ids ≠ [] := by
      intro e
      rw [e] at hklt
      simp at hklt
    cases fuel with
    | zero =>
      rw [fill_zero_stuck env it [] res c hlt] at h
      cases h
    | succ f =>
      obtain ⟨x, hx, hxi⟩ := rr_some ids start c.pos hne
      rw [← hseq] at hx
      have hfresh : x ∉ c.seen := by
        intro hxs
        obtain ⟨j, hj, hjx⟩ := hfrom x hxs
        rw [hseq] at hjx hx
        have := rr_inj ids start (pos0 + j) c.pos hnd x hjx hx (by rw [hpos]; omega)
          (by rw [hpos]; omega)
        rw [hpos] at this
        omega
      have hnew : x ∉ c.newLocs := by rw [← hseen]; exact hfresh
      rw [fill_step_fresh env it [] res hnr f c x hold hx (hsub x hxi) (Or.inr (hprio x))
        hfresh hlt, if_neg hnew] at h
      obtain ⟨c2, hr, hnl, hp2⟩ :=
        ih { c with pos := c.pos + 1, seen := x :: c.seen, newLocs := x :: c.newLocs }
          hold (by rw [hseen]) hprio
          (by simp only [List.length_cons]; omega)
          (by
            intro l hl
            rcases List.mem_cons.mp hl with rfl | hl
            · exact ⟨c.newLocs.length, by simp, by rw [← hpos]; exact hx⟩
            · obtain ⟨j, hj, hjl⟩ := hfrom l hl
              exact ⟨j, by simp only [List.length_cons]; omega, hjl⟩)
          (by simp only [List.length_cons]; omega) f r h
      refine ⟨c2, hr, ?_, by rw [hp2]; dsimp only; omega⟩
      rw [hnl]
      simp [pulled, hx]

theorem priosOf_fresh (dests : Locs) (it : Item) (x : Loc) : priosOf dests [(it, [])] x = 0 := by
  simp [priosOf, gotOf]

/-- A `Stripe` call for one item without replicas, with a round-robin sequence
over distinct ids that are all destinations and `min` at most their number:
the result is the next `min` values of the sequence. -/
theorem Stripe_fresh (fuel : Nat) (it : Item) (ids dests : List Loc) (start pos : Nat)
    (distinct min : Int) (hnd : ids.Nodup) (hsub : ∀ x ∈ ids, x ∈ dests)
    (hmin : min ≤ (ids.length : Int)) (res : S) (pos2 : Nat)
    (h : Stripe fuel [(it, [])] dests (rr ids start) pos distinct min = some (.ok res, pos2)) :
    res = [(it, (pulled (rr ids start) pos min.toNat).reverse)] ∧ pos2 = pos + min.toNat := by
  have hnr : NoReject { dests := dests, seq := rr ids start, distinct := distinct, min := min }
      (S.set [] it []) it :=
    noReject_of_single _ it _ (by
      intro q hq
      rcases mem_set_key [] it [] q hq with h | h
      · exact h
      · cases h)
  have hrun := take_run { dests := dests, seq := rr ids start, distinct := distinct, min := min }
    it (S.set [] it []) ids start pos rfl hnd hsub hmin hnr min.toNat
    { old := [], seen := [], newLocs := [], pos := pos, prios := priosOf dests [(it, [])] }
    rfl rfl (priosOf_fresh dests it) rfl (by simp) (by simp) fuel
  simp only [Stripe, existOf, gotOf, List.filter_nil, List.map_cons, List.map_nil,
    stripeItems] at h
  split at h
  · rename_i res1 pos1 hit
    split at hit
    · cases hit
    · cases hit
    · rename_i c hfill
      obtain ⟨c2, hr, hnl, hp2⟩ := hrun _ hfill
      simp only [Prod.mk.injEq, true_and] at hr
      subst hr
      simp only [Option.some.injEq, Prod.mk.injEq, Outcome.ok.injEq] at hit h
      obtain ⟨hres1, hpos1⟩ := hit
      obtain ⟨hres, hpos2⟩ := h
      subst hres1 hpos1
      refine ⟨?_, by rw [← hpos2, hp2]⟩
      rw [← hres, hnl]
      simp [subtractExist, S.set, List.lookup_cons]
  · rename_i hne
    exact absurd h (fun hh => hne _ _ hh)

theorem pulled_add (seq : Seq) (m2 : Nat) :
    ∀ (m1 p : Nat), pulled seq p (m1 + m2) = pulled seq p m1 ++ pulled seq (p + m1) m2 := by
  intro m1
  induction m1 with
  | zero => intro p; simp [pulled]
  | succ m ih =>
    intro p
    have e : m + 1 + m2 = (m + m2) + 1 := by omega
    have e2 : p + (m + 1) = p + 1 + m := by omega
    rw [e, pulled, pulled, ih, e2, List.append_assoc]

theorem mem_pulled (seq : Seq) (l : Loc) :
    ∀ (m p : Nat), l ∈ pulled seq p m → ∃ j, j < m ∧ seq (p + j) = some l := by
  intro m
  induction m with
  | zero => intro p h; simp [pulled] at h
  | succ m ih =>
    intro p h
    rw [pulled, List.mem_append] at h
    rcases h with h | h
    · exact ⟨0, by omega, by simpa using h⟩
    · obtain ⟨j, hj, hjl⟩ := ih (p + 1) h
      exact ⟨j + 1, by omega, by rw [← hjl]; congr 1; omega⟩

theorem pulled_rr_cons (ids : List Loc) (start p m : Nat) (hne : ids ≠ []) :
    ∃ x, rr ids start p = some x ∧ x ∈ ids
      ∧ pulled (rr ids start) p (m + 1) = x :: pulled (rr ids start) (p + 1) m := by
  obtain ⟨x, hx, hxi⟩ := rr_some ids start p hne
  exact ⟨x, hx, hxi, by simp [pulled, hx]⟩

theorem pulled_rr_length (ids : List Loc) (start : Nat) (hne : ids ≠ []) :
    ∀ (m p : Nat), (pulled (rr ids start) p m).length = m := by
  intro m
  induction m with
  | zero => intro p; simp [pulled]
  | succ m ih =>
    intro p
    obtain ⟨x, _, _, hcons⟩ := pulled_rr_cons ids start p m hne
    rw [hcons, List.length_cons, ih]

theorem pulled_rr_sub (ids : List Loc) (start : Nat) (hne : ids ≠ []) (m p : Nat) :
    ∀ l ∈ pulled (rr ids start) p m, l ∈ ids := by
  intro l hl
  obtain ⟨j, _, hjl⟩ := mem_pulled _ l m p hl
  obtain ⟨x, hx, hxi⟩ := rr_some ids start (p + j) hne
  rw [hx] at hjl
  exact (Option.some.inj hjl) ▸ hxi

theorem pulled_rr_nodup (ids : List Loc) (start : Nat) (hnd : ids.Nodup) (hne : ids ≠ []) :
    ∀ (m p : Nat), m ≤ ids.length → (pulled (rr ids start) p m).Nodup := by
  intro m
  induction m with
  | zero => intro p _; simp [pulled]
  | succ m ih =>
    intro p hm
    obtain ⟨x, hx, _, hcons⟩ := pulled_rr_cons ids start p m hne
    rw [hcons]
    refine List.nodup_cons.mpr ⟨?_, ih (p + 1) (by omega)⟩
    intro hmem
    obtain ⟨j, hj, hjx⟩ := mem_pulled _ x m (p + 1) hmem
    have := rr_inj ids start p (p + 1 + j) hnd x hx hjx (by omega) (by omega)
    omega

theorem count_period (ids : List Loc) (start p : Nat) (hnd : ids.Nodup) (hne : ids ≠ [])
    (a : Loc) (ha : a ∈ ids) : (pulled (rr ids start) p ids.length).count a = 1 := by
  have hperm : List.Perm (pulled (rr ids start) p ids.length) ids :=
    (List.subperm_of_subset (pulled_rr_nodup ids start hnd hne _ p le_rfl)
      (pulled_rr_sub ids start hne _ p)).perm_of_length_le
      (by rw [pulled_rr_length ids start hne])
  rw [hperm.count_eq, List.count_eq_one_of_mem hnd ha]

/-- Among consecutive values of a round-robin sequence over distinct ids every
id occurs either `T / K` or `T / K + 1` times. -/
theorem count_pulled (ids : List Loc) (start : Nat) (hnd : ids.Nodup) (a : Loc) (ha : a ∈ ids) :
    ∀ (T p : Nat), T / ids.length ≤ (pulled (rr ids start) p T).count a
      ∧ (pulled (rr ids start) p T).count a ≤ T / ids.length + 1 := by
  have hne : ids ≠ [] := List.ne_nil_of_mem ha
  have hpos : 0 < ids.length := List.length_pos.mpr hne
  intro T
  induction T using Nat.strong_induction_on with
  | _ T ih =>
    intro p
    rcases Nat.lt_or_ge T ids.length with hlt | hge
    · rw [Nat.div_eq_of_lt hlt]
      exact ⟨Nat.zero_le _,
        List.nodup_iff_count_le_one.mp (pulled_rr_nodup ids start hnd hne T p (le_of_lt hlt)) a⟩
    · obtain ⟨T2, rfl⟩ : ∃ T2, T = ids.length + T2 := ⟨T - ids.length, by omega⟩
      have hrec := ih T2 (by omega) (p + ids.length)
      rw [pulled_add, List.count_append, count_period ids start p hnd hne a ha,
        Nat.add_div_left _ hpos]
      omega

theorem stripeRun_chain (fuel : Nat) (ids : List Loc) (start : Nat) (hnd : ids.Nodup) :
    ∀ (calls : List Call) (pos : Nat) (rs : List S) (pos2 : Nat),
      (∀ c ∈ calls, c.min ≤ (ids.length : Int) ∧ ∀ x ∈ ids, x ∈ c.dests) →
      stripeRun fuel (rr ids start) calls pos = some (rs, pos2) →
      (∀ a, (selected rs).count a
          = (pulled (rr ids start) pos (calls.map (fun c => c.min.toNat)).sum).count a)
        ∧ pos2 = pos + (calls.map (fun c => c.min.toNat)).sum
        ∧ ∀ j c, calls[j]? = some c →
            rs[j]? = some [(c.item,
              (pulled (rr ids start) (pos + ((calls.take j).map (fun c => c.min.toNat)).sum)
                c.min.toNat).reverse)] := by
  intro calls
  induction calls with
  | nil =>
    intro pos rs pos2 _ h
    simp only [stripeRun, Option.some.injEq, Prod.mk.injEq] at h
    obtain ⟨rfl, rfl⟩ := h
    simp [selected, pulled]
  | cons c rest ih =>
    intro pos rs pos2 hcalls h
    unfold stripeRun at h
    split at h
    · rename_i res pos1 hcall
      split at h
      · rename_i rs1 pos3 hrest
        simp only [Option.some.injEq, Prod.mk.injEq] at h
        obtain ⟨rfl, rfl⟩ := h
        obtain ⟨hc1, hc2⟩ := hcalls c (List.mem_cons_self _ _)
        obtain ⟨hres, hpos1⟩ := Stripe_fresh fuel c.item ids c.dests start pos c.distinct c.min
          hnd hc2 hc1 res pos1 hcall
        obtain ⟨hcount, hpos3, hchain⟩ := ih pos1 rs1 pos3
          (fun c2 hc => hcalls c2 (List.mem_cons_of_mem _ hc)) hrest
        subst hres hpos1
        refine ⟨?_, ?_, ?_⟩
        · intro a
          simp only [selected, List.flatMap_cons, List.flatMap_nil, List.append_nil,
            List.count_append, List.count_reverse, List.map_cons, List.sum_cons, pulled_add]
          rw [← hcount a]
          rfl
        · rw [hpos3, List.map_cons, List.sum_cons]
          omega
        · intro j c2 hj
          cases j with
          | zero =>
            simp only [List.getElem?_cons_zero, Option.some.injEq] at hj
            subst hj
            simp
          | succ j =>
            simp only [List.getElem?_cons_succ] at hj ⊢
            rw [hchain j c2 hj]
            simp only [List.take_succ_cons, List.map_cons, List.sum_cons, Nat.add_assoc]
      · cases h
    · cases h

/-- C8 (round-robin fairness).  In a run of successful `Stripe` calls that
share a round-robin sequence over `K` distinct ids, all of them destinations
at every call, each call placing one item without replicas with `min ≤ K`:
the numbers of times two ids are selected over the whole run differ by at
most 1, and every call selects the values of the sequence that follow the ones
pulled by the calls before it, the first call starting at the state in which
the run found the sequence. -/
theorem stripeRun_fair (fuel : Nat) (ids : List Loc) (start : Nat) (calls : List Call)
    (pos : Nat) (rs : List S) (pos2 : Nat) (hnd : ids.Nodup)
    (hcalls : ∀ c ∈ calls, c.min ≤ (ids.length : Int) ∧ ∀ x ∈ ids, x ∈ c.dests)
    (h : stripeRun fuel (rr ids start) calls pos = some (rs, pos2)) :
    (∀ a ∈ ids, ∀ b ∈ ids, (selected rs).count a ≤ (selected rs).count b + 1)
      ∧ ∀ j c, calls[j]? = some c →
          rs[j]? = some [(c.item,
            (pulled (rr ids start) (pos + ((calls.take j).map (fun c => c.min.toNat)).sum)
              c.min.toNat).reverse)] := by
  obtain ⟨hcount, _, hchain⟩ := stripeRun_chain fuel ids start hnd calls pos rs pos2 hcalls h
  refine ⟨?_, hchain⟩
  intro a ha b hb
  rw [hcount a, hcount b]
  have h1 := (count_pulled ids start hnd a ha (calls.map (fun c => c.min.toNat)).sum pos).2
  have h2 := (count_pulled ids start hnd b hb (calls.map (fun c => c.min.toNat)).sum pos).1
  omega

/-- A run of C8: three placements on the sequence `10, 11, 12, 10, …` with
`min` 2, 2 and 3; the second call starts with `12`, the third with `11`, and
over the run `10` is selected as often as `11`. -/
theorem stripeRun_fair_witness :
    ((∀ a ∈ ([10, 11, 12] : List Loc), ∀ b ∈ ([10, 11, 12] : List Loc),
        (selected [[(1, [11, 10])], [(2, [10, 12])], [(3, [10, 12, 11])]]).count a
          ≤ (selected [[(1, [11, 10])], [(2, [10, 12])], [(3, [10, 12, 11])]]).count b + 1)
      ∧ ∀ j c,
          ([⟨1, [10, 11, 12], 0, 2⟩, ⟨2, [10, 11, 12], 5, 2⟩, ⟨3, [10, 11, 12, 13], 0, 3⟩]
            : List Call)[j]? = some c →
          ([[(1, [11, 10])], [(2, [10, 12])], [(3, [10, 12, 11])]] : List S)[j]?
            = some [(c.item,
                (pulled (rr [10, 11, 12] 0)
                  (0 + ((([⟨1, [10, 11, 12], 0, 2⟩, ⟨2, [10, 11, 12], 5, 2⟩,
                    ⟨3, [10, 11, 12, 13], 0, 3⟩] : List Call).take j).map
                      (fun c => c.min.toNat)).sum)
                  c.min.toNat).reverse)]) :=
  stripeRun_fair 10 [10, 11, 12] 0
    [⟨1, [10, 11, 12], 0, 2⟩, ⟨2, [10, 11, 12], 5, 2⟩, ⟨3, [10, 11, 12, 13], 0, 3⟩] 0
    [[(1, [11, 10])], [(2, [10, 12])], [(3, [10, 12, 11])]] 7 (by decide)
    (by
      intro c hc
      simp only [List.mem_cons, List.mem_singleton, List.not_mem_nil, or_false] at hc
      rcases hc with rfl | rfl | rfl <;> decide)
    (by decide!)

/-! ### The order of an item's existing locations -/

theorem next_twin (env : Env) (got1 got2 : Locs) (hmem : ∀ x, x ∈ got1 ↔ x ∈ got2)
    (c1 c2 : Cur) (h1 : c1.old = []) (h2 : c2.old = []) (hseen : c1.seen = c2.seen)
    (hpos : c1.pos = c2.pos) (hprios : c1.prios = c2.prios)
    (hlen : c1.newLocs.length = c2.newLocs.length) :
    (next env got1 c1).1 = (next env got2 c2).1
      ∧ (next env got1 c1).2.old = [] ∧ (next env got2 c2).2.old = []
      ∧ (next env got1 c1).2.seen = (next env got2 c2).2.seen
      ∧ (next env got1 c1).2.pos = (next env got2 c2).2.pos
      ∧ (next env got1 c1).2.prios = (next env got2 c2).2.prios := by
  unfold next
  rw [h1, h2]
  dsimp only
  rw [← hpos, ← hprios, ← hseen, hlen]
  cases env.seq c1.pos with
  | none => exact ⟨rfl, rfl, rfl, rfl, rfl, rfl⟩
  | some x =>
    dsimp only
    by_cases hd : x ∈ env.dests
    · rw [if_neg (not_not.mpr hd), if_neg (not_not.mpr hd)]
      by_cases hp : x ∉ got1 ∧ 0 < c1.prios x
      · have hp2 : x ∉ got2 ∧ 0 < c1.prios x := ⟨fun h => hp.1 ((hmem x).mpr h), hp.2⟩
        rw [if_pos hp, if_pos hp2]
        exact ⟨rfl, rfl, rfl, rfl, rfl, rfl⟩
      · have hp2 : ¬ (x ∉ got2 ∧ 0 < c1.prios x) := fun h => hp ⟨fun g => h.1 ((hmem x).mp g), h.2⟩
        rw [if_neg hp, if_neg hp2]
        by_cases hs : x ∈ c1.seen
        · rw [if_pos hs, if_pos hs]
          exact ⟨rfl, rfl, rfl, rfl, rfl, rfl⟩
        · rw [if_neg hs, if_neg hs]
          exact ⟨rfl, rfl, rfl, rfl, rfl, rfl⟩
    · rw [if_pos hd, if_pos hd]
      exact ⟨rfl, rfl, rfl, rfl, rfl, rfl⟩

theorem fill_succ (env : Env) (it : Item) (got : Locs) (res : S) (hnr : NoReject env res it)
    (fuel : Nat) (c : Cur) (hlt : (c.newLocs.length : Int) < env.min) :
    fill env it got res (fuel + 1) c
      = match (next env got c).1 with
        | .err e => some (some e, (next env got c).2)
        | .skip => fill env it got res fuel (next env got c).2
        | .loc new =>
          if new ∈ (next env got c).2.newLocs then fill env it got res fuel (next env got c).2
          else fill env it got res fuel
            { (next env got c).2 with newLocs := new :: (next env got c).2.newLocs } := by
  rw [fill, if_pos hlt]
  rcases hnx : next env got c with ⟨r, c1⟩
  cases r with
  | err e => rfl
  | skip => rfl
  | loc new =>
    dsimp only
    by_cases hin : new ∈ c1.newLocs
    · rw [if_pos hin, if_pos hin]
    · rw [if_neg hin, if_neg hin, if_neg (hnr _ (List.cons_ne_nil _ _))]

theorem filter_twin (got added : Locs) (k : Nat) :
    (added ++ (got.take k).reverse).filter (fun l => l ∉ got)
      = added.filter (fun l => l ∉ got) := by
  rw [List.filter_append]
  have hnil : ((got.take k).reverse).filter (fun l => l ∉ got) = [] := by
    rw [List.filter_eq_nil_iff]
    intro l hl
    have : l ∈ got := List.mem_of_mem_take (List.mem_reverse.mp hl)
    simpa using this
  rw [hnil, List.append_nil]

theorem getElem_not_mem_take (l : Locs) (hnd : l.Nodup) (k : Nat) (hk : k < l.length) :
    l[k] ∉ l.take k := by
  intro hmem
  obtain ⟨j, hj, hjk⟩ := List.getElem_of_mem hmem
  rw [List.length_take] at hj
  rw [List.getElem_take] at hjk
  have := (List.Nodup.getElem_inj_iff hnd).mp hjk
  omega

theorem fill_twin (env : Env) (it : Item) (res : S) (got1 got2 : Locs)
    (hperm : List.Perm got1 got2) (hnd1 : got1.Nodup) (hnr : NoReject env res it) :
    ∀ (fuel k : Nat) (added : Locs) (c1 c2 : Cur), Twin got1 got2 k added c1 c2 →
      SameOutcome got1 got2 (fill env it got1 res fuel c1) (fill env it got2 res fuel c2) := by
  have hlen12 : got1.length = got2.length := hperm.length_eq
  have hmem : ∀ x, x ∈ got1 ↔ x ∈ got2 := fun x => hperm.mem_iff
  have hnd2 : got2.Nodup := hperm.nodup_iff.mp hnd1
  intro fuel
  induction fuel with
  | zero =>
    intro k added c1 c2 ht
    have hl : c1.newLocs.length = c2.newLocs.length := by
      rw [ht.new1, ht.new2]
      simp [hlen12]
    by_cases hlt : (c1.newLocs.length : Int) < env.min
    · rw [fill_zero_stuck env it got1 res c1 hlt,
        fill_zero_stuck env it got2 res c2 (by rw [← hl]; exact hlt)]
      trivial
    · rw [fill_zero_done env it got1 res 0 c1 hlt,
        fill_zero_done env it got2 res 0 c2 (by rw [← hl]; exact hlt)]
      refine ⟨ht.pos_eq, ?_⟩
      rw [ht.new1, ht.new2, filter_twin, filter_twin]
      exact List.filter_congr (fun x _ => by simp [hmem x])
  | succ f ih =>
    intro k added c1 c2 ht
    have hl : c1.newLocs.length = c2.newLocs.length := by
      rw [ht.new1, ht.new2]
      simp [hlen12]
    by_cases hlt : (c1.newLocs.length : Int) < env.min
    · have hlt2 : (c2.newLocs.length : Int) < env.min := by rw [← hl]; exact hlt
      rcases Nat.lt_or_ge k got1.length with hk | hk
      · have hk2 : k < got2.length := by omega
        have hadd : added = [] := by
          rcases ht.phase with h | h
          · exact h
          · omega
        have ho1 : c1.old = got1[k] :: got1.drop (k + 1) := by
          rw [ht.old1]; exact List.drop_eq_getElem_cons hk
        have ho2 : c2.old = got2[k] :: got2.drop (k + 1) := by
          rw [ht.old2]; exact List.drop_eq_getElem_cons hk2
        have hn1 : got1[k] ∉ c1.newLocs := by
          rw [ht.new1, hadd]
          simpa using getElem_not_mem_take got1 hnd1 k hk
        have hn2 : got2[k] ∉ c2.newLocs := by
          rw [ht.new2, hadd]
          simpa using getElem_not_mem_take got2 hnd2 k hk2
        rw [fill_step_old env it got1 res hnr f c1 _ _ ho1 hlt, if_neg hn1,
          fill_step_old env it got2 res hnr f c2 _ _ ho2 hlt2, if_neg hn2]
        refine ih (k + 1) [] _ _ ⟨rfl, rfl, ?_, ?_, Or.inl rfl, ht.seen_eq, ht.pos_eq, ht.prios_eq⟩
        · have e : got1.take (k + 1) = got1.take k ++ [got1[k]] := by
            rw [List.take_succ, List.getElem?_eq_getElem hk]
            rfl
          dsimp only
          rw [ht.new1, hadd, e, List.reverse_append]
          rfl
        · have e : got2.take (k + 1) = got2.take k ++ [got2[k]] := by
            rw [List.take_succ, List.getElem?_eq_getElem hk2]
            rfl
          dsimp only
          rw [ht.new2, hadd, e, List.reverse_append]
          rfl
      · have hk2 : got2.length ≤ k := by omega
        have ho1 : c1.old = [] := by rw [ht.old1]; exact List.drop_eq_nil_of_le hk
        have ho2 : c2.old = [] := by rw [ht.old2]; exact List.drop_eq_nil_of_le hk2
        obtain ⟨hr, hno1, hno2, hns, hnp, hnpr⟩ :=
          next_twin env got1 got2 hmem c1 c2 ho1 ho2 ht.seen_eq ht.pos_eq ht.prios_eq hl
        have hk1 := next_newLocs env got1 c1
        have hk2n := next_newLocs env got2 c2
        have hdrop1 : got1.drop k = [] := List.drop_eq_nil_of_le hk
        have hdrop2 : got2.drop k = [] := List.drop_eq_nil_of_le hk2
        rw [fill_succ env it got1 res hnr f c1 hlt, fill_succ env it got2 res hnr f c2 hlt2,
          ← hr]
        cases hres : (next env got1 c1).1 with
        | err e => exact ⟨rfl, hnp⟩
        | skip =>
          exact ih k added _ _ ⟨by rw [hno1, hdrop1], by rw [hno2, hdrop2],
            by rw [hk1, ht.new1], by rw [hk2n, ht.new2], ht.phase, hns, hnp, hnpr⟩
        | loc x =>
          dsimp only
          have hin : x ∈ (next env got1 c1).2.newLocs ↔ x ∈ (next env got2 c2).2.newLocs := by
            rw [hk1, hk2n, ht.new1, ht.new2, List.take_of_length_le hk,
              List.take_of_length_le hk2]
            simp [hmem x]
          by_cases hx : x ∈ (next env got1 c1).2.newLocs
          · rw [if_pos hx, if_pos (hin.mp hx)]
            exact ih k added _ _ ⟨by rw [hno1, hdrop1], by rw [hno2, hdrop2],
              by rw [hk1, ht.new1], by rw [hk2n, ht.new2], ht.phase, hns, hnp, hnpr⟩
          · rw [if_neg hx, if_neg (fun h => hx (hin.mpr h))]
            exact ih k (x :: added) _ _ ⟨by dsimp only; rw [hno1, hdrop1],
              by dsimp only; rw [hno2, hdrop2],
              by dsimp only; rw [hk1, ht.new1]; rfl, by dsimp only; rw [hk2n, ht.new2]; rfl,
              Or.inr hk, hns, hnp, hnpr⟩
    · rw [fill_zero_done env it got1 res _ c1 hlt,
        fill_zero_done env it got2 res _ c2 (by rw [← hl]; exact hlt)]
      refine ⟨ht.pos_eq, ?_⟩
      rw [ht.new1, ht.new2, filter_twin, filter_twin]
      exact List.filter_congr (fun x _ => by simp [hmem x])

theorem Stripe_single (fuel : Nat) (it : Item) (locs dests : Locs) (seq : Seq) (pos : Nat)
    (distinct min : Int) :
    Stripe fuel [(it, locs)] dests seq pos distinct min
      = match fill { dests := dests, seq := seq, distinct := distinct, min := min } it
            (gotOf dests locs) (S.set [] it []) fuel
            { old := gotOf dests locs, seen := [], newLocs := [], pos := pos,
              prios := priosOf dests [(it, locs)] } with
        | none => none
        | some (some e, c) => some (.short e, c.pos)
        | some (none, c) =>
          some (.ok [(it, c.newLocs.filter (fun l => l ∉ gotOf dests locs))], c.pos) := by
  simp only [Stripe, existOf, List.map_cons, List.map_nil, stripeItems]
  rcases fill { dests := dests, seq := seq, distinct := distinct, min := min } it
      (gotOf dests locs) (S.set [] it []) fuel
      { old := gotOf dests locs, seen := [], newLocs := [], pos := pos,
        prios := priosOf dests [(it, locs)] } with _ | ⟨_ | e, c⟩
  · rfl
  · simp [subtractExist, S.set, List.lookup_cons]
  · rfl

theorem priosOf_single_perm (dests : Locs) (it : Item) (locs1 locs2 : Locs)
    (hperm : List.Perm locs1 locs2) : priosOf dests [(it, locs1)] = priosOf dests [(it, locs2)] := by
  funext x
  simp only [priosOf, List.foldl_cons, List.foldl_nil]
  rw [prios_fold, prios_fold]
  unfold gotOf
  rw [(hperm.filter _).count_eq]

/-- C7, as the code has it.  For a map with a single item `Stripe` returns the
same result (or the same error, or does not return) and leaves the sequence
in the same state whatever the order in which the item's existing locations
are enumerated. -/
theorem Stripe_single_order (fuel : Nat) (it : Item) (locs1 locs2 dests : Locs) (seq : Seq)
    (pos : Nat) (distinct min : Int) (hperm : List.Perm locs1 locs2) (hnd : locs1.Nodup) :
    Stripe fuel [(it, locs1)] dests seq pos distinct min
      = Stripe fuel [(it, locs2)] dests seq pos distinct min := by
  have hnr : NoReject { dests := dests, seq := seq, distinct := distinct, min := min }
      (S.set [] it []) it :=
    noReject_of_single _ it _ (by
      intro q hq
      rcases mem_set_key [] it [] q hq with h | h
      · exact h
      · cases h)
  have htwin := fill_twin { dests := dests, seq := seq, distinct := distinct, min := min } it
    (S.set [] it []) (gotOf dests locs1) (gotOf dests locs2) (hperm.filter _)
    (hnd.filter _) hnr fuel 0 []
    { old := gotOf dests locs1, seen := [], newLocs := [], pos := pos,
      prios := priosOf dests [(it, locs1)] }
    { old := gotOf dests locs2, seen := [], newLocs := [], pos := pos,
      prios := priosOf dests [(it, locs2)] }
    ⟨rfl, rfl, by simp, by simp, Or.inl rfl, rfl, rfl, priosOf_single_perm dests it _ _ hperm⟩
  rw [Stripe_single, Stripe_single]
  revert htwin
  rcases fill { dests := dests, seq := seq, distinct := distinct, min := min } it
      (gotOf dests locs1) (S.set [] it []) fuel
      { old := gotOf dests locs1, seen := [], newLocs := [], pos := pos,
        prios := priosOf dests [(it, locs1)] } with _ | ⟨_ | e1, c1⟩ <;>
    rcases fill { dests := dests, seq := seq, distinct := distinct, min := min } it
      (gotOf dests locs2) (S.set [] it []) fuel
      { old := gotOf dests locs2, seen := [], newLocs := [], pos := pos,
        prios := priosOf dests [(it, locs2)] } with _ | ⟨_ | e2, c2⟩ <;>
    intro htwin <;> simp only [SameOutcome] at htwin
  · rfl
  · dsimp only
    rw [htwin.1, htwin.2]
  · dsimp only
    rw [htwin.1, htwin.2]

/-- A run of C7: an item that lives on `10` and `11`, enumerated in both
orders, with destinations `10, 11, 12` and `min = 3`. -/
theorem Stripe_single_order_witness :
    Stripe 20 [(1, [10, 11])] [10, 11, 12] (rr [10, 11, 12] 0) 0 1 3
      = Stripe 20 [(1, [11, 10])] [10, 11, 12] (rr [10, 11, 12] 0) 0 1 3 :=
  Stripe_single_order 20 1 [10, 11] [11, 10] [10, 11, 12] (rr [10, 11, 12] 0) 0 1 3
    (List.Perm.swap 11 10 []) (by decide)

/-- C7 (the result does not depend on the order in which the items are
visited), at an input where the code departs from it: two items without
replicas, destinations `10` and `11`, `distinct = 0`, `min = 1`.  Visited in
the order `1, 2` item `1` gets `10`; visited in the order `2, 1` it gets `11`. -/
theorem Stripe_order_dependent :
    Stripe 20 [(1, []), (2, [])] [10, 11] (rr [10, 11] 0) 0 0 1
        = some (.ok [(2, [11]), (1, [10])], 2)
      ∧ Stripe 20 [(2, []), (1, [])] [10, 11] (rr [10, 11] 0) 0 0 1
        = some (.ok [(1, [11]), (2, [10])], 2)
      ∧ List.lookup 1 ([(2, [11]), (1, [10])] : S) ≠ List.lookup 1 ([(1, [11]), (2, [10])] : S) := by
  decide!

/-! ### The items of the result -/

theorem mem_keys_set (res : S) (it j : Item) (x : Locs) :
    j ∈ (res.set it x).map Prod.fst ↔ j = it ∨ j ∈ res.map Prod.fst := by
  unfold S.set
  simp only [List.map_cons, List.mem_cons, List.mem_map, List.mem_filter]
  constructor
  · rintro (h | ⟨q, ⟨hq, _⟩, rfl⟩)
    · exact Or.inl h
    · exact Or.inr ⟨q, hq, rfl⟩
  · rintro (h | ⟨q, hq, rfl⟩)
    · exact Or.inl h
    · by_cases hk : q.1 = it
      · exact Or.inl hk
      · exact Or.inr ⟨q, ⟨hq, by simpa using hk⟩, rfl⟩

theorem nodup_keys_set (res : S) (it : Item) (x : Locs) (h : (res.map Prod.fst).Nodup) :
    ((res.set it x).map Prod.fst).Nodup := by
  unfold S.set
  rw [List.map_cons, List.nodup_cons]
  constructor
  · intro hmem
    obtain ⟨q, hq, hqk⟩ := List.mem_map.mp hmem
    have := (List.mem_filter.mp hq).2
    simp only [decide_eq_true_eq] at this
    exact this hqk
  · exact (List.filter_sublist _).map Prod.fst |>.nodup h

theorem stripeItems_keys (env : Env) (fuel : Nat) :
    ∀ (exist res : S) (pos : Nat) (prios : Loc → Nat) (res2 : S) (pos2 : Nat),
      stripeItems env fuel exist res pos prios = some (.ok res2, pos2) →
      (∀ j, j ∈ res2.map Prod.fst ↔ j ∈ exist.map Prod.fst ∨ j ∈ res.map Prod.fst)
        ∧ ((res.map Prod.fst).Nodup → (res2.map Prod.fst).Nodup) := by
  intro exist
  induction exist with
  | nil =>
    intro res pos prios res2 pos2 h
    unfold stripeItems at h
    cases h
    simp
  | cons p rest ih =>
    obtain ⟨it, got⟩ := p
    intro res pos prios res2 pos2 h
    unfold stripeItems at h
    split at h
    · cases h
    · cases h
    · rename_i c hfill
      obtain ⟨hmem, hnd⟩ := ih (res.set it c.newLocs) c.pos c.prios res2 pos2 h
      refine ⟨fun j => ?_, fun hres => hnd (nodup_keys_set res it c.newLocs hres)⟩
      rw [hmem j, mem_keys_set, List.map_cons, List.mem_cons]
      tauto

theorem Stripe_ok_inv (fuel : Nat) (s : S) (dests : Locs) (seq : Seq) (pos : Nat)
    (distinct min : Int) (res : S) (pos2 : Nat)
    (h : Stripe fuel s dests seq pos distinct min = some (.ok res, pos2)) :
    ∃ res1, stripeItems { dests := dests, seq := seq, distinct := distinct, min := min } fuel
        (existOf dests s) [] pos (priosOf dests s) = some (.ok res1, pos2)
      ∧ res = subtractExist (existOf dests s) res1 := by
  unfold Stripe at h
  dsimp only at h
  split at h
  · rename_i res1 pos1 hrun
    cases h
    exact ⟨res1, hrun, rfl⟩
  · rename_i hne
    exact absurd h (fun hh => hne _ _ hh)

theorem subtractExist_keys (exist res : S) :
    (subtractExist exist res).map Prod.fst = res.map Prod.fst := by
  simp [subtractExist, List.map_map, Function.comp_def]

/-- C11 (the items of the result).  On success the result of `Stripe` has
exactly the items of `existing`: every item of `existing` is mapped, no other
item is, and no item occurs twice. -/
theorem Stripe_keys (fuel : Nat) (s : S) (dests : Locs) (seq : Seq) (pos : Nat)
    (distinct min : Int) (res : S) (pos2 : Nat)
    (h : Stripe fuel s dests seq pos distinct min = some (.ok res, pos2)) :
    (∀ j, j ∈ res.map Prod.fst ↔ j ∈ s.map Prod.fst) ∧ (res.map Prod.fst).Nodup := by
  obtain ⟨res1, hrun, rfl⟩ := Stripe_ok_inv fuel s dests seq pos distinct min res pos2 h
  obtain ⟨hmem, hnd⟩ := stripeItems_keys _ fuel (existOf dests s) [] pos (priosOf dests s)
    res1 pos2 hrun
  rw [subtractExist_keys]
  refine ⟨fun j => ?_, hnd (by simp)⟩
  rw [hmem j, existOf_keys]
  simp

/-- A run of C11: two items that live on `10`; item `1`, which needs nothing
new for `min = 1`, is mapped to the empty set. -/
theorem Stripe_keys_witness :
    (∀ j, j ∈ ([(2, []), (1, [])] : S).map Prod.fst ↔ j ∈ ([(1, [10]), (2, [10])] : S).map Prod.fst)
      ∧ (([(2, []), (1, [])] : S).map Prod.fst).Nodup :=
  Stripe_keys 20 [(1, [10]), (2, [10])] [10, 11, 12] (rr [10, 11, 12] 0) 0 0 1
    [(2, []), (1, [])] 0 (by decide!)

/-! ### The exclusivity test -/

theorem all_not_contains (a b : Locs) :
    (a.all fun loc => !(b.contains loc)) = true ↔ ∀ l ∈ a, l ∉ b := by
  simp [List.all_eq_true]

theorem exclusive_iff (s : S) (it : Item) (locs : Locs) (h : s.lookup it = some locs) :
    S.exclusive s it = true ↔ ∀ p ∈ s, p.1 ≠ it → ∀ l ∈ locs, l ∉ p.2 := by
  unfold S.exclusive
  rw [h]
  simp only [List.all_eq_true]
  constructor
  · intro hall p hp hne l hl
    have hp2 := hall p hp
    rw [if_neg hne] at hp2
    by_cases hlen : p.2.length < locs.length
    · rw [if_pos hlen] at hp2
      exact fun hmem => (all_not_contains p.2 locs).mp hp2 l hmem hl
    · rw [if_neg hlen] at hp2
      exact (all_not_contains locs p.2).mp hp2 l hl
  · intro hall p hp
    by_cases hne : p.1 = it
    · rw [if_pos hne]
    · rw [if_neg hne]
      by_cases hlen : p.2.length < locs.length
      · rw [if_pos hlen]
        exact (all_not_contains p.2 locs).mpr (fun l hl hmem => hall p hp hne l hmem hl)
      · rw [if_neg hlen]
        exact (all_not_contains locs p.2).mpr (hall p hp hne)

theorem mem_set_ne (res : S) (it : Item) (x : Locs) (p : Item × Locs) (hne : p.1 ≠ it) :
    p ∈ res.set it x ↔ p ∈ res := by
  unfold S.set
  rw [List.mem_cons, List.mem_filter]
  constructor
  · rintro (h | h)
    · exact absurd (by rw [h]) hne
    · exact h.1
  · intro h
    exact Or.inr ⟨h, by simpa using hne⟩

theorem exclusive_set_iff (res : S) (it : Item) (nl : Locs) :
    S.exclusive (res.set it nl) it = true ↔ ∀ p ∈ res, p.1 ≠ it → ∀ l ∈ nl, l ∉ p.2 := by
  rw [exclusive_iff _ it nl (lookup_set_self res it nl)]
  constructor
  · intro h p hp hne
    exact h p ((mem_set_ne res it nl p hne).mpr hp) hne
  · intro h p hp hne
    exact h p ((mem_set_ne res it nl p hne).mp hp) hne

/-- C19, as the code has it.  The exclusivity test that `Stripe` applies to
item `it` when it has tentatively given it the locations `nl` under the
partial result `res` succeeds exactly when no other item of `res` shares a
location with `nl`, the locations chosen for `it` so far in this call (the
admissible existing ones among them only once they have been taken from the
work list). -/
theorem exclusive_chosen_only (res : S) (it : Item) (nl : Locs) :
    S.exclusive (res.set it nl) it = true ↔ ∀ p ∈ res, p.1 ≠ it → ∀ l ∈ nl, l ∉ p.2 :=
  exclusive_set_iff res it nl

/-- C19 (the test looks at `R[i] ∪ got(i)`), at an input where the code departs
from it: `existing = {1 → {10}, 2 → {11, 10}}`, all of it admissible,
`distinct = 1`, `min = 1`.  When item `2` has tentatively taken `11`, item `1`
holds `10`, a member of `got(2)`: the test of the specification fails, the
test of the code succeeds and `11` is kept. -/
theorem exclusive_ignores_got :
    S.exclusive (S.set (S.set [(1, [10])] 2 []) 2 [11]) 2 = true
      ∧ exclusiveWithGot (S.set (S.set [(1, [10])] 2 []) 2 [11]) [11, 10] 2 = false
      ∧ (fill { dests := [10, 11, 12], seq := rr [10, 11, 12] 0, distinct := 1, min := 1 } 2
            [11, 10] (S.set [(1, [10])] 2 []) 20
            { old := [11, 10], seen := [], newLocs := [], pos := 0,
              prios := priosOf [10, 11, 12] [(1, [10]), (2, [11, 10])] }).map
          (fun r => (r.1, r.2.newLocs)) = some (none, [11]) := by
  decide!

/-! ### Disjoint results -/

theorem fill_disjoint (env : Env) (it : Item) (got : Locs) (res : S)
    (hdist : env.min ≤ env.distinct) :
    ∀ (fuel : Nat) (c c2 : Cur),
      (∀ p ∈ res, p.1 ≠ it → ∀ l ∈ c.newLocs, l ∉ p.2) →
      fill env it got res fuel c = some (none, c2) →
      ∀ p ∈ res, p.1 ≠ it → ∀ l ∈ c2.newLocs, l ∉ p.2 := by
  intro fuel
  induction fuel with
  | zero =>
    intro c c2 hc h
    unfold fill at h
    split_ifs at h with hlt
    cases h
    exact hc
  | succ n ih =>
    intro c c2 hc h
    unfold fill at h
    split_ifs at h with hlt
    · have hkeep := next_newLocs env got c
      split at h
      · cases h
      · rename_i c1 heq
        rw [heq] at hkeep
        exact ih c1 c2 (by rw [hkeep]; exact hc) h
      · rename_i new c1 heq
        rw [heq] at hkeep
        dsimp only at hkeep
        split_ifs at h with hin hex
        · exact ih c1 c2 (by rw [hkeep]; exact hc) h
        · exact ih c1 c2 (by rw [hkeep]; exact hc) h
        · refine ih { c1 with newLocs := new :: c1.newLocs } c2 ?_ h
          have hlen : ((new :: c1.newLocs).length : Int) ≤ env.distinct := by
            rw [hkeep]
            simp only [List.length_cons, Nat.cast_add, Nat.cast_one]
            omega
          have htrue : S.exclusive (res.set it (new :: c1.newLocs)) it = true := by
            cases hb : S.exclusive (res.set it (new :: c1.newLocs)) it with
            | true => rfl
            | false => exact absurd ⟨hlen, hb⟩ hex
          exact (exclusive_set_iff res it (new :: c1.newLocs)).mp htrue
    · cases h
      exact hc

theorem mem_set_cases (res : S) (it : Item) (x : Locs) (p : Item × Locs) (hp : p ∈ res.set it x) :
    p = (it, x) ∨ (p ∈ res ∧ p.1 ≠ it) := by
  unfold S.set at hp
  rcases List.mem_cons.mp hp with h | h
  · exact Or.inl h
  · obtain ⟨h1, h2⟩ := List.mem_filter.mp h
    exact Or.inr ⟨h1, by simpa using h2⟩

theorem stripeItems_disjoint (env : Env) (fuel : Nat) (hdist : env.min ≤ env.distinct) :
    ∀ (exist res : S) (pos : Nat) (prios : Loc → Nat) (res2 : S) (pos2 : Nat),
      Apart res → stripeItems env fuel exist res pos prios = some (.ok res2, pos2) →
      Apart res2 := by
  intro exist
  induction exist with
  | nil =>
    intro res pos prios res2 pos2 hres h
    unfold stripeItems at h
    cases h
    exact hres
  | cons p0 rest ih =>
    obtain ⟨it, got⟩ := p0
    intro res pos prios res2 pos2 hres h
    unfold stripeItems at h
    split at h
    · cases h
    · cases h
    · rename_i c hfill
      have hc := fill_disjoint env it got (res.set it []) hdist fuel _ c (by simp) hfill
      refine ih (res.set it c.newLocs) c.pos c.prios res2 pos2 ?_ h
      intro p hp q hq hne l hl
      rcases mem_set_cases res it c.newLocs p hp with rfl | ⟨hp1, hp2⟩
      · rcases mem_set_cases res it c.newLocs q hq with rfl | ⟨hq1, hq2⟩
        · exact absurd rfl hne
        · exact hc q ((mem_set_ne res it [] q hq2).mpr hq1) hq2 l hl
      · rcases mem_set_cases res it c.newLocs q hq with rfl | ⟨hq1, hq2⟩
        · intro hmem
          exact hc p ((mem_set_ne res it [] p hp2).mpr hp1) hp2 l hmem hl
        · exact hres p hp1 q hq1 hne l hl

theorem mem_of_lookup (s : S) (i : Item) (r : Locs) (h : s.lookup i = some r) : (i, r) ∈ s := by
  induction s with
  | nil => cases h
  | cons p rest ih =>
    obtain ⟨k, v⟩ := p
    by_cases hik : i = k
    · subst hik
      simp only [List.lookup_cons_self, Option.some.injEq] at h
      rw [h]
      exact List.mem_cons_self _ _
    · have hb : (i == k) = false := by simpa using hik
      simp only [List.lookup_cons, hb] at h
      exact List.mem_cons_of_mem _ (ih h)

/-- C18 (disjoint results).  When `distinct ≥ min`, every successful `Stripe`
maps different items to sets without a common member, in whatever order the
items are visited. -/
theorem Stripe_disjoint (fuel : Nat) (s : S) (dests : Locs) (seq : Seq) (pos : Nat)
    (distinct min : Int) (res : S) (pos2 : Nat) (hdist : min ≤ distinct)
    (h : Stripe fuel s dests seq pos distinct min = some (.ok res, pos2)) :
    ∀ i j ri rj, i ≠ j → res.lookup i = some ri → res.lookup j = some rj →
      ri.toFinset ∩ rj.toFinset = ∅ := by
  obtain ⟨res1, hrun, rfl⟩ := Stripe_ok_inv fuel s dests seq pos distinct min res pos2 h
  have hap := stripeItems_disjoint
    { dests := dests, seq := seq, distinct := distinct, min := min } fuel hdist
    (existOf dests s) [] pos (priosOf dests s) res1 pos2 (by intro p hp; cases hp) hrun
  intro i j ri rj hij hi hj
  rw [Finset.eq_empty_iff_forall_not_mem]
  intro l hboth
  obtain ⟨hl, hmem⟩ := Finset.mem_inter.mp hboth
  rw [List.mem_toFinset] at hl hmem
  have hmi := mem_of_lookup _ i ri hi
  have hmj := mem_of_lookup _ j rj hj
  simp only [subtractExist, List.mem_map] at hmi hmj
  obtain ⟨p, hp, hpe⟩ := hmi
  obtain ⟨q, hq, hqe⟩ := hmj
  simp only [Prod.mk.injEq] at hpe hqe
  obtain ⟨hp1, hp2⟩ := hpe
  obtain ⟨hq1, hq2⟩ := hqe
  rw [← hp2] at hl
  rw [← hq2] at hmem
  exact hap p hp q hq (by rw [hp1, hq1]; exact hij) l (List.mem_filter.mp hl).1
    (List.mem_filter.mp hmem).1

/-- A run of C18: two items without replicas, destinations `10, 11, 12`,
`distinct = 2`, `min = 1`; the items get `10` and `11`. -/
theorem Stripe_disjoint_witness : ([10] : Locs).toFinset ∩ ([11] : Locs).toFinset = ∅ :=
  Stripe_disjoint 20 [(1, []), (2, [])] [10, 11, 12] (rr [10, 11, 12] 0) 0 2 1
    [(2, [11]), (1, [10])] 2 (by decide) (by decide!) 1 2 [10] [11] (by decide) (by decide)
    (by decide)

/-! ### Termination -/

theorem fill_mono (env : Env) (it : Item) (got : Locs) (res : S) :
    ∀ (fuel : Nat) (c : Cur) (r : Option ShortError × Cur),
      fill env it got res fuel c = some r → fill env it got res (fuel + 1) c = some r := by
  intro fuel
  induction fuel with
  | zero =>
    intro c r h
    by_cases hlt : (c.newLocs.length : Int) < env.min
    · rw [fill_zero_stuck env it got res c hlt] at h
      cases h
    · rw [fill_zero_done env it got res 0 c hlt] at h
      rw [fill_zero_done env it got res 1 c hlt]
      exact h
  | succ n ih =>
    intro c r h
    by_cases hlt : (c.newLocs.length : Int) < env.min
    · rw [fill, if_pos hlt] at h ⊢
      rcases hnx : next env got c with ⟨r0, c1⟩
      rw [hnx] at h
      cases r0 with
      | err e => exact h
      | skip => exact ih c1 r h
      | loc new =>
        dsimp only at h ⊢
        by_cases hin : new ∈ c1.newLocs
        · rw [if_pos hin] at h ⊢
          exact ih c1 r h
        · rw [if_neg hin] at h ⊢
          by_cases hrej : ((new :: c1.newLocs).length : Int) ≤ env.distinct
              ∧ S.exclusive (res.set it (new :: c1.newLocs)) it = false
          · rw [if_pos hrej] at h ⊢
            exact ih c1 r h
          · rw [if_neg hrej] at h ⊢
            exact ih _ r h
    · rw [fill_zero_done env it got res _ c hlt] at h
      rw [fill_zero_done env it got res _ c hlt]
      exact h

theorem fill_mono_le (env : Env) (it : Item) (got : Locs) (res : S) (c : Cur)
    (r : Option ShortError × Cur) (fuel : Nat) (h : fill env it got res fuel c = some r) :
    ∀ fuel2, fuel ≤ fuel2 → fill env it got res fuel2 c = some r := by
  intro fuel2 hle
  induction hle with
  | refl => exact h
  | step _ ih => exact fill_mono env it got res _ c r ih

theorem stripeItems_mono (env : Env) (fuel fuel2 : Nat) (hle : fuel ≤ fuel2) :
    ∀ (exist res : S) (pos : Nat) (prios : Loc → Nat) (r : Outcome × Nat),
      stripeItems env fuel exist res pos prios = some r →
      stripeItems env fuel2 exist res pos prios = some r := by
  intro exist
  induction exist with
  | nil =>
    intro res pos prios r h
    unfold stripeItems at h ⊢
    exact h
  | cons p rest ih =>
    obtain ⟨it, got⟩ := p
    intro res pos prios r h
    unfold stripeItems at h ⊢
    split at h
    · cases h
    · rename_i e c hfill
      rw [fill_mono_le env it got _ _ _ fuel hfill fuel2 hle]
      exact h
    · rename_i c hfill
      rw [fill_mono_le env it got _ _ _ fuel hfill fuel2 hle]
      exact ih _ _ _ r h

theorem Stripe_mono (fuel fuel2 : Nat) (hle : fuel ≤ fuel2) (s : S) (dests : Locs) (seq : Seq)
    (pos : Nat) (distinct min : Int) (r : Outcome × Nat)
    (h : Stripe fuel s dests seq pos distinct min = some r) :
    Stripe fuel2 s dests seq pos distinct min = some r := by
  unfold Stripe at h ⊢
  dsimp only at h ⊢
  cases hrun : stripeItems { dests := dests, seq := seq, distinct := distinct, min := min } fuel
      (existOf dests s) [] pos (priosOf dests s) with
  | none =>
    rw [hrun] at h
    cases h
  | some r1 =>
    rw [stripeItems_mono _ fuel fuel2 hle _ _ _ _ r1 hrun]
    rw [hrun] at h
    exact h

theorem rr_hits (ids : List Loc) (start pos : Nat) (d : Loc) (hd : d ∈ ids) :
    ∃ t, rr ids start (pos + t) = some d := by
  obtain ⟨i, hi, hid⟩ := List.getElem_of_mem hd
  have hK : 1 ≤ ids.length := by omega
  have hge : start + pos ≤ ids.length * (start + pos) := Nat.le_mul_of_pos_left _ hK
  refine ⟨i + ids.length * (start + pos) - (start + pos), ?_⟩
  have e : start + (pos + (i + ids.length * (start + pos) - (start + pos)))
      = i + ids.length * (start + pos) := by omega
  simp only [rr, e, Nat.add_mul_mod_self_left, Nat.mod_eq_of_lt hi]
  rw [List.getElem?_eq_getElem hi, hid]

theorem next_progress (env : Env) (got : Locs) (ids : List Loc) (start : Nat)
    (hseq : env.seq = rr ids start) (d : Loc) (hd : d ∈ env.dests) (hK : 0 < ids.length)
    (c : Cur) (t : Nat) (ht : env.seq (c.pos + t) = some d) :
    (∃ e, (next env got c).1 = .err e)
      ∨ ∃ t2, env.seq ((next env got c).2.pos + t2) = some d
          ∧ (next env got c).2.old.length + t2 + ids.length * weight got d (next env got c).2
            < c.old.length + t + ids.length * weight got d c := by
  have hwrap : env.seq (c.pos + 1 + (ids.length - 1)) = env.seq c.pos := by
    have e : c.pos + 1 + (ids.length - 1) = c.pos + ids.length := by omega
    rw [e, hseq, rr_period]
  have hstep : ∀ x : Option Loc, env.seq c.pos = x → x ≠ some d →
      ∃ t2, env.seq (c.pos + 1 + t2) = some d ∧ t2 < t := by
    intro x hx hne
    cases t with
    | zero =>
      rw [Nat.add_zero, hx] at ht
      exact absurd ht hne
    | succ t1 =>
      refine ⟨t1, ?_, Nat.lt_succ_self _⟩
      rw [← ht]
      congr 1
      omega
  unfold next
  cases hold : c.old with
  | cons x rest =>
    right
    refine ⟨t, ht, ?_⟩
    simp only [List.length_cons, weight]
    omega
  | nil =>
    dsimp only
    cases hx : env.seq c.pos with
    | none =>
      right
      obtain ⟨t2, h1, h2⟩ := hstep none hx (by simp)
      refine ⟨t2, h1, ?_⟩
      simp only [weight, hold, List.length_nil]
      omega
    | some x =>
      dsimp only
      by_cases hxd : x = d
      · subst hxd
        rw [if_neg (not_not.mpr hd)]
        by_cases hp : x ∉ got ∧ 0 < c.prios x
        · rw [if_pos hp]
          right
          refine ⟨ids.length - 1, by rw [hwrap, hx], ?_⟩
          simp only [weight, if_neg hp.1, if_true, hold, List.length_nil]
          have h1 := hp.2
          have e : ids.length * (c.prios x + if x ∈ c.seen then 0 else 1)
              = ids.length * (c.prios x - 1 + if x ∈ c.seen then 0 else 1) + ids.length := by
            have : c.prios x + (if x ∈ c.seen then 0 else 1)
                = (c.prios x - 1 + if x ∈ c.seen then 0 else 1) + 1 := by omega
            rw [this, Nat.mul_add, Nat.mul_one]
          rw [e]
          omega
        · rw [if_neg hp]
          by_cases hs : x ∈ c.seen
          · rw [if_pos hs]
            exact Or.inl ⟨_, rfl⟩
          · rw [if_neg hs]
            right
            refine ⟨ids.length - 1, by rw [hwrap, hx], ?_⟩
            simp only [weight, hold, List.length_nil, List.mem_cons, true_or, if_true,
              if_neg hs]
            have e : ids.length * ((if x ∈ got then 0 else c.prios x) + 1)
                = ids.length * ((if x ∈ got then 0 else c.prios x) + 0) + ids.length := by
              rw [Nat.mul_add, Nat.mul_add, Nat.mul_one, Nat.mul_zero, Nat.add_zero]
            rw [e]
            omega
      · obtain ⟨t2, h1, h2⟩ := hstep (some x) hx (by simpa using hxd)
        have hdx : ¬ d = x := fun e => hxd e.symm
        by_cases hin : x ∈ env.dests
        · rw [if_neg (not_not.mpr hin)]
          by_cases hp : x ∉ got ∧ 0 < c.prios x
          · rw [if_pos hp]
            right
            refine ⟨t2, h1, ?_⟩
            simp only [weight, hold, List.length_nil, if_neg hdx]
            omega
          · rw [if_neg hp]
            by_cases hs : x ∈ c.seen
            · rw [if_pos hs]
              exact Or.inl ⟨_, rfl⟩
            · rw [if_neg hs]
              right
              refine ⟨t2, h1, ?_⟩
              simp only [weight, hold, List.length_nil, List.mem_cons, hdx, false_or]
              omega
        · rw [if_pos hin]
          right
          refine ⟨t2, h1, ?_⟩
          simp only [weight, hold, List.length_nil]
          omega

theorem fill_terminates (env : Env) (it : Item) (got : Locs) (res : S) (ids : List Loc)
    (start : Nat) (hseq : env.seq = rr ids start) (d : Loc) (hd : d ∈ env.dests)
    (hK : 0 < ids.length) :
    ∀ (n : Nat) (c : Cur) (t : Nat), env.seq (c.pos + t) = some d →
      c.old.length + t + ids.length * weight got d c < n →
      ∃ r, fill env it got res n c = some r := by
  intro n
  induction n with
  | zero =>
    intro c t _ hlt
    omega
  | succ n ih =>
    intro c t ht hlt
    by_cases hmin : (c.newLocs.length : Int) < env.min
    · have hprog := next_progress env got ids start hseq d hd hK c t ht
      rw [fill, if_pos hmin]
      rcases hnx : next env got c with ⟨r0, c1⟩
      rw [hnx] at hprog
      cases r0 with
      | err e => exact ⟨_, rfl⟩
      | skip =>
        rcases hprog with ⟨e, he⟩ | ⟨t2, h1, h2⟩
        · cases he
        · exact ih c1 t2 h1 (by dsimp only at h2; omega)
      | loc new =>
        rcases hprog with ⟨e, he⟩ | ⟨t2, h1, h2⟩
        · cases he
        · dsimp only at h1 h2 ⊢
          have hc1 := ih c1 t2 h1 (by omega)
          have hw : weight got d { c1 with newLocs := new :: c1.newLocs } = weight got d c1 := rfl
          have hc2 := ih { c1 with newLocs := new :: c1.newLocs } t2 h1
            (by rw [hw]; dsimp only; omega)
          split_ifs
          · exact hc1
          · exact hc1
          · exact hc2
    · exact ⟨_, fill_zero_done env it got res _ c hmin⟩

theorem stripeItems_terminates (env : Env) (ids : List Loc) (start : Nat)
    (hseq : env.seq = rr ids start) (d : Loc) (hd : d ∈ env.dests) (hid : d ∈ ids) :
    ∀ (exist res : S) (pos : Nat) (prios : Loc → Nat),
      ∃ fuel r, stripeItems env fuel exist res pos prios = some r := by
  have hK : 0 < ids.length := List.length_pos.mpr (List.ne_nil_of_mem hid)
  intro exist
  induction exist with
  | nil =>
    intro res pos prios
    exact ⟨0, _, rfl⟩
  | cons p rest ih =>
    obtain ⟨it, got⟩ := p
    intro res pos prios
    obtain ⟨t, ht⟩ := rr_hits ids start pos d hid
    rw [← hseq] at ht
    obtain ⟨n1, r1, hr1⟩ : ∃ n1 r1, fill env it got (res.set it []) n1
        { old := got, seen := [], newLocs := [], pos := pos, prios := prios } = some r1 :=
      ⟨_, fill_terminates env it got (res.set it []) ids start hseq d hd hK
        (got.length + t + ids.length
          * weight got d { old := got, seen := [], newLocs := [], pos := pos, prios := prios } + 1)
        { old := got, seen := [], newLocs := [], pos := pos, prios := prios } t ht
        (Nat.lt_succ_self _)⟩
    obtain ⟨e1, c⟩ := r1
    cases e1 with
    | some e =>
      refine ⟨n1, (.short e, c.pos), ?_⟩
      unfold stripeItems
      rw [hr1]
    | none =>
      obtain ⟨f2, r2, h2⟩ := ih (res.set it c.newLocs) c.pos c.prios
      refine ⟨max n1 f2, r2, ?_⟩
      unfold stripeItems
      rw [fill_mono_le env it got _ _ _ _ hr1 _ (le_max_left _ _)]
      exact stripeItems_mono env f2 _ (le_max_right _ _) _ _ _ _ r2 h2

/-- C20 (termination).  With a round-robin sequence over a list of ids of
which at least one is a member of `dests`, `Stripe` returns, a result or a
`ShortError`, for every map of existing locations, every `distinct` and
every `min`: from some number of steps on the call has returned, always the
same value. -/
theorem Stripe_terminates (s : S) (dests ids : List Loc) (start pos : Nat)
    (distinct min : Int) (d : Loc) (hd : d ∈ dests) (hid : d ∈ ids) :
    ∃ fuel r, ∀ fuel2, fuel ≤ fuel2 →
      Stripe fuel2 s dests (rr ids start) pos distinct min = some r := by
  obtain ⟨fuel, r1, h1⟩ := stripeItems_terminates
    { dests := dests, seq := rr ids start, distinct := distinct, min := min } ids start rfl d hd
    hid (existOf dests s) [] pos (priosOf dests s)
  have hsome : ∃ r, Stripe fuel s dests (rr ids start) pos distinct min = some r := by
    unfold Stripe
    dsimp only
    rw [h1]
    obtain ⟨o, p1⟩ := r1
    cases o with
    | ok res => exact ⟨_, rfl⟩
    | short e => exact ⟨_, rfl⟩
  obtain ⟨r, hr⟩ := hsome
  exact ⟨fuel, r, fun fuel2 hle => Stripe_mono fuel fuel2 hle s dests _ pos distinct min r hr⟩

/-- A run of C20: two items, the single destination `10`, `distinct = 5`,
more than there are destinations, `min = 1`. -/
theorem Stripe_terminates_witness :
    ∃ fuel r, ∀ fuel2, fuel ≤ fuel2 →
      Stripe fuel2 [(1, []), (2, [])] [10] (rr [11, 10] 0) 0 5 1 = some r :=
  Stripe_terminates [(1, []), (2, [])] [10] [11, 10] 0 0 5 1 10 (by decide) (by decide)

/-! ### The call of the striper -/

theorem Procs_of_call (cfg : Striper) (sp : StripeP) (inp : Input) (reg : Reg) (cur : S)
    (du : Nat) (hlock : lockAll (workingSet inp) sp.reg [] = some (reg, cur))
    (hsum : sumDataUse (workingSet inp) 0 = .ok du) :
    Procs cfg sp inp
      = match cfg cur (destsFor sp du) sp.seqPos with
        | none => (.blocked, { sp with reg := reg })
        | some (.error e, pos) => (.fail e, { sp with reg := reg, seqPos := pos })
        | some (.ok plan, pos) =>
          match dispatch (workingSet inp) (destsFor sp du) plan
              [Proc.slice ((workingSet inp).map Prod.snd)] [] with
          | .error msg => (.panic msg, { sp with reg := reg, seqPos := pos })
          | .ok (cpProcs, wg) =>
            (.ok cpProcs
              { dataUse := du,
                running := plan.flatMap (fun p => p.2.map (fun id => (p.1, id))),
                wg := wg, unlockers := wg.map Prod.fst },
              { sp with reg := reg, seqPos := pos }) := by
  unfold Procs
  simp only [hlock, hsum]
  rfl

theorem Procs_no_call (cfg cfg2 : Striper) (sp : StripeP) (inp : Input)
    (h : lockAll (workingSet inp) sp.reg [] = none
      ∨ ∃ e, sumDataUse (workingSet inp) 0 = .error e) :
    Procs cfg sp inp = Procs cfg2 sp inp := by
  unfold Procs
  dsimp only
  rcases h with h | ⟨e, h⟩
  · simp only [h]
  · cases hl : lockAll (workingSet inp) sp.reg [] with
    | none => rfl
    | some rc => simp only [h]

theorem sumDataUse_eq :
    ∀ (chunks : List (Hash × Chunk)) (acc : Nat),
      (∀ p ∈ chunks, ∃ sz, p.2.size = some sz) → acc < 2 ^ 64 →
      sumDataUse chunks acc = .ok ((acc + totalSize chunks) % 2 ^ 64) := by
  intro chunks
  induction chunks with
  | nil =>
    intro acc _ hacc
    simp only [sumDataUse, totalSize, List.map_nil, List.sum_nil, Nat.add_zero]
    rw [Nat.mod_eq_of_lt hacc]
  | cons p rest ih =>
    obtain ⟨h, c⟩ := p
    intro acc hs hacc
    obtain ⟨sz, hsz⟩ := hs (h, c) (List.mem_cons_self _ _)
    dsimp only at hsz
    have hrest := ih ((acc + sz % 2 ^ 64) % 2 ^ 64)
      (fun q hq => hs q (List.mem_cons_of_mem _ hq)) (Nat.mod_lt _ (by norm_num))
    simp only [sumDataUse, calcDataUse, hsz, hrest, totalSize, List.map_cons, List.sum_cons,
      Option.getD_some]
    congr 1
    simp only [totalSize] at *
    omega

/-- C14, as the code has it.  When every chunk of the working set has a size,
the sizes add up to less than `2 ^ 64` and no mutex of the working set is
held, `Procs` calls the striper once, with `dests` the set of the ids of
`qman.Resources(dataUse)` for `dataUse` the sum of the sizes: whatever striper
it is given, what `Procs` does is what follows from the answer of the striper
at that set.  If the striper does not return there, `Procs` does not return;
if it answers with an error, `Procs` returns that error; if it answers with a
plan, `Procs` dispatches that plan. -/
theorem Procs_dests (cfg : Striper) (sp : StripeP) (inp : Input) (reg : Reg) (cur : S)
    (o : Option (Except Err S × Nat))
    (hsized : ∀ p ∈ workingSet inp, ∃ sz, p.2.size = some sz)
    (hfit : totalSize (workingSet inp) < 2 ^ 64)
    (hlock : lockAll (workingSet inp) sp.reg [] = some (reg, cur))
    (hcfg : cfg cur (destsFor sp (totalSize (workingSet inp))) sp.seqPos = o) :
    (∀ id, id ∈ destsFor sp (totalSize (workingSet inp))
        ↔ ∃ r ∈ sp.qman.Resources (totalSize (workingSet inp)), r.id = id)
      ∧ match o with
        | none => (Procs cfg sp inp).1 = .blocked
        | some (.error e, pos1) =>
          Procs cfg sp inp = (.fail e, { sp with reg := reg, seqPos := pos1 })
        | some (.ok plan, pos1) =>
          match dispatch (workingSet inp) (destsFor sp (totalSize (workingSet inp))) plan
              [Proc.slice ((workingSet inp).map Prod.snd)] [] with
          | .error msg => (Procs cfg sp inp).1 = .panic msg
          | .ok (cpProcs, wg) =>
            Procs cfg sp inp
              = (.ok cpProcs
                  { dataUse := totalSize (workingSet inp),
                    running := plan.flatMap (fun p => p.2.map (fun id => (p.1, id))),
                    wg := wg, unlockers := wg.map Prod.fst },
                { sp with reg := reg, seqPos := pos1 }) := by
  have hsum : sumDataUse (workingSet inp) 0 = .ok (totalSize (workingSet inp)) := by
    rw [sumDataUse_eq _ 0 hsized (by norm_num), Nat.zero_add, Nat.mod_eq_of_lt hfit]
  constructor
  · intro id
    simp only [destsFor, List.mem_dedup, List.mem_map]
  · have hcall := Procs_of_call cfg sp inp reg cur _ hlock hsum
    rw [hcfg] at hcall
    match o, hcall with
    | none, hcall =>
      dsimp only at hcall ⊢
      rw [hcall]
    | some (.error e, pos1), hcall =>
      dsimp only at hcall ⊢
      exact hcall
    | some (.ok plan, pos1), hcall =>
      dsimp only at hcall ⊢
      split
      · rename_i msg hd
        rw [hd] at hcall
        dsimp only at hcall
        rw [hcall]
      · rename_i cpProcs wg hd
        rw [hd] at hcall
        exact hcall

/-- The scenarios of C14 (`TestStripeDataUse`) with the striper
`Config{0, 1}`: with capacities `10: 2` and `11: 4`, the chunk of 2 bytes is
placed by the striper that answers on the destinations `{10, 11}` only, the
group of a chunk of 2 bytes and a chunk of 1 byte by the striper that answers
on `{11}` only. -/
theorem Procs_dests_witness :
    ((∀ id, id ∈ ([10, 11] : Locs) ↔ ∃ r ∈ quotaCopiers.qman.Resources 2, r.id = id)
        ∧ Procs ((Config.Stripe { Distinct := 0, Min := 1 } 20 (rr [10, 11] 0)).onDests [10, 11])
            quotaCopiers twoByteInput
          = (.ok [.slice [{ hash := 0, size := some 2 }], .copy 0 10]
              { dataUse := 2, running := [(0, 10)], wg := [(0, 1)], unlockers := [0] },
            { qman := [{ id := 10, capacity := some 2, used := 0 },
                { id := 11, capacity := some 4, used := 0 }],
              reg := [(0, { owners := [], locked := true })], seqPos := 1 }))
      ∧ (∀ id, id ∈ ([11] : Locs) ↔ ∃ r ∈ quotaCopiers.qman.Resources 3, r.id = id)
        ∧ Procs ((Config.Stripe { Distinct := 0, Min := 1 } 20 (rr [10, 11] 0)).onDests [11])
            quotaCopiers groupInput
          = (.ok [.slice [{ hash := 2, size := some 1 }, { hash := 1, size := some 2 }],
                .copy 2 11, .copy 1 11]
              { dataUse := 3, running := [(2, 11), (1, 11)], wg := [(2, 1), (1, 1)],
                unlockers := [2, 1] },
            { qman := [{ id := 10, capacity := some 2, used := 0 },
                { id := 11, capacity := some 4, used := 0 }],
              reg := [(1, { owners := [], locked := true }), (2, { owners := [], locked := true })],
              seqPos := 4 }) :=
  ⟨Procs_dests ((Config.Stripe { Distinct := 0, Min := 1 } 20 (rr [10, 11] 0)).onDests [10, 11])
      quotaCopiers twoByteInput [(0, { owners := [], locked := true })] [(0, [])]
      (some (.ok [(0, [10])], 1))
      (by
        intro p hp
        simp only [workingSet, twoByteInput, List.mem_singleton] at hp
        subst hp
        exact ⟨2, rfl⟩)
      (by decide!) (by decide!)
      (by
        have e : Stripe 20 [(0, [])] [10, 11] (rr [10, 11] 0) 0 0 1 = some (.ok [(0, [10])], 1) := by
          decide!
        have d : destsFor quotaCopiers (totalSize (workingSet twoByteInput)) = [10, 11] := by
          decide!
        rw [d]
        simp only [Striper.onDests, Config.Stripe, if_true, quotaCopiers, e]),
    Procs_dests ((Config.Stripe { Distinct := 0, Min := 1 } 20 (rr [10, 11] 0)).onDests [11])
      quotaCopiers groupInput
      [(1, { owners := [], locked := true }), (2, { owners := [], locked := true })]
      [(1, []), (2, [])] (some (.ok [(2, [11]), (1, [11])], 4))
      (by
        have e : workingSet groupInput
            = [(2, { hash := 2, size := some 1 }), (1, { hash := 1, size := some 2 })] := by
          decide!
        intro p hp
        rw [e] at hp
        simp only [List.mem_cons, List.mem_singleton, List.not_mem_nil, or_false] at hp
        rcases hp with rfl | rfl
        · exact ⟨1, rfl⟩
        · exact ⟨2, rfl⟩)
      (by decide!) (by decide!)
      (by
        have e : Stripe 20 [(1, []), (2, [])] [11] (rr [10, 11] 0) 0 0 1
            = some (.ok [(2, [11]), (1, [11])], 4) := by
          decide!
        have d : destsFor quotaCopiers (totalSize (workingSet groupInput)) = [11] := by
          decide!
        rw [d]
        simp only [Striper.onDests, Config.Stripe, if_true, quotaCopiers, e])⟩

/-- C14 (`data_use` is the sum of the data sizes), at an input where the code
departs from it: copiers `10` of capacity 2 and `11` of capacity 4, and a group
of three chunks of `2 ^ 63 - 1`, `2 ^ 63 - 1` and 2 bytes.  The sizes add up
to `2 ^ 64` and no copier has room for that, so that the set of the claim is
empty; the `uint64` sum of the code is 0, the striper is called with the
destinations `{10, 11}` (the striper that answers only there is answered, the
one that answers only on the empty set is not) and the three chunks are
dispatched to `10` and `11`. -/
theorem Procs_dataUse_wraps :
    totalSize (workingSet hugeGroupInput) = 2 ^ 64
      ∧ destsFor quotaCopiers (totalSize (workingSet hugeGroupInput)) = []
      ∧ (Procs ((Config.Stripe { Distinct := 0, Min := 1 } 20 (rr [10, 11] 0)).onDests [10, 11])
            quotaCopiers hugeGroupInput).1
          = .ok [.slice [{ hash := 3, size := some 2 },
                  { hash := 2, size := some 9223372036854775807 },
                  { hash := 1, size := some 9223372036854775807 }],
                .copy 3 10, .copy 2 11, .copy 1 10]
              { dataUse := 0, running := [(3, 10), (2, 11), (1, 10)],
                wg := [(3, 1), (2, 1), (1, 1)], unlockers := [3, 2, 1] }
      ∧ (Procs ((Config.Stripe { Distinct := 0, Min := 1 } 20 (rr [10, 11] 0)).onDests [])
            quotaCopiers hugeGroupInput).1 = .blocked := by
  decide!

/-! ### The processors that `Procs` assembles -/

theorem dispatch_error_msg (chunks : List (Hash × Chunk)) (all : List Id) :
    ∀ (l : List (Item × Locs)) (procs : List Proc) (wg : List (Hash × Nat)) (msg : String),
      dispatch chunks all l procs wg = .error msg →
      msg = "unknown copier ID" ∨ msg = "unknown chunk" := by
  intro l
  induction l with
  | nil =>
    intro procs wg msg h
    unfold dispatch at h
    cases h
  | cons p rest ih =>
    obtain ⟨item, locs⟩ := p
    intro procs wg msg h
    unfold dispatch at h
    split_ifs at h with hc hall
    · cases h
      exact Or.inr rfl
    · exact ih _ _ msg h
    · cases h
      exact Or.inl rfl

theorem dispatch_bad (chunks : List (Hash × Chunk)) (all : List Id) :
    ∀ (l : List (Item × Locs)) (procs : List Proc) (wg : List (Hash × Nat)),
      (∃ p ∈ l, ∃ id ∈ p.2, id ∉ all) →
      (∃ msg, dispatch chunks all l procs wg = .error msg)
        ∧ ((∀ p ∈ l, p.1 ∈ chunks.map Prod.fst) →
            dispatch chunks all l procs wg = .error "unknown copier ID") := by
  intro l
  induction l with
  | nil =>
    intro procs wg h
    obtain ⟨p, hp, _⟩ := h
    cases hp
  | cons p rest ih =>
    obtain ⟨item, locs⟩ := p
    intro procs wg hbad
    unfold dispatch
    by_cases hc : (chunks.lookup item).isNone = true
    · rw [if_pos hc]
      refine ⟨⟨_, rfl⟩, fun hknown => ?_⟩
      have hmem := hknown (item, locs) (List.mem_cons_self _ _)
      obtain ⟨q, hq, hqk⟩ := List.mem_map.mp hmem
      have hsome : (chunks.lookup item).isSome = true :=
        List.lookup_isSome_iff.mpr ⟨q, hq, by simpa using hqk.symm⟩
      rw [Option.isNone_iff_eq_none] at hc
      rw [hc] at hsome
      cases hsome
    · rw [if_neg hc]
      by_cases hall : locs.all (fun id => decide (id ∈ all)) = true
      · rw [if_pos hall]
        have hrest : ∃ p ∈ rest, ∃ id ∈ p.2, id ∉ all := by
          obtain ⟨p, hp, id, hid, hnot⟩ := hbad
          rcases List.mem_cons.mp hp with rfl | hp
          · have := List.all_eq_true.mp hall id hid
            exact absurd (of_decide_eq_true this) hnot
          · exact ⟨p, hp, id, hid, hnot⟩
        obtain ⟨h1, h2⟩ := ih _ _ hrest
        exact ⟨h1, fun hknown => h2 (fun q hq => hknown q (List.mem_cons_of_mem _ hq))⟩
      · rw [if_neg hall]
        exact ⟨⟨_, rfl⟩, fun _ => rfl⟩

/-- C16, as the code has it.  If the plan that the striper returns assigns a
working-set chunk to an id that is not the id of a copier of
`qman.Resources(dataUse)`, `Procs` panics and returns no processors; the value
of the panic is `"unknown copier ID"` when every item of the plan is a chunk of
the working set. -/
theorem Procs_unknown_copier (cfg : Striper) (sp : StripeP) (inp : Input) (reg : Reg) (cur : S)
    (du : Nat) (plan : S) (pos1 : Nat)
    (hlock : lockAll (workingSet inp) sp.reg [] = some (reg, cur))
    (hsum : sumDataUse (workingSet inp) 0 = .ok du)
    (hcfg : cfg cur (destsFor sp du) sp.seqPos = some (.ok plan, pos1))
    (hbad : ∃ p ∈ plan, ∃ id ∈ p.2, id ∉ destsFor sp du) :
    (∃ msg, (Procs cfg sp inp).1 = .panic msg)
      ∧ ((∀ p ∈ plan, p.1 ∈ (workingSet inp).map Prod.fst) →
          (Procs cfg sp inp).1 = .panic "unknown copier ID") := by
  obtain ⟨⟨msg, h1⟩, h2⟩ := dispatch_bad (workingSet inp) (destsFor sp du) plan
    [Proc.slice ((workingSet inp).map Prod.snd)] [] hbad
  rw [Procs_of_call cfg sp inp reg cur du hlock hsum, hcfg]
  dsimp only
  refine ⟨⟨msg, by rw [h1]⟩, fun hknown => by rw [h2 hknown]⟩

/-- The scenario of C16 (`TestStripe`, unknown copier ID): copiers `10`, `11`
and `12`, the striper returns `{1 → {11, 12, 13}}` for chunk `1`. -/
theorem Procs_unknown_copier_witness :
    (∃ msg, (Procs (testStriper (.ok [(1, [11, 12, 13])])) threeCopiers sizedInput).1 = .panic msg)
      ∧ ((∀ p ∈ ([(1, [11, 12, 13])] : S), p.1 ∈ (workingSet sizedInput).map Prod.fst) →
          (Procs (testStriper (.ok [(1, [11, 12, 13])])) threeCopiers sizedInput).1
            = .panic "unknown copier ID") :=
  Procs_unknown_copier (testStriper (.ok [(1, [11, 12, 13])])) threeCopiers sizedInput
    [(1, { owners := [10], locked := true })] [(1, [10])] 1 [(1, [11, 12, 13])] 0
    (by decide!) rfl rfl ⟨(1, [11, 12, 13]), by decide, 13, by decide, by decide!⟩

/-- C16 (the panic value is `"unknown copier ID"`), at an input where the code
departs from it: copiers `10`, `11`, `12`, the working set is chunk `1`, and
the striper returns `{2 → {10}, 1 → {13}}`.  Chunk `1` is assigned the unknown
id `13`, but the item `2`, visited first, is not in the working set and the
panic value is `"unknown chunk"`; visited in the other order it is
`"unknown copier ID"`. -/
theorem Procs_unknown_chunk_first :
    (Procs (testStriper (.ok [(2, [10]), (1, [13])])) threeCopiers sizedInput).1
        = .panic "unknown chunk"
      ∧ (Procs (testStriper (.ok [(1, [13]), (2, [10])])) threeCopiers sizedInput).1
        = .panic "unknown copier ID" := by
  decide!

theorem dispatch_procs (chunks : List (Hash × Chunk)) (all : List Id) :
    ∀ (l : List (Item × Locs)) (procs : List Proc) (wg : List (Hash × Nat))
      (procs2 : List Proc) (wg2 : List (Hash × Nat)),
      dispatch chunks all l procs wg = .ok (procs2, wg2) →
      procs2 = procs ++ l.flatMap (fun p => p.2.map (Proc.copy p.1)) := by
  intro l
  induction l with
  | nil =>
    intro procs wg procs2 wg2 h
    unfold dispatch at h
    cases h
    simp
  | cons p rest ih =>
    obtain ⟨item, locs⟩ := p
    intro procs wg procs2 wg2 h
    unfold dispatch at h
    split_ifs at h with hc hall
    rw [ih _ _ procs2 wg2 h, List.flatMap_cons, List.append_assoc]

theorem nodup_keys_mapSet {β : Type} (m : List (Nat × β)) (k : Nat) (v : β)
    (h : (m.map Prod.fst).Nodup) : ((mapSet m k v).map Prod.fst).Nodup := by
  unfold mapSet
  rw [List.map_cons, List.nodup_cons]
  constructor
  · intro hmem
    obtain ⟨q, hq, hqk⟩ := List.mem_map.mp hmem
    have := (List.mem_filter.mp hq).2
    simp only [decide_eq_true_eq] at this
    exact this hqk
  · exact (List.filter_sublist _).map Prod.fst |>.nodup h

theorem workingSet_ok (inp : Input) :
    ((workingSet inp).map Prod.fst).Nodup ∧ ∀ p ∈ workingSet inp, p.1 = p.2.hash := by
  unfold workingSet
  cases inp.group with
  | none => simp
  | some group =>
    dsimp only
    have hgen : ∀ (g : List Chunk) (m : List (Hash × Chunk)),
        ((m.map Prod.fst).Nodup ∧ ∀ p ∈ m, p.1 = p.2.hash) →
        (((g.foldl (fun m c => mapSet m c.hash c) m).map Prod.fst).Nodup
          ∧ ∀ p ∈ g.foldl (fun m c => mapSet m c.hash c) m, p.1 = p.2.hash) := by
      intro g
      induction g with
      | nil => intro m hm; exact hm
      | cons c rest ih =>
        intro m hm
        rw [List.foldl_cons]
        refine ih _ ⟨nodup_keys_mapSet m c.hash c hm.1, ?_⟩
        intro p hp
        unfold mapSet at hp
        rcases List.mem_cons.mp hp with rfl | hp
        · rfl
        · exact hm.2 p (List.mem_filter.mp hp).1
    exact hgen group [] ⟨by simp, by intro p hp; cases hp⟩

theorem workingSet_chunks_nodup (inp : Input) : ((workingSet inp).map Prod.snd).Nodup := by
  obtain ⟨hnd, hhash⟩ := workingSet_ok inp
  have e : (workingSet inp).map Prod.fst = ((workingSet inp).map Prod.snd).map (fun c => c.hash) := by
    rw [List.map_map]
    exact List.map_congr_left (fun p hp => hhash p hp)
  rw [e] at hnd
  exact List.Nodup.of_map _ hnd

theorem mem_keys_lookup {β : Type} (m : List (Nat × β)) (k : Nat) (h : k ∈ m.map Prod.fst) :
    ∃ v, m.lookup k = some v ∧ (k, v) ∈ m := by
  induction m with
  | nil => cases h
  | cons p rest ih =>
    obtain ⟨k2, v2⟩ := p
    by_cases hk : k = k2
    · subst hk
      exact ⟨v2, by simp, List.mem_cons_self _ _⟩
    · have hb : (k == k2) = false := by simpa using hk
      rw [List.map_cons, List.mem_cons] at h
      rcases h with h | h
      · exact absurd h hk
      · obtain ⟨v, hv, hm⟩ := ih h
        exact ⟨v, by simp only [List.lookup_cons, hb]; exact hv, List.mem_cons_of_mem _ hm⟩

theorem discardChunks_no_chunk (proc : Chunk → List ProcRes) (c : Chunk) (x : Chunk) :
    ProcRes.chunk x ∉ discardChunksProcess proc c := by
  intro h
  have := (List.mem_filter.mp h).2
  simp at this

/-- C17 (the processors returned).  On success `Procs` returns one processor
more than the plan of the striper has pairs of a chunk and a destination.  The
first one emits, whatever its argument, the chunks of the working set, every
one once and nothing else; the others are the copies of the planned pairs, and
the copy of a pair processes the planned chunk, whatever its argument, and
emits no chunk. -/
theorem Procs_processors (cfg : Striper) (sp sp1 : StripeP) (inp : Input) (reg : Reg) (cur : S)
    (du : Nat) (plan : S) (pos1 : Nat) (procs : List Proc) (pl : Placement)
    (hlock : lockAll (workingSet inp) sp.reg [] = some (reg, cur))
    (hsum : sumDataUse (workingSet inp) 0 = .ok du)
    (hcfg : cfg cur (destsFor sp du) sp.seqPos = some (.ok plan, pos1))
    (h : Procs cfg sp inp = (.ok procs pl, sp1)) :
    procs.length = 1 + (plan.map (fun p => p.2.length)).sum
      ∧ procs = Proc.slice ((workingSet inp).map Prod.snd)
          :: plan.flatMap (fun p => p.2.map (Proc.copy p.1))
      ∧ (∀ copier arg,
          (∀ r ∈ Proc.Process (workingSet inp) copier
              (Proc.slice ((workingSet inp).map Prod.snd)) arg,
            ∃ p ∈ workingSet inp, r = .chunk p.2)
          ∧ ∀ p ∈ workingSet inp,
              (Proc.Process (workingSet inp) copier
                (Proc.slice ((workingSet inp).map Prod.snd)) arg).count (.chunk p.2) = 1)
      ∧ ∀ p ∈ plan, ∀ id ∈ p.2,
          ∃ chunk, (p.1, chunk) ∈ workingSet inp
            ∧ ∀ copier arg,
                Proc.Process (workingSet inp) copier (Proc.copy p.1 id) arg
                    = discardChunksProcess (copier id) chunk
                  ∧ ∀ x, ProcRes.chunk x
                      ∉ Proc.Process (workingSet inp) copier (Proc.copy p.1 id) arg := by
  rw [Procs_of_call cfg sp inp reg cur du hlock hsum, hcfg] at h
  dsimp only at h
  split at h
  · cases h
  · rename_i cpProcs wg hdisp
    simp only [Prod.mk.injEq, ProcsOut.ok.injEq] at h
    obtain ⟨⟨hprocs, _⟩, _⟩ := h
    subst hprocs
    have hp := dispatch_procs _ _ _ _ _ _ _ hdisp
    have hkeys := (dispatch_ok _ _ _ _ _ _ _ hdisp).2
    rw [List.singleton_append] at hp
    refine ⟨?_, hp, ?_, ?_⟩
    · rw [hp, List.length_cons, List.length_flatMap]
      have e : (fun p : Item × Locs => (p.2.map (Proc.copy p.1)).length)
          = fun p => p.2.length := by
        funext p
        rw [List.length_map]
      simp only [Function.comp_def, e]
      omega
    · intro copier arg
      have hstream : Proc.Process (workingSet inp) copier
          (Proc.slice ((workingSet inp).map Prod.snd)) arg
          = ((workingSet inp).map Prod.snd).map ProcRes.chunk := rfl
      rw [hstream]
      constructor
      · intro r hr
        simp only [List.mem_map] at hr
        obtain ⟨c, ⟨p, hp1, rfl⟩, rfl⟩ := hr
        exact ⟨p, hp1, rfl⟩
      · intro p hp1
        have hnd : (((workingSet inp).map Prod.snd).map ProcRes.chunk).Nodup :=
          (workingSet_chunks_nodup inp).map (fun a b hab => ProcRes.chunk.inj hab)
        exact List.count_eq_one_of_mem hnd
          (List.mem_map_of_mem _ (List.mem_map_of_mem _ hp1))
    · intro p hp1 id _
      obtain ⟨chunk, hlk, hmem⟩ := mem_keys_lookup (workingSet inp) p.1 (hkeys p hp1)
      refine ⟨chunk, hmem, fun copier arg => ?_⟩
      have hstream : Proc.Process (workingSet inp) copier (Proc.copy p.1 id) arg
          = discardChunksProcess (copier id) chunk := by
        simp only [Proc.Process, hlk, onEndProcess, discardChunksProcess, chunkArgProcProcess]
      rw [hstream]
      exact ⟨rfl, fun x => discardChunks_no_chunk _ _ x⟩

/-- A run of C17: the group of chunks `1` and `2` with the plan
`{1 → {10, 11}, 2 → {10}}`: four processors, the slice of both chunks and three
copies. -/
theorem Procs_processors_witness :
    ([Proc.slice [{ hash := 2, size := some 1 }, { hash := 1, size := some 2 }],
        Proc.copy 1 10, Proc.copy 1 11, Proc.copy 2 10] : List Proc).length
        = 1 + (([(1, [10, 11]), (2, [10])] : S).map (fun p => p.2.length)).sum
      ∧ ([Proc.slice [{ hash := 2, size := some 1 }, { hash := 1, size := some 2 }],
          Proc.copy 1 10, Proc.copy 1 11, Proc.copy 2 10] : List Proc)
        = Proc.slice ((workingSet groupInput).map Prod.snd)
            :: ([(1, [10, 11]), (2, [10])] : S).flatMap (fun p => p.2.map (Proc.copy p.1))
      ∧ (∀ copier arg,
          (∀ r ∈ Proc.Process (workingSet groupInput) copier
              (Proc.slice ((workingSet groupInput).map Prod.snd)) arg,
            ∃ p ∈ workingSet groupInput, r = .chunk p.2)
          ∧ ∀ p ∈ workingSet groupInput,
              (Proc.Process (workingSet groupInput) copier
                (Proc.slice ((workingSet groupInput).map Prod.snd)) arg).count (.chunk p.2) = 1)
      ∧ ∀ p ∈ ([(1, [10, 11]), (2, [10])] : S), ∀ id ∈ p.2,
          ∃ chunk, (p.1, chunk) ∈ workingSet groupInput
            ∧ ∀ copier arg,
                Proc.Process (workingSet groupInput) copier (Proc.copy p.1 id) arg
                    = discardChunksProcess (copier id) chunk
                  ∧ ∀ x, ProcRes.chunk x
                      ∉ Proc.Process (workingSet groupInput) copier (Proc.copy p.1 id) arg :=
  Procs_processors (testStriper (.ok [(1, [10, 11]), (2, [10])])) twoCopiers
    { qman := [{ id := 10, capacity := none, used := 0 }, { id := 11, capacity := none, used := 0 }],
      reg := [(1, { owners := [], locked := true }), (2, { owners := [], locked := true })],
      seqPos := 0 }
    groupInput [(1, { owners := [], locked := true }), (2, { owners := [], locked := true })]
    [(1, []), (2, [])] 3 [(1, [10, 11]), (2, [10])] 0
    [.slice [{ hash := 2, size := some 1 }, { hash := 1, size := some 2 }],
      .copy 1 10, .copy 1 11, .copy 2 10]
    { dataUse := 3, running := [(1, 10), (1, 11), (2, 10)], wg := [(1, 2), (2, 1)],
      unlockers := [1, 2] }
    (by decide!) rfl rfl (by decide!)

/-! ### The hook of a copy -/

theorem used_AddUse (q : Qman) (k k2 : Id) (n : Nat) (sp : StripeP) :
    StripeP.used { sp with qman := q.AddUse k n } k2
      = if k2 = k ∧ (∃ r ∈ q, r.id = k) then StripeP.used { sp with qman := q } k2 + n
        else StripeP.used { sp with qman := q } k2 := by
  simp only [StripeP.used, Qman.AddUse]
  induction q with
  | nil => simp
  | cons r rest ih =>
    by_cases hr : r.id = k2
    · by_cases hk : r.id = k
      · have hkk : k2 = k := hr.symm.trans hk
        simp [List.find?_cons, hr, hk, hkk]
      · have hkk : ¬ k2 = k := fun e => hk (hr.trans e)
        simp [List.find?_cons, hr, hk, hkk]
    · by_cases hk : r.id = k
      · have hkk : ¬ k2 = k := fun e => hr (hk.trans e.symm)
        simp only [List.map_cons, hk, if_true, List.find?_cons, hkk, decide_False, false_and,
          if_false]
        have : decide (k = k2) = false := by simpa using fun e : k = k2 => hkk e.symm
        simp only [this]
        simpa [hkk] using ih
      · simp only [List.map_cons, hk, if_false, List.find?_cons, hr, decide_False]
        rw [ih]
        have : (∃ r2 ∈ r :: rest, r2.id = k) ↔ ∃ r2 ∈ rest, r2.id = k := by
          simp [hk]
        simp only [this]

theorem Procs_ok_parts (cfg : Striper) (sp sp1 : StripeP) (inp : Input) (procs : List Proc)
    (pl : Placement) (h : Procs cfg sp inp = (.ok procs pl, sp1)) :
    ∃ reg cur plan pos,
      lockAll (workingSet inp) sp.reg [] = some (reg, cur)
        ∧ sumDataUse (workingSet inp) 0 = .ok pl.dataUse
        ∧ cfg cur (destsFor sp pl.dataUse) sp.seqPos = some (.ok plan, pos)
        ∧ dispatch (workingSet inp) (destsFor sp pl.dataUse) plan
            [Proc.slice ((workingSet inp).map Prod.snd)] [] = .ok (procs, pl.wg)
        ∧ pl.running = plan.flatMap (fun p => p.2.map (fun id => (p.1, id)))
        ∧ pl.unlockers = pl.wg.map Prod.fst
        ∧ sp1 = { sp with reg := reg, seqPos := pos } := by
  cases hlock : lockAll (workingSet inp) sp.reg [] with
  | none =>
    unfold Procs at h
    dsimp only at h
    simp only [hlock] at h
    cases h
  | some rc =>
    obtain ⟨reg, cur⟩ := rc
    cases hsum : sumDataUse (workingSet inp) 0 with
    | error e =>
      unfold Procs at h
      dsimp only at h
      simp only [hlock, hsum] at h
      cases h
    | ok du =>
      rw [Procs_of_call cfg sp inp reg cur du hlock hsum] at h
      split at h
      · cases h
      · cases h
      · rename_i plan pos hcfg
        split at h
        · cases h
        · rename_i cpProcs wg hdisp
          simp only [Prod.mk.injEq, ProcsOut.ok.injEq] at h
          obtain ⟨⟨hprocs, hpl⟩, hsp⟩ := h
          subst hprocs hpl hsp
          exact ⟨reg, cur, plan, pos, rfl, rfl, hcfg, hdisp, rfl, rfl, rfl⟩

theorem dispatch_ids (chunks : List (Hash × Chunk)) (all : List Id) :
    ∀ (l : List (Item × Locs)) (procs : List Proc) (wg : List (Hash × Nat))
      (procs2 : List Proc) (wg2 : List (Hash × Nat)),
      dispatch chunks all l procs wg = .ok (procs2, wg2) →
      ∀ p ∈ l, ∀ id ∈ p.2, id ∈ all := by
  intro l
  induction l with
  | nil =>
    intro procs wg procs2 wg2 _ p hp
    cases hp
  | cons p0 rest ih =>
    obtain ⟨item, locs⟩ := p0
    intro procs wg procs2 wg2 h p hp id hid
    unfold dispatch at h
    split_ifs at h with hc hall
    rcases List.mem_cons.mp hp with rfl | hp
    · exact of_decide_eq_true (List.all_eq_true.mp hall id hid)
    · exact ih _ _ procs2 wg2 h p hp id hid

theorem destsFor_live (sp : StripeP) (du : Nat) (id : Id) (h : id ∈ destsFor sp du) :
    ∃ r ∈ sp.qman, r.id = id := by
  unfold destsFor at h
  rw [List.mem_dedup] at h
  obtain ⟨r, hr, hid⟩ := List.mem_map.mp h
  exact ⟨r, (List.mem_filter.mp hr).1, hid⟩

theorem run_dataUse :
    ∀ (evs : List Event) (st st2 : StripeP × Placement), run evs st = some st2 →
      st2.2.dataUse = st.2.dataUse := by
  intro evs
  induction evs with
  | nil =>
    intro st st2 h
    simp only [run, Option.some.injEq] at h
    rw [h]
  | cons ev rest ih =>
    intro st st2 h
    simp only [run] at h
    split at h
    · cases h
    · rename_i st1 hst
      rw [ih st1 st2 h]
      cases ev with
      | onEnd chunk copier failed =>
        simp only [step] at hst
        split_ifs at hst <;> (cases hst; rfl)
      | unlock chunk =>
        simp only [step] at hst
        split_ifs at hst
        cases hst
        rfl

theorem single_plan_running (plan : S) (h0 : Hash) (hk : ∀ p ∈ plan, p.1 = h0)
    (hnd : (plan.map Prod.fst).Nodup) (hs : ∀ p ∈ plan, p.2.Nodup) :
    (plan.flatMap (fun p => p.2.map (fun id => (p.1, id)))).Nodup := by
  match plan, hk, hnd, hs with
  | [], _, _, _ => simp
  | [p], _, _, hs =>
    simp only [List.flatMap_cons, List.flatMap_nil, List.append_nil]
    exact (hs p (List.mem_singleton.mpr rfl)).map (fun a b hab => (Prod.mk.inj hab).2)
  | p :: q :: rest, hk, hnd, _ =>
    have h1 := hk p (List.mem_cons_self _ _)
    have h2 := hk q (List.mem_cons_of_mem _ (List.mem_cons_self _ _))
    simp only [List.map_cons, List.nodup_cons, List.mem_cons] at hnd
    exact absurd (Or.inl (h1.trans h2.symm)) hnd.1

theorem live_AddUse (q : Qman) (k k2 : Id) (n : Nat) (h : ∃ r ∈ q, r.id = k2) :
    ∃ r ∈ q.AddUse k n, r.id = k2 := by
  obtain ⟨r, hr, hid⟩ := h
  refine ⟨_, List.mem_map_of_mem _ hr, ?_⟩
  dsimp only
  split_ifs <;> exact hid

theorem live_Delete (q : Qman) (k k2 : Id) (hne : k2 ≠ k) (h : ∃ r ∈ q, r.id = k2) :
    ∃ r ∈ q.Delete k, r.id = k2 := by
  obtain ⟨r, hr, hid⟩ := h
  exact ⟨r, List.mem_filter.mpr ⟨hr, by simpa [hid] using hne⟩, hid⟩

theorem step_single (h0 : Hash) (ev : Event) (sp sp2 : StripeP) (pl pl2 : Placement)
    (hok : SingleOk h0 sp pl) (h : step ev (sp, pl) = some (sp2, pl2)) : SingleOk h0 sp2 pl2 := by
  cases ev with
  | onEnd chunk copier failed =>
    by_cases hrun : (chunk, copier) ∈ pl.running
    · simp only [step, hrun, if_true, Option.some.injEq, Prod.mk.injEq] at h
      obtain ⟨hsp, hpl⟩ := h
      subst hpl
      refine ⟨hok.nodup.erase _, fun p hp => hok.same p (List.mem_of_mem_erase hp), ?_⟩
      intro p hp
      obtain ⟨hne, hin⟩ := (hok.nodup.mem_erase_iff).mp hp
      subst hsp
      cases failed with
      | true =>
        simp only [if_true]
        refine live_Delete sp.qman copier p.2 ?_ (hok.live p hin)
        intro he
        apply hne
        have h1 := hok.same p hin
        have h2 := hok.same _ hrun
        dsimp only at h2
        exact Prod.ext (h1.trans h2.symm) he
      | false =>
        simp only [Bool.false_eq_true, if_false]
        exact live_AddUse sp.qman copier p.2 pl.dataUse (hok.live p hin)
    · simp [step, hrun] at h
  | unlock chunk =>
    simp only [step] at h
    split_ifs at h with hen
    simp only [Option.some.injEq, Prod.mk.injEq] at h
    obtain ⟨hsp, hpl⟩ := h
    subst hpl hsp
    exact ⟨hok.nodup, hok.same, hok.live⟩

theorem run_single (h0 : Hash) :
    ∀ (evs : List Event) (sp sp2 : StripeP) (pl pl2 : Placement), SingleOk h0 sp pl →
      run evs (sp, pl) = some (sp2, pl2) → SingleOk h0 sp2 pl2 := by
  intro evs
  induction evs with
  | nil =>
    intro sp sp2 pl pl2 hok h
    simp only [run, Option.some.injEq, Prod.mk.injEq] at h
    obtain ⟨rfl, rfl⟩ := h
    exact hok
  | cons ev rest ih =>
    intro sp sp2 pl pl2 hok h
    simp only [run] at h
    split at h
    · cases h
    · rename_i st1 hst
      obtain ⟨sp1, pl1⟩ := st1
      exact ih sp1 sp2 pl1 pl2 (step_single h0 ev sp sp1 pl pl1 hok hst) h

theorem Procs_single_ok (cfg : Striper) (hwf : cfg.WellFormed) (hsets : cfg.Sets)
    (sp sp1 : StripeP) (c : Chunk) (procs : List Proc) (pl : Placement)
    (h : Procs cfg sp { chunk := c, group := none } = (.ok procs pl, sp1)) :
    SingleOk c.hash sp1 pl := by
  obtain ⟨reg, cur, plan, pos, _, _, hcfg, hdisp, hrun, _, hsp⟩ :=
    Procs_ok_parts cfg sp sp1 _ procs pl h
  have hkeys := (dispatch_ok _ _ _ _ _ _ _ hdisp).2
  have hids := dispatch_ids _ _ _ _ _ _ _ hdisp
  have hsame : ∀ p ∈ plan, p.1 = c.hash := by
    intro p hp
    simpa [workingSet] using hkeys p hp
  have hnd : pl.running.Nodup := by
    rw [hrun]
    exact single_plan_running plan c.hash hsame (hwf _ _ _ _ _ hcfg) (hsets _ _ _ _ _ hcfg)
  refine ⟨hnd, ?_, ?_⟩
  · intro p hp
    rw [hrun] at hp
    simp only [List.mem_flatMap, List.mem_map] at hp
    obtain ⟨q, hq, id, _, rfl⟩ := hp
    exact hsame q hq
  · intro p hp
    rw [hrun] at hp
    simp only [List.mem_flatMap, List.mem_map] at hp
    obtain ⟨q, hq, id, hid, rfl⟩ := hp
    rw [hsp]
    exact destsFor_live sp _ id (hids q hq id hid)

theorem Entry_Add_owners (e : Entry) (id : Id) : id ∈ (e.Add id).owners := by
  unfold Entry.Add
  split_ifs with h
  · exact h
  · exact List.mem_cons_self _ _

/-- C12 (success bookkeeping).  In the placement of a single chunk `c` of
`sz` bytes, when the `OnEnd` hook of the copy to copier `k` runs without
error, afterwards `k` is an owner of the hash of `c` and the used bytes of
`k` are the former ones plus `sz`; the owners of the other hashes and the used
bytes of the other copiers are as before. -/
theorem onEnd_success (cfg : Striper) (hwf : cfg.WellFormed) (hsets : cfg.Sets)
    (sp sp1 : StripeP) (c : Chunk) (sz : Nat) (hsz : c.size = some sz) (hfit : sz < 2 ^ 64)
    (procs : List Proc) (pl : Placement)
    (h : Procs cfg sp { chunk := c, group := none } = (.ok procs pl, sp1))
    (evs : List Event) (sp2 : StripeP) (pl2 : Placement)
    (hrun : run evs (sp1, pl) = some (sp2, pl2)) (k : Id) (sp3 : StripeP) (pl3 : Placement)
    (hhook : step (.onEnd c.hash k false) (sp2, pl2) = some (sp3, pl3)) :
    k ∈ sp3.owners c.hash
      ∧ sp3.used k = sp2.used k + sz
      ∧ (∀ h2, h2 ≠ c.hash → sp3.owners h2 = sp2.owners h2)
      ∧ ∀ k2, k2 ≠ k → sp3.used k2 = sp2.used k2 := by
  have hsingle := run_single c.hash evs sp1 sp2 pl pl2
    (Procs_single_ok cfg hwf hsets sp sp1 c procs pl h) hrun
  obtain ⟨_, _, _, _, _, hsum, _, _, _, _, _⟩ := Procs_ok_parts cfg sp sp1 _ procs pl h
  have hdu : pl2.dataUse = sz := by
    have h1 := run_dataUse evs (sp1, pl) (sp2, pl2) hrun
    dsimp only at h1
    rw [h1]
    simp only [workingSet, sumDataUse, calcDataUse, hsz, Except.ok.injEq] at hsum
    rw [← hsum, Nat.zero_add, Nat.mod_mod, Nat.mod_eq_of_lt hfit]
  by_cases hmem : (c.hash, k) ∈ pl2.running
  · simp only [step, hmem, if_true, Bool.false_eq_true, if_false, Option.some.injEq,
      Prod.mk.injEq] at hhook
    obtain ⟨hsp3, _⟩ := hhook
    subst hsp3
    have hlive := hsingle.live _ hmem
    dsimp only at hlive
    refine ⟨?_, ?_, ?_, ?_⟩
    · simp only [StripeP.owners]
      rw [held_mapSet_self]
      exact Entry_Add_owners _ k
    · have := used_AddUse sp2.qman k k pl2.dataUse sp2
      simp only [StripeP.used] at this ⊢
      rw [this, if_pos ⟨trivial, hlive⟩, hdu]
    · intro h2 hne
      simp only [StripeP.owners]
      rw [held_mapSet_ne _ _ _ _ hne]
    · intro k2 hne
      have := used_AddUse sp2.qman k k2 pl2.dataUse sp2
      simp only [StripeP.used] at this ⊢
      rw [this, if_neg (fun hh => hne hh.1)]
  · simp [step, hmem] at hhook

theorem testStriper_sets (res : S) (hs : ∀ p ∈ res, p.2.Nodup) : (testStriper (.ok res)).Sets := by
  intro s dests pos res1 pos1 h
  simp only [testStriper, Option.some.injEq, Prod.mk.injEq, Except.ok.injEq] at h
  rw [← h.1]
  exact hs

theorem stripeItems_sets (env : Env) (fuel : Nat) :
    ∀ (exist res : S) (pos : Nat) (prios : Loc → Nat) (res2 : S) (pos2 : Nat),
      (∀ p ∈ exist, ∀ l ∈ p.2, l ∈ env.dests) → (∀ p ∈ res, p.2.Nodup) →
      stripeItems env fuel exist res pos prios = some (.ok res2, pos2) →
      ∀ p ∈ res2, p.2.Nodup := by
  intro exist
  induction exist with
  | nil =>
    intro res pos prios res2 pos2 _ hres h
    unfold stripeItems at h
    cases h
    exact hres
  | cons p0 rest ih =>
    obtain ⟨it, got⟩ := p0
    intro res pos prios res2 pos2 hsub hres h
    unfold stripeItems at h
    split at h
    · cases h
    · cases h
    · rename_i c hfill
      have hc := fill_ok env it got (res.set it []) fuel _ c
        ⟨by simpa using hsub (it, got) (List.mem_cons_self _ _), by simp, by simp⟩ hfill
      refine ih (res.set it c.newLocs) c.pos c.prios res2 pos2
        (fun q hq => hsub q (List.mem_cons_of_mem _ hq)) ?_ h
      intro p hp
      rcases mem_set_cases res it c.newLocs p hp with rfl | ⟨hp1, _⟩
      · exact hc.1.nodup
      · exact hres p hp1

/-- The striper `Config.Stripe` returns maps of sets. -/
theorem Config_wellFormed (cfg : Config) (fuel : Nat) (seq : Seq) :
    (cfg.Stripe fuel seq).WellFormed ∧ (cfg.Stripe fuel seq).Sets := by
  constructor
  · intro s dests pos res pos1 h
    simp only [Config.Stripe] at h
    split at h
    · cases h
    · rename_i res0 pos0 hst
      simp only [Option.some.injEq, Prod.mk.injEq, Except.ok.injEq] at h
      obtain ⟨rfl, rfl⟩ := h
      obtain ⟨res1, hrun, rfl⟩ := Stripe_ok_inv fuel s dests seq pos _ _ _ _ hst
      rw [subtractExist_keys]
      exact (stripeItems_keys _ fuel _ [] pos _ res1 _ hrun).2 (by simp)
    · cases h
  · intro s dests pos res pos1 h
    simp only [Config.Stripe] at h
    split at h
    · cases h
    · rename_i res0 pos0 hst
      simp only [Option.some.injEq, Prod.mk.injEq, Except.ok.injEq] at h
      obtain ⟨rfl, rfl⟩ := h
      obtain ⟨res1, hrun, rfl⟩ := Stripe_ok_inv fuel s dests seq pos _ _ _ _ hst
      have hsets := stripeItems_sets _ fuel _ [] pos _ res1 _ (existOf_sub dests s)
        (by intro p hp; cases hp) hrun
      intro p hp
      simp only [subtractExist, List.mem_map] at hp
      obtain ⟨q, hq, rfl⟩ := hp
      exact (hsets q hq).filter _
    · cases h

/-- The scenario of C12 (simple triple replication): copiers `10`, `11`, `12`,
chunk `1` of 1 byte held by `10`, `distinct = 1`, `min = 3`; the plan is
`{1 → {12, 11}}`, and when the copy to `11` ends after the copy to `12`,
`11` is an owner of chunk `1` and has 1 byte used. -/
theorem onEnd_success_witness :
    11 ∈ StripeP.owners
        { qman := [{ id := 10, capacity := none, used := 0 }, { id := 11, capacity := none, used := 1 },
            { id := 12, capacity := none, used := 1 }],
          reg := [(1, { owners := [11, 12, 10], locked := true })], seqPos := 3 }
        ({ hash := 1, size := some 1 } : Chunk).hash
      ∧ StripeP.used
          { qman := [{ id := 10, capacity := none, used := 0 },
              { id := 11, capacity := none, used := 1 }, { id := 12, capacity := none, used := 1 }],
            reg := [(1, { owners := [11, 12, 10], locked := true })], seqPos := 3 } 11
        = StripeP.used
            { qman := [{ id := 10, capacity := none, used := 0 },
                { id := 11, capacity := none, used := 0 }, { id := 12, capacity := none, used := 1 }],
              reg := [(1, { owners := [12, 10], locked := true })], seqPos := 3 } 11 + 1
      ∧ (∀ h2, h2 ≠ ({ hash := 1, size := some 1 } : Chunk).hash →
          StripeP.owners
              { qman := [{ id := 10, capacity := none, used := 0 },
                  { id := 11, capacity := none, used := 1 }, { id := 12, capacity := none, used := 1 }],
                reg := [(1, { owners := [11, 12, 10], locked := true })], seqPos := 3 } h2
            = StripeP.owners
                { qman := [{ id := 10, capacity := none, used := 0 },
                    { id := 11, capacity := none, used := 0 },
                    { id := 12, capacity := none, used := 1 }],
                  reg := [(1, { owners := [12, 10], locked := true })], seqPos := 3 } h2)
      ∧ ∀ k2, k2 ≠ 11 →
          StripeP.used
              { qman := [{ id := 10, capacity := none, used := 0 },
                  { id := 11, capacity := none, used := 1 }, { id := 12, capacity := none, used := 1 }],
                reg := [(1, { owners := [11, 12, 10], locked := true })], seqPos := 3 } k2
            = StripeP.used
                { qman := [{ id := 10, capacity := none, used := 0 },
                    { id := 11, capacity := none, used := 0 },
                    { id := 12, capacity := none, used := 1 }],
                  reg := [(1, { owners := [12, 10], locked := true })], seqPos := 3 } k2 :=
  onEnd_success (Config.Stripe { Distinct := 1, Min := 3 } 20 (rr [10, 11, 12] 0))
    (Config_wellFormed _ _ _).1 (Config_wellFormed _ _ _).2 threeCopiers
    { qman := [{ id := 10, capacity := none, used := 0 }, { id := 11, capacity := none, used := 0 },
        { id := 12, capacity := none, used := 0 }],
      reg := [(1, { owners := [10], locked := true })], seqPos := 3 }
    { hash := 1, size := some 1 } 1 rfl (by decide)
    [.slice [{ hash := 1, size := some 1 }], .copy 1 12, .copy 1 11]
    { dataUse := 1, running := [(1, 12), (1, 11)], wg := [(1, 2)], unlockers := [1] }
    (by decide!) [.onEnd 1 12 false]
    { qman := [{ id := 10, capacity := none, used := 0 }, { id := 11, capacity := none, used := 0 },
        { id := 12, capacity := none, used := 1 }],
      reg := [(1, { owners := [12, 10], locked := true })], seqPos := 3 }
    { dataUse := 1, running := [(1, 11)], wg := [(1, 1)], unlockers := [1] }
    (by decide!) 11
    { qman := [{ id := 10, capacity := none, used := 0 }, { id := 11, capacity := none, used := 1 },
        { id := 12, capacity := none, used := 1 }],
      reg := [(1, { owners := [11, 12, 10], locked := true })], seqPos := 3 }
    { dataUse := 1, running := [], wg := [(1, 0)], unlockers := [1] }
    (by decide!)

/-! ### A copier that failed -/

theorem find_Delete (q : Qman) (k k2 : Id) (hne : k2 ≠ k) :
    (q.Delete k).find? (fun r => r.id = k2) = q.find? (fun r => r.id = k2) := by
  unfold Qman.Delete
  induction q with
  | nil => rfl
  | cons r rest ih =>
    by_cases hr : r.id = k
    · have h1 : decide (r.id ≠ k) = false := by simpa using hr
      have h2 : decide (r.id = k2) = false := by
        simpa using fun e : r.id = k2 => hne (e.symm.trans hr)
      rw [List.filter_cons, h1, List.find?_cons, h2]
      exact ih
    · have h1 : decide (r.id ≠ k) = true := by simpa using hr
      rw [List.filter_cons, h1]
      simp only [if_true, List.find?_cons]
      rw [ih]

theorem used_Delete (sp : StripeP) (k k2 : Id) (hne : k2 ≠ k) :
    StripeP.used { sp with qman := sp.qman.Delete k } k2 = StripeP.used sp k2 := by
  simp only [StripeP.used]
  rw [find_Delete sp.qman k k2 hne]

theorem Procs_qman (cfg : Striper) (sp : StripeP) (inp : Input) :
    (Procs cfg sp inp).2.qman = sp.qman := by
  unfold Procs
  dsimp only
  split
  · rfl
  · split
    · rfl
    · split
      · rfl
      · rfl
      · split <;> rfl

theorem step_qman (ev : Event) (st st2 : StripeP × Placement) (h : step ev st = some st2)
    (k : Id) (hk : ∀ r ∈ st.1.qman, r.id ≠ k) : ∀ r ∈ st2.1.qman, r.id ≠ k := by
  cases ev with
  | onEnd chunk copier failed =>
    simp only [step] at h
    split_ifs at h with hrun hf
    · cases h
      intro r hr
      exact hk r (List.mem_filter.mp hr).1
    · cases h
      intro r hr
      dsimp only [Qman.AddUse] at hr
      obtain ⟨r0, hr0, rfl⟩ := List.mem_map.mp hr
      split_ifs
      · exact hk r0 hr0
      · exact hk r0 hr0
  | unlock chunk =>
    simp only [step] at h
    split_ifs at h
    cases h
    exact hk

theorem Later_qman (sp sp2 : StripeP) (h : Later sp sp2) (k : Id)
    (hk : ∀ r ∈ sp.qman, r.id ≠ k) : ∀ r ∈ sp2.qman, r.id ≠ k := by
  induction h with
  | refl => exact hk
  | event sp1 sp3 ev pl pl2 _ hstep ih => exact step_qman ev (sp1, pl) (sp3, pl2) hstep k ih
  | procs sp1 cfg inp _ ih =>
    rw [Procs_qman]
    exact ih

theorem not_mem_destsFor (sp : StripeP) (k : Id) (hk : ∀ r ∈ sp.qman, r.id ≠ k) (du : Nat) :
    k ∉ destsFor sp du := by
  intro h
  obtain ⟨r, hr, hid⟩ := destsFor_live sp du k h
  exact hk r hr hid

theorem Procs_without (sp : StripeP) (k : Id) (hk : ∀ r ∈ sp.qman, r.id ≠ k)
    (cfg cfg2 : Striper) (inp : Input)
    (hagree : ∀ cur dests pos, k ∉ dests → cfg cur dests pos = cfg2 cur dests pos) :
    Procs cfg sp inp = Procs cfg2 sp inp := by
  cases hlock : lockAll (workingSet inp) sp.reg [] with
  | none => exact Procs_no_call cfg cfg2 sp inp (Or.inl hlock)
  | some rc =>
    obtain ⟨reg, cur⟩ := rc
    cases hsum : sumDataUse (workingSet inp) 0 with
    | error e => exact Procs_no_call cfg cfg2 sp inp (Or.inr ⟨e, hsum⟩)
    | ok du =>
      rw [Procs_of_call cfg sp inp reg cur du hlock hsum,
        Procs_of_call cfg2 sp inp reg cur du hlock hsum,
        hagree cur _ sp.seqPos (not_mem_destsFor sp k hk du)]

/-- C13 (eviction on failure).  When the `OnEnd` hook of the copy of chunk `c`
to copier `k` runs with an error, it deletes `k` from the quota manager, leaves
the registry of owners and the used bytes of the other copiers as they are, and
leaves the other copies of the placement to end on their own; in every later
state no `dests` that `Procs` builds contains `k`, so that `Procs` calls the
striper only with destinations without `k`. -/
theorem onEnd_failure (sp sp2 : StripeP) (pl pl2 : Placement) (c : Hash) (k : Id)
    (hhook : step (.onEnd c k true) (sp, pl) = some (sp2, pl2)) :
    sp2.qman = sp.qman.Delete k
      ∧ sp2.reg = sp.reg
      ∧ (∀ k2, k2 ≠ k → sp2.used k2 = sp.used k2)
      ∧ (∀ p ∈ pl.running, p ≠ (c, k) → p ∈ pl2.running)
      ∧ ∀ sp3, Later sp2 sp3 →
          (∀ du, k ∉ destsFor sp3 du)
            ∧ ∀ (cfg cfg2 : Striper) (inp : Input),
                (∀ cur dests pos, k ∉ dests → cfg cur dests pos = cfg2 cur dests pos) →
                Procs cfg sp3 inp = Procs cfg2 sp3 inp := by
  by_cases hmem : (c, k) ∈ pl.running
  · simp only [step, hmem, if_true, Option.some.injEq, Prod.mk.injEq] at hhook
    obtain ⟨hsp, hpl⟩ := hhook
    subst hsp hpl
    refine ⟨rfl, rfl, fun k2 hne => used_Delete sp k k2 hne,
      fun p hp hne => (List.mem_erase_of_ne hne).mpr hp, ?_⟩
    intro sp3 hlater
    have hgone : ∀ r ∈ sp3.qman, r.id ≠ k :=
      Later_qman _ sp3 hlater k (by
        intro r hr
        have := (List.mem_filter.mp hr).2
        simpa using this)
    exact ⟨not_mem_destsFor sp3 k hgone, fun cfg cfg2 inp hagree =>
      Procs_without sp3 k hgone cfg cfg2 inp hagree⟩
  · simp [step, hmem] at hhook

/-- A run of C13: in the placement of chunk `1` on the copiers `12` and `11`,
the copy to `11` ends with an error after the copy to `12` has succeeded. -/
theorem onEnd_failure_witness :
    ({ qman := [{ id := 10, capacity := none, used := 0 }, { id := 12, capacity := none, used := 1 }],
        reg := [(1, { owners := [12, 10], locked := true })], seqPos := 3 } : StripeP).qman
        = Qman.Delete
            ({ qman := [{ id := 10, capacity := none, used := 0 },
                 { id := 11, capacity := none, used := 0 }, { id := 12, capacity := none, used := 1 }],
               reg := [(1, { owners := [12, 10], locked := true })], seqPos := 3 } : StripeP).qman 11
      ∧ ({ qman := [{ id := 10, capacity := none, used := 0 },
             { id := 12, capacity := none, used := 1 }],
           reg := [(1, { owners := [12, 10], locked := true })], seqPos := 3 } : StripeP).reg
        = ({ qman := [{ id := 10, capacity := none, used := 0 },
               { id := 11, capacity := none, used := 0 }, { id := 12, capacity := none, used := 1 }],
             reg := [(1, { owners := [12, 10], locked := true })], seqPos := 3 } : StripeP).reg
      ∧ (∀ k2, k2 ≠ 11 →
          StripeP.used
              { qman := [{ id := 10, capacity := none, used := 0 },
                  { id := 12, capacity := none, used := 1 }],
                reg := [(1, { owners := [12, 10], locked := true })], seqPos := 3 } k2
            = StripeP.used
                { qman := [{ id := 10, capacity := none, used := 0 },
                    { id := 11, capacity := none, used := 0 },
                    { id := 12, capacity := none, used := 1 }],
                  reg := [(1, { owners := [12, 10], locked := true })], seqPos := 3 } k2)
      ∧ (∀ p ∈ ({ dataUse := 1, running := [(1, 11)], wg := [(1, 1)], unlockers := [1] }
            : Placement).running,
          p ≠ (1, 11) →
          p ∈ ({ dataUse := 1, running := [], wg := [(1, 0)], unlockers := [1] }
            : Placement).running)
      ∧ ∀ sp3,
          Later
              { qman := [{ id := 10, capacity := none, used := 0 },
                  { id := 12, capacity := none, used := 1 }],
                reg := [(1, { owners := [12, 10], locked := true })], seqPos := 3 } sp3 →
          (∀ du, 11 ∉ destsFor sp3 du)
            ∧ ∀ (cfg cfg2 : Striper) (inp : Input),
                (∀ cur dests pos, 11 ∉ dests → cfg cur dests pos = cfg2 cur dests pos) →
                Procs cfg sp3 inp = Procs cfg2 sp3 inp :=
  onEnd_failure
    { qman := [{ id := 10, capacity := none, used := 0 }, { id := 11, capacity := none, used := 0 },
        { id := 12, capacity := none, used := 1 }],
      reg := [(1, { owners := [12, 10], locked := true })], seqPos := 3 }
    { qman := [{ id := 10, capacity := none, used := 0 }, { id := 12, capacity := none, used := 1 }],
      reg := [(1, { owners := [12, 10], locked := true })], seqPos := 3 }
    { dataUse := 1, running := [(1, 11)], wg := [(1, 1)], unlockers := [1] }
    { dataUse := 1, running := [], wg := [(1, 0)], unlockers := [1] } 1 11 (by decide!)

/-! ### The release of the locks -/

theorem count_running_ge (l : S) (h : Hash) :
    ((l.map (fun p => (p.1, p.2.length))).lookup h).getD 0
      ≤ (l.flatMap (fun q => q.2.map (fun id => (q.1, id)))).countP (fun p => p.1 = h) := by
  induction l with
  | nil => simp
  | cons q rest ih =>
    obtain ⟨k, locs⟩ := q
    simp only [List.flatMap_cons, List.countP_append, List.map_cons, List.lookup_cons]
    by_cases hk : h = k
    · subst hk
      simp only [beq_self_eq_true, Option.getD_some]
      have : List.countP (fun p : Hash × Id => decide (p.1 = h)) (locs.map (fun id => (h, id)))
          = locs.length := by
        clear ih
        induction locs with
        | nil => rfl
        | cons a t iht => simp [List.countP_cons, iht]
      rw [this]
      omega
    · have hb : (h == k) = false := by simpa using hk
      simp only [hb]
      omega

theorem Procs_ok_plan (cfg : Striper) (sp sp1 : StripeP) (inp : Input) (reg : Reg) (cur : S)
    (du : Nat) (plan : S) (pos1 : Nat) (procs : List Proc) (pl : Placement)
    (hlock : lockAll (workingSet inp) sp.reg [] = some (reg, cur))
    (hsum : sumDataUse (workingSet inp) 0 = .ok du)
    (hcfg : cfg cur (destsFor sp du) sp.seqPos = some (.ok plan, pos1))
    (h : Procs cfg sp inp = (.ok procs pl, sp1)) :
    pl.wg = plan.map (fun p => (p.1, p.2.length))
      ∧ pl.unlockers = plan.map Prod.fst
      ∧ pl.running = plan.flatMap (fun p => p.2.map (fun id => (p.1, id)))
      ∧ pl.dataUse = du
      ∧ sp1 = { sp with reg := reg, seqPos := pos1 } := by
  rw [Procs_of_call cfg sp inp reg cur du hlock hsum, hcfg] at h
  dsimp only at h
  split at h
  · cases h
  · rename_i cpProcs wg hdisp
    simp only [Prod.mk.injEq, ProcsOut.ok.injEq] at h
    obtain ⟨⟨_, hpl⟩, hsp⟩ := h
    subst hpl hsp
    have hwg := (dispatch_ok _ _ _ _ _ _ _ hdisp).1
    rw [List.nil_append] at hwg
    subst hwg
    refine ⟨rfl, ?_, rfl, rfl, rfl⟩
    simp [List.map_map, Function.comp_def]

theorem step_tight (ws : List (Hash × Chunk)) (ev : Event) (sp sp2 : StripeP)
    (pl pl2 : Placement) (hok : PlTight ws sp pl) (h : step ev (sp, pl) = some (sp2, pl2)) :
    PlTight ws sp2 pl2 := by
  cases ev with
  | onEnd chunk copier failed =>
    by_cases hrun : (chunk, copier) ∈ pl.running
    · simp only [step, hrun, if_true, Option.some.injEq, Prod.mk.injEq] at h
      obtain ⟨hsp, hpl⟩ := h
      subst hpl
      have hheld : ∀ k, sp2.held k = sp.held k := by
        intro k
        subst hsp
        cases failed with
        | true => rfl
        | false =>
          simp only [StripeP.held, Bool.false_eq_true, if_false]
          by_cases hk : k = chunk
          · subst hk
            rw [held_mapSet_self, Entry_Add_locked]
          · rw [held_mapSet_ne _ _ _ _ hk]
      refine ⟨?_, fun p hp => by rw [hheld]; exact hok.free p hp⟩
      intro k
      have hle := hok.tight k
      rw [countP_erase_of_mem _ _ _ hrun] at hle
      dsimp only
      rw [lookup_map_dec]
      by_cases hk : k = chunk
      · subst hk
        simp only [decide_True, if_true] at hle
        simp only [if_true]
        omega
      · have hck : ¬ chunk = k := fun e => hk e.symm
        simp only [hck, decide_False, Bool.false_eq_true, if_false, Nat.add_zero] at hle
        simp only [hk, if_false]
        exact hle
    · simp [step, hrun] at h
  | unlock chunk =>
    simp only [step] at h
    split_ifs at h with hen
    simp only [Option.some.injEq, Prod.mk.injEq] at h
    obtain ⟨hsp, hpl⟩ := h
    subst hpl hsp
    refine ⟨hok.tight, ?_⟩
    intro p hp
    by_cases hpc : p.1 = chunk
    · right
      simp only [StripeP.held]
      rw [hpc, held_mapSet_self]
    · rcases hok.free p hp with hin | hfree
      · exact Or.inl ((List.mem_erase_of_ne hpc).mpr hin)
      · right
        simp only [StripeP.held] at hfree ⊢
        rw [held_mapSet_ne _ _ _ _ hpc]
        exact hfree

theorem run_tight (ws : List (Hash × Chunk)) :
    ∀ (evs : List Event) (sp sp2 : StripeP) (pl pl2 : Placement), PlTight ws sp pl →
      run evs (sp, pl) = some (sp2, pl2) → PlTight ws sp2 pl2 := by
  intro evs
  induction evs with
  | nil =>
    intro sp sp2 pl pl2 hok h
    simp only [run, Option.some.injEq, Prod.mk.injEq] at h
    obtain ⟨rfl, rfl⟩ := h
    exact hok
  | cons ev rest ih =>
    intro sp sp2 pl pl2 hok h
    simp only [run] at h
    split at h
    · cases h
    · rename_i st1 hst
      obtain ⟨sp1, pl1⟩ := st1
      exact ih sp1 sp2 pl1 pl2 (step_tight ws ev sp sp1 pl pl1 hok hst) h

theorem Procs_ok_tight (cfg : Striper) (sp sp1 : StripeP) (inp : Input) (reg : Reg) (cur : S)
    (du : Nat) (plan : S) (pos1 : Nat) (procs : List Proc) (pl : Placement)
    (hlock : lockAll (workingSet inp) sp.reg [] = some (reg, cur))
    (hsum : sumDataUse (workingSet inp) 0 = .ok du)
    (hcfg : cfg cur (destsFor sp du) sp.seqPos = some (.ok plan, pos1))
    (hcover : ∀ p ∈ workingSet inp, p.1 ∈ plan.map Prod.fst)
    (h : Procs cfg sp inp = (.ok procs pl, sp1)) :
    PlTight (workingSet inp) sp1 pl := by
  obtain ⟨hwg, hun, hrun, _, _⟩ :=
    Procs_ok_plan cfg sp sp1 inp reg cur du plan pos1 procs pl hlock hsum hcfg h
  refine ⟨fun k => ?_, fun p hp => Or.inl ?_⟩
  · rw [hwg, hrun]
    exact count_running_ge plan k
  · rw [hun]
    exact hcover p hp

theorem run_unlocks :
    ∀ (us : List Hash) (sp : StripeP) (pl : Placement), pl.unlockers = us →
      (∀ h, (pl.wg.lookup h).getD 0 = 0) →
      ∃ sp3 pl3, run (us.map Event.unlock) (sp, pl) = some (sp3, pl3) ∧ pl3.unlockers = [] := by
  intro us
  induction us with
  | nil =>
    intro sp pl hus _
    exact ⟨sp, pl, rfl, hus⟩
  | cons u rest ih =>
    intro sp pl hus hz
    have hen : u ∈ pl.unlockers ∧ (pl.wg.lookup u).getD 0 = 0 := by
      rw [hus]
      exact ⟨List.mem_cons_self _ _, hz u⟩
    have hstep : step (.unlock u) (sp, pl)
        = some ({ sp with reg := mapSet sp.reg u { sp.reg.List u with locked := false } },
            { pl with unlockers := pl.unlockers.erase u }) := by
      simp only [step]
      rw [if_pos hen]
    simp only [List.map_cons, run, hstep]
    apply ih
    · dsimp only
      rw [hus, List.erase_cons_head]
    · exact hz

theorem lockAll_free :
    ∀ (chunks : List (Hash × Chunk)) (reg : Reg) (cur : S), (chunks.map Prod.fst).Nodup →
      (∀ p ∈ chunks, (reg.List p.1).locked = false) → (lockAll chunks reg cur).isSome = true := by
  intro chunks
  induction chunks with
  | nil =>
    intro reg cur _ _
    rfl
  | cons p rest ih =>
    obtain ⟨hash, c⟩ := p
    intro reg cur hnd hfree
    have h0 : (reg.List hash).locked = false := hfree (hash, c) (List.mem_cons_self _ _)
    simp only [List.map_cons, List.nodup_cons] at hnd
    simp only [lockAll, h0, Bool.false_eq_true, if_false]
    apply ih _ _ hnd.2
    intro q hq
    have hne : q.1 ≠ hash := by
      intro e
      exact hnd.1 (e ▸ List.mem_map_of_mem Prod.fst hq)
    rw [held_mapSet_ne _ _ _ _ hne]
    exact hfree q (List.mem_cons_of_mem _ hq)

/-- C15: for a placement whose plan has an entry for every chunk of the working
set, once the `OnEnd` hook of every dispatched copy has run, with or without an
error, the goroutines that are left all get past `wg.Wait()` and unlock, and
then no mutex of the working set is held, whatever the size of the entries of
the plan; the locking loop of a second placement of the same working set goes
through. -/
theorem Procs_unlocks_all (cfg : Striper) (sp sp1 sp2 : StripeP) (inp : Input) (reg : Reg)
    (cur : S) (du : Nat) (plan : S) (pos1 : Nat) (procs : List Proc) (pl pl2 : Placement)
    (evs : List Event)
    (hlock : lockAll (workingSet inp) sp.reg [] = some (reg, cur))
    (hsum : sumDataUse (workingSet inp) 0 = .ok du)
    (hcfg : cfg cur (destsFor sp du) sp.seqPos = some (.ok plan, pos1))
    (hcover : ∀ p ∈ workingSet inp, p.1 ∈ plan.map Prod.fst)
    (h : Procs cfg sp inp = (.ok procs pl, sp1))
    (hrun : run evs (sp1, pl) = some (sp2, pl2))
    (hdone : pl2.running = []) :
    ∃ sp3 pl3, run (pl2.unlockers.map Event.unlock) (sp2, pl2) = some (sp3, pl3)
      ∧ pl3.unlockers = []
      ∧ (∀ p ∈ workingSet inp, sp3.held p.1 = false)
      ∧ (lockAll (workingSet inp) sp3.reg []).isSome = true := by
  have ht : PlTight (workingSet inp) sp2 pl2 :=
    run_tight _ evs sp1 sp2 pl pl2
      (Procs_ok_tight cfg sp sp1 inp reg cur du plan pos1 procs pl hlock hsum hcfg hcover h) hrun
  have hz : ∀ k, (pl2.wg.lookup k).getD 0 = 0 := by
    intro k
    have := ht.tight k
    rw [hdone] at this
    simpa using this
  obtain ⟨sp3, pl3, hrun3, hun3⟩ := run_unlocks pl2.unlockers sp2 pl2 rfl hz
  have ht3 : PlTight (workingSet inp) sp3 pl3 := run_tight _ _ sp2 sp3 pl2 pl3 ht hrun3
  have hfree : ∀ p ∈ workingSet inp, sp3.held p.1 = false := by
    intro p hp
    rcases ht3.free p hp with hin | hf
    · rw [hun3] at hin
      cases hin
    · exact hf
  exact ⟨sp3, pl3, hrun3, hun3, hfree,
    lockAll_free _ _ _ (workingSet_ok inp).1 (fun p hp => hfree p hp)⟩

/-- A run of C15: the group of chunks `1` and `2` on the copiers `10` and `11`
with the plan `{1 → {11}, 2 → {}}`; the copy of chunk `1` to `11` fails, then
the two goroutines unlock and neither mutex is held. -/
theorem Procs_unlocks_all_witness :
    ∃ sp3 pl3,
      run ([1, 2].map Event.unlock)
          (({ qman := [{ id := 10, capacity := none, used := 0 }],
              reg := [(1, { owners := [], locked := true }), (2, { owners := [], locked := true })],
              seqPos := 0 } : StripeP),
            ({ dataUse := 3, running := [], wg := [(1, 0), (2, 0)], unlockers := [1, 2] } : Placement))
        = some (sp3, pl3)
      ∧ pl3.unlockers = []
      ∧ (∀ p ∈ workingSet groupInput, sp3.held p.1 = false)
      ∧ (lockAll (workingSet groupInput) sp3.reg []).isSome = true :=
  Procs_unlocks_all (testStriper (.ok [(1, [11]), (2, [])])) twoCopiers
    { qman := [{ id := 10, capacity := none, used := 0 }, { id := 11, capacity := none, used := 0 }],
      reg := [(1, { owners := [], locked := true }), (2, { owners := [], locked := true })],
      seqPos := 0 }
    { qman := [{ id := 10, capacity := none, used := 0 }],
      reg := [(1, { owners := [], locked := true }), (2, { owners := [], locked := true })],
      seqPos := 0 }
    groupInput [(1, { owners := [], locked := true }), (2, { owners := [], locked := true })]
    [(1, []), (2, [])] 3 [(1, [11]), (2, [])] 0
    [.slice [{ hash := 2, size := some 1 }, { hash := 1, size := some 2 }], .copy 1 11]
    { dataUse := 3, running := [(1, 11)], wg := [(1, 1), (2, 0)], unlockers := [1, 2] }
    { dataUse := 3, running := [], wg := [(1, 0), (2, 0)], unlockers := [1, 2] }
    [.onEnd 1 11 true]
    (by decide!) rfl rfl (by decide!) (by decide!) (by decide!) rfl

/-! ### The checksum processor -/

theorem lookup_SetMeta_self (c : ss.Chunk) (key : String) (val : MetaVal) :
    (c.SetMeta key val).meta.lookup key = some val := by
  simp [ss.Chunk.SetMeta, List.lookup_cons]

theorem lookup_SetMeta_ne (c : ss.Chunk) (key k : String) (val : MetaVal) (hne : k ≠ key) :
    (c.SetMeta key val).meta.lookup k = c.meta.lookup k := by
  have hb : (k == key) = false := by simpa using hne
  simp only [ss.Chunk.SetMeta, List.lookup_cons, hb]
  induction c.meta with
  | nil => rfl
  | cons p rest ih =>
    by_cases hp : p.1 = key
    · have hk : (k == p.1) = false := by rw [hp]; exact hb
      rw [List.filter_cons_of_neg (by simpa using hp)]
      obtain ⟨a, b⟩ := p
      simp only [List.lookup_cons] at hk ⊢
      rw [hk]
      exact ih
    · rw [List.filter_cons_of_pos (by simpa using hp)]
      obtain ⟨a, b⟩ := p
      simp only [List.lookup_cons]
      rw [ih]

/-- C22: `Checksum.unprocess` sets the meta value `"integrityCheck"` to the
boolean `Sum(c.Data) == c.Hash`, returns no error whether the two agree or
not, and leaves the hash, the data and every other meta value as they were;
`Checksum.process` sets the hash to `Sum(c.Data)`, returns no error and
leaves the data, so that `unprocess` right after `process` sets
`"integrityCheck"` to `true`. -/
theorem Checksum_unprocess_check (Sum : List Nat → Hash) (c : ss.Chunk) :
    (Checksum.unprocess Sum c).1.meta.lookup "integrityCheck"
        = some (.bool (decide (Sum c.Data = c.Hash)))
      ∧ (Checksum.unprocess Sum c).2 = none
      ∧ (Checksum.unprocess Sum c).1.Hash = c.Hash
      ∧ (Checksum.unprocess Sum c).1.Data = c.Data
      ∧ (∀ k, k ≠ "integrityCheck" →
          (Checksum.unprocess Sum c).1.meta.lookup k = c.meta.lookup k)
      ∧ (Checksum.process Sum c).1.Hash = Sum c.Data
      ∧ (Checksum.process Sum c).1.Data = c.Data
      ∧ (Checksum.process Sum c).2 = none
      ∧ (Checksum.unprocess Sum (Checksum.process Sum c).1).1.meta.lookup "integrityCheck"
          = some (.bool true) := by
  refine ⟨?_, rfl, rfl, rfl, ?_, rfl, rfl, rfl, ?_⟩
  · simp only [Checksum.unprocess]
    rw [lookup_SetMeta_self]
    by_cases h : Sum c.Data = c.Hash
    · simp [h]
    · have hb : (Sum c.Data == c.Hash) = false := beq_eq_false_iff_ne.mpr h
      simp [h, hb]
  · intro k hk
    simp only [Checksum.unprocess]
    exact lookup_SetMeta_ne c _ k _ hk
  · simp only [Checksum.unprocess, Checksum.process]
    rw [lookup_SetMeta_self]
    simp

/-! ### At most `min` new destinations -/

theorem fill_exact (env : Env) (it : Item) (got : Locs) (res : S) :
    ∀ (fuel : Nat) (c c2 : Cur), c.newLocs.Nodup → (c.newLocs.length : Int) ≤ env.min →
      fill env it got res fuel c = some (none, c2) →
      c2.newLocs.Nodup ∧ (c2.newLocs.length : Int) = env.min := by
  intro fuel
  induction fuel with
  | zero =>
    intro c c2 hnd hle h
    unfold fill at h
    split_ifs at h with hlt
    cases h
    exact ⟨hnd, le_antisymm hle (not_lt.mp hlt)⟩
  | succ n ih =>
    intro c c2 hnd hle h
    unfold fill at h
    split_ifs at h with hlt
    · have hkeep := next_newLocs env got c
      split at h
      · cases h
      · rename_i c1 heq
        rw [heq] at hkeep
        dsimp only at hkeep
        exact ih c1 c2 (by rw [hkeep]; exact hnd) (by rw [hkeep]; exact hle) h
      · rename_i new c1 heq
        rw [heq] at hkeep
        dsimp only at hkeep
        have hnd1 : c1.newLocs.Nodup := by rw [hkeep]; exact hnd
        have hle1 : (c1.newLocs.length : Int) ≤ env.min := by rw [hkeep]; exact hle
        split_ifs at h with hin hex
        · exact ih c1 c2 hnd1 hle1 h
        · exact ih c1 c2 hnd1 hle1 h
        · refine ih { c1 with newLocs := new :: c1.newLocs } c2
            (List.nodup_cons.mpr ⟨hin, hnd1⟩) ?_ h
          dsimp only
          rw [List.length_cons, hkeep]
          push_cast
          omega
    · cases h
      exact ⟨hnd, le_antisymm hle (not_lt.mp hlt)⟩

theorem stripeItems_exact (env : Env) (fuel : Nat) (hmin : 0 ≤ env.min) :
    ∀ (exist res : S) (pos : Nat) (prios : Loc → Nat) (res2 : S) (pos2 : Nat),
      (∀ p ∈ res, p.2.Nodup ∧ (p.2.length : Int) = env.min) →
      stripeItems env fuel exist res pos prios = some (.ok res2, pos2) →
      ∀ p ∈ res2, p.2.Nodup ∧ (p.2.length : Int) = env.min := by
  intro exist
  induction exist with
  | nil =>
    intro res pos prios res2 pos2 hres h
    unfold stripeItems at h
    cases h
    exact hres
  | cons p0 rest ih =>
    obtain ⟨it, got⟩ := p0
    intro res pos prios res2 pos2 hres h
    unfold stripeItems at h
    split at h
    · cases h
    · cases h
    · rename_i c hfill
      have hc := fill_exact env it got (res.set it []) fuel _ c List.nodup_nil
        (by simpa using hmin) hfill
      refine ih (res.set it c.newLocs) c.pos c.prios res2 pos2 ?_ h
      intro p hp
      rcases mem_set_cases res it c.newLocs p hp with rfl | ⟨hp, _⟩
      · exact hc
      · exact hres p hp

theorem stripeItems_min_zero (env : Env) (fuel : Nat) (hmin : env.min ≤ 0) :
    ∀ (exist res : S) (pos : Nat) (prios : Loc → Nat),
      stripeItems env fuel exist res pos prios
        = some (.ok (exist.foldl (fun r p => r.set p.1 []) res), pos) := by
  intro exist
  induction exist with
  | nil =>
    intro res pos prios
    rfl
  | cons p0 rest ih =>
    obtain ⟨it, got⟩ := p0
    intro res pos prios
    unfold stripeItems
    rw [fill_zero_done env it got (res.set it []) fuel _
      (by simp only [List.length_nil, Nat.cast_zero, not_lt]; exact hmin)]
    dsimp only
    rw [ih]
    rfl

theorem foldl_set_empty :
    ∀ (exist res : S), (∀ p ∈ res, p.2 = []) →
      ∀ p ∈ exist.foldl (fun r q => r.set q.1 []) res, p.2 = [] := by
  intro exist
  induction exist with
  | nil =>
    intro res hres
    exact hres
  | cons p0 rest ih =>
    intro res hres
    rw [List.foldl_cons]
    apply ih
    intro p hp
    rcases mem_set_cases res p0.1 [] p hp with rfl | ⟨hp, _⟩
    · rfl
    · exact hres p hp

/-- C21: for `min ≥ 0`, a successful `Stripe` selects exactly `min` locations
for every item before the item's admissible existing locations are
subtracted, so every set of the result has at most `min` members; and with
`min = 0` the call returns, whatever the sequence and `distinct`, a result
whose sets are all empty, with the sequence in the state in which the call
found it. -/
theorem Stripe_at_most_min (fuel : Nat) (s : S) (dests : Locs) (seq : Seq) (pos : Nat)
    (distinct min : Int) (res : S) (pos2 : Nat) (hmin : 0 ≤ min)
    (h : Stripe fuel s dests seq pos distinct min = some (.ok res, pos2)) :
    (∃ res1,
        stripeItems { dests := dests, seq := seq, distinct := distinct, min := min } fuel
            (existOf dests s) [] pos (priosOf dests s) = some (.ok res1, pos2)
          ∧ res = subtractExist (existOf dests s) res1
          ∧ ∀ p ∈ res1, p.2.Nodup ∧ (p.2.length : Int) = min)
      ∧ (∀ p ∈ res, p.2.Nodup ∧ (p.2.length : Int) ≤ min)
      ∧ ∃ res0, (∀ p ∈ res0, p.2 = [])
          ∧ ∀ (fuel2 : Nat) (seq2 : Seq) (distinct2 : Int),
              Stripe fuel2 s dests seq2 pos distinct2 0 = some (.ok res0, pos) := by
  obtain ⟨res1, hrun, hres⟩ := Stripe_ok_inv fuel s dests seq pos distinct min res pos2 h
  have hex := stripeItems_exact
    { dests := dests, seq := seq, distinct := distinct, min := min } fuel hmin
    (existOf dests s) [] pos (priosOf dests s) res1 pos2 (by intro p hp; cases hp) hrun
  refine ⟨⟨res1, hrun, hres, hex⟩, ?_, ?_⟩
  · intro p hp
    rw [hres] at hp
    simp only [subtractExist, List.mem_map] at hp
    obtain ⟨q, hq, rfl⟩ := hp
    obtain ⟨hnd, hlen⟩ := hex q hq
    dsimp only at hlen
    refine ⟨hnd.filter _, ?_⟩
    have hle : (q.2.filter (fun loc => loc ∉ ((existOf dests s).lookup q.1).getD [])).length
        ≤ q.2.length := List.length_filter_le _ _
    dsimp only
    omega
  · refine ⟨subtractExist (existOf dests s)
      ((existOf dests s).foldl (fun r p => r.set p.1 []) []), ?_, ?_⟩
    · intro p hp
      simp only [subtractExist, List.mem_map] at hp
      obtain ⟨q, hq, rfl⟩ := hp
      have he := foldl_set_empty (existOf dests s) [] (by intro p hp; cases hp) q hq
      dsimp only
      rw [he]
      rfl
    · intro fuel2 seq2 distinct2
      unfold Stripe
      dsimp only
      rw [stripeItems_min_zero _ fuel2 (le_refl _)]

/-- A run of C21: `existing = {1 → {10}, 2 → {}}`, `dests = {10, 11, 12}`,
`distinct = 1`, `min = 2`.  The loop selects `{11, 10}` for item `1` and
`{11, 12}` for item `2`, two locations each; the result is
`{1 → {11}, 2 → {11, 12}}`. -/
theorem Stripe_at_most_min_witness :
    (∃ res1,
        stripeItems { dests := [10, 11, 12], seq := rr [10, 11, 12] 0, distinct := 1, min := 2 } 30
            (existOf [10, 11, 12] [(1, [10]), (2, [])]) [] 0
            (priosOf [10, 11, 12] [(1, [10]), (2, [])]) = some (.ok res1, 5)
          ∧ ([(2, [11, 12]), (1, [11])] : S)
              = subtractExist (existOf [10, 11, 12] [(1, [10]), (2, [])]) res1
          ∧ ∀ p ∈ res1, p.2.Nodup ∧ (p.2.length : Int) = 2)
      ∧ (∀ p ∈ ([(2, [11, 12]), (1, [11])] : S), p.2.Nodup ∧ (p.2.length : Int) ≤ 2)
      ∧ ∃ res0, (∀ p ∈ res0, p.2 = [])
          ∧ ∀ (fuel2 : Nat) (seq2 : Seq) (distinct2 : Int),
              Stripe fuel2 [(1, [10]), (2, [])] [10, 11, 12] seq2 0 distinct2 0
                = some (.ok res0, 0) :=
  Stripe_at_most_min 30 [(1, [10]), (2, [])] [10, 11, 12] (rr [10, 11, 12] 0) 0 1 2
    [(2, [11, 12]), (1, [11])] 5 (by decide) (by decide!)

end Scat
